import Mathlib

/-!
Shallow embedding of the `webr` HTML tokenizer (`src/webr/html/parser.py`)
and tree builder / node model / serializer (`src/webr/html/document.py`).

Strings are modelled as `List Char`; positions are `Nat` indices into the
buffer, exactly as in the Python source.  Python's fallible operations are
modelled explicitly: an out-of-range single-character index `s[i]`
(which raises `IndexError` in Python) and the `raise Exception(...)` sites
are both surfaced in an `Except`-style result type `PyM`.
-/

namespace Webr

abbrev Str := List Char

/-- Python `str.isspace()` restricted to the ASCII whitespace characters
(space, tab, newline, carriage return, vertical tab, form feed). -/
def pyIsSpace (c : Char) : Bool :=
  c == ' ' || c == '\t' || c == '\n' || c == '\r' ||
  c == Char.ofNat 11 || c == Char.ofNat 12

/-- ASCII lower-case letter. -/
def isLowerAlpha (c : Char) : Bool := 'a' ≤ c && c ≤ 'z'

/-- ASCII upper-case letter. -/
def isUpperAlpha (c : Char) : Bool := 'A' ≤ c && c ≤ 'Z'

/-- Python `str.isalpha()` (ASCII fragment). -/
def pyIsAlpha (c : Char) : Bool := isLowerAlpha c || isUpperAlpha c

/-- ASCII digit. -/
def pyIsDigit (c : Char) : Bool := '0' ≤ c && c ≤ '9'

/-- Python `str.isalnum()` (ASCII fragment). -/
def pyIsAlnum (c : Char) : Bool := pyIsAlpha c || pyIsDigit c

/-- Python `str.lower()` on a single character (ASCII fragment). -/
def lowerChar (c : Char) : Char :=
  if isUpperAlpha c then Char.ofNat (c.toNat + 32) else c

/-- Python `str.upper()` on a single character (ASCII fragment). -/
def upperChar (c : Char) : Char :=
  if isLowerAlpha c then Char.ofNat (c.toNat - 32) else c

/-- Python `str.lower()`. -/
def pyLower (s : Str) : Str := s.map lowerChar

/-- Python `str.upper()`. -/
def pyUpper (s : Str) : Str := s.map upperChar

/-- Python slicing `s[i:j]` with non-negative bounds (clamping, empty when
`j ≤ i`), as used throughout the tokenizer. -/
def slice (cs : Str) (i j : Nat) : Str := (cs.drop i).take (j - i)

/-- Python `str.strip()`: remove leading and trailing whitespace. -/
def pyStrip (s : Str) : Str :=
  ((s.dropWhile pyIsSpace).reverse.dropWhile pyIsSpace).reverse

/-- Number of leading whitespace characters of a suffix; the loop body of
`HTMLParser._readWhitespace`. -/
def countWs : Str → Nat
  | [] => 0
  | c :: cs => if pyIsSpace c then countWs cs + 1 else 0

/-- `HTMLParser._readWhitespace` (parser.py:505): advance `position` over
whitespace, stopping at the first non-whitespace character or end of input. -/
def readWhitespace (cs : Str) (pos : Nat) : Nat := pos + countWs (cs.drop pos)

/-- Offset of the first position (within a suffix) at which `sub` occurs as a
prefix; helper for Python `str.find`. -/
def findIdx (sub : Str) : Str → Option Nat
  | [] => if sub.isPrefixOf ([] : Str) then some 0 else none
  | c :: cs =>
    if sub.isPrefixOf (c :: cs) then some 0
    else (findIdx sub cs).map (· + 1)

/-- Python `s.find(sub, start)`: index of the first occurrence of `sub` at or
after `start`, `none` standing for Python's `-1`. -/
def pyFind (cs sub : Str) (start : Nat) : Option Nat :=
  (findIdx sub (cs.drop start)).map (start + ·)

/-- Python `dict` lookup on an insertion-ordered association list. -/
def dictGet (d : List (Str × Str)) (k : Str) : Option Str :=
  (d.find? (fun p => p.1 == k)).map (·.2)

/-- Python `k in d` on an insertion-ordered association list. -/
def dictContains (d : List (Str × Str)) (k : Str) : Bool :=
  d.any (fun p => p.1 == k)

/-- Python `d[k] = v` on an insertion-ordered association list: an existing
key keeps its position and gets the new value, a new key is appended. -/
def dictSet (d : List (Str × Str)) (k v : Str) : List (Str × Str) :=
  if dictContains d k then d.map (fun p => if p.1 == k then (k, v) else p)
  else d ++ [(k, v)]

/-- The Python error kinds surfaced by the tokenizer and the tree builder
(each constructor names one `raise` site, or `IndexError`). -/
inductive ErrKind
  /-- parser.py:81 — "Could not read a node, text node or comment at position ...". -/
  | unparsableSegment (pos : Nat)
  /-- document.py:117 — "A close tag was found that has no matching open at position ...". -/
  | closeNoMatch (pos : Nat)
  /-- document.py:120 — "A closing tag was found at the root level of the document at position ...". -/
  | strayCloseAtRoot (pos : Nat)
  /-- document.py:191 — "HTML ended before all tags were closed.". -/
  | unclosedElement
  /-- document.py:179 — "An unidentified tag was found at position ...". -/
  | unidentifiedTag (pos : Nat)
  /-- document.py:128 / document.py:187 — "Unknown node type.". -/
  | unknownNodeType
deriving DecidableEq, Repr

/-- A Python-level failure: an uncontrolled `IndexError` from an out-of-range
single-character index, one of the `raise Exception` sites, or exhaustion of
the explicit recursion fuel of the model (never reached with sufficient fuel). -/
inductive PyError
  | indexError (pos : Nat)
  | exc (k : ErrKind)
  | fuelExhausted
deriving DecidableEq, Repr

/-- Result monad for the embedded Python code. -/
abbrev PyM (α : Type) : Type := Except PyError α

/-- Python `s[i]` on a single character: the value, or `IndexError`. -/
def pyIndex (cs : Str) (i : Nat) : PyM Char :=
  match cs.get? i with
  | some c => .ok c
  | none => .error (.indexError i)

/-- `HTMLParserElementSegment` (parser.py:546): the source fields `open` and
`close` are Lean keywords and are rendered as `isOpen` / `isClose`. -/
structure ElemSeg where
  text : Str := []
  start : Nat := 0
  endPos : Nat := 0
  name : Str := []
  attrs : List (Str × Str) := []
  isOpen : Bool := false
  isClose : Bool := false
deriving DecidableEq, Repr

/-- The segment union: `HTMLParserElementSegment`, `HTMLParserTextSegment`,
`HTMLParserCommentSegment` (parser.py:535-573), each carrying the base-class
fields `text`, `start`, `end` (the latter rendered `endPos`). -/
inductive Segment
  | elem (e : ElemSeg)
  | textS (text : Str) (start : Nat) (endPos : Nat)
  | commentS (text : Str) (start : Nat) (endPos : Nat) (comment : Str)
deriving DecidableEq, Repr

/-- The `end` field of a segment. -/
def Segment.endP : Segment → Nat
  | .elem e => e.endPos
  | .textS _ _ e => e
  | .commentS _ _ e _ => e

/-- `HTMLParser._contextSwitchTags` (parser.py:14). -/
def contextSwitchTags : List Str := ["script".toList, "style".toList, "block".toList]

/-- `HTMLParser._unwrap` (parser.py:520): remove surrounding quotes
(`text[1:len(text)-1]`) when the text starts with `"` or `'`. -/
def pyUnwrap (t : Str) : Str :=
  match t with
  | c :: _ => if c == '"' || c == '\'' then slice t 1 (t.length - 1) else t
  | [] => t

/-- Loop body of the quoted scans in `_readTagAttributeProperty`
(parser.py:362-373) and `_readTagAttributeValue` (parser.py:412-423):
scan a suffix for the closing quote, skipping a character after each
backslash; result is the number of characters consumed through the closing
quote, `none` when the quote is never matched. -/
def quotedScanL (quote : Char) : Str → Option Nat
  | [] => none
  | [c] => if c == quote then some 1 else none
  | c :: c2 :: cs =>
    if c == quote then some 1
    else if c == '\\' then (quotedScanL quote cs).map (· + 2)
    else (quotedScanL quote (c2 :: cs)).map (· + 1)

/-- The same quoted scan in absolute-position form: the end position just
past the closing quote, starting the scan at `pos`. -/
def quotedScan (cs : Str) (quote : Char) (pos : Nat) : Option Nat :=
  (quotedScanL quote (cs.drop pos)).map (pos + ·)

/-- Python `char.isalnum` referenced WITHOUT calling it (parser.py:386):
the expression evaluates to the bound method object, which is always truthy,
so `not char.isalnum` is always falsy. -/
def isalnumUncalled : Bool := true

/-- Loop of the unquoted branch of `_readTagAttributeProperty`
(parser.py:380-389): number of characters consumed before a stop character
(whitespace, `=`, `/`, `>`) or end of input; `none` models the strict-mode
`return None` branch (which is unreachable, see `isalnumUncalled`). -/
def propScanL (strict : Bool) : Str → Option Nat
  | [] => some 0
  | c :: cs =>
    if pyIsSpace c || c == '=' || c == '/' || c == '>' then some 0
    else if strict && !isalnumUncalled && !(c == '-' || c == '_' || c == '.') then none
    else (propScanL strict cs).map (· + 1)

/-- Loop of the lenient unquoted branch of `_readTagAttributeValue`
(parser.py:430-439): characters consumed before whitespace, `/`, `>` or end. -/
def valueScanL : Str → Nat
  | [] => 0
  | c :: cs =>
    if pyIsSpace c || c == '/' || c == '>' then 0
    else valueScanL cs + 1

/-- Loop of `_readTagName` (parser.py:461-475); `first` tracks the Python
`position == start` test, selecting the strict-mode character class for the
first versus the later characters of a tag name. -/
def tagNameScanL (strict : Bool) (first : Bool) : Str → Option Nat
  | [] => some 0
  | c :: cs =>
    if pyIsSpace c || c == '/' || c == '>' then some 0
    else if strict then
      if first then
        if !pyIsAlpha c && !(c == '_') then none
        else (tagNameScanL strict false cs).map (· + 1)
      else
        if !pyIsAlnum c && !(c == '-' || c == '_' || c == '.') then none
        else (tagNameScanL strict false cs).map (· + 1)
    else (tagNameScanL strict false cs).map (· + 1)

/-- `HTMLParser._readTagAttributeProperty` (parser.py:341): end position of
an attribute name at `pos`, `none` on clean failure; the initial
single-character index can raise. -/
def readTagAttributeProperty (cs : Str) (strict : Bool) (pos : Nat) : PyM (Option Nat) := do
  let c ← pyIndex cs pos
  if strict && (c == '"' || c == '\'') then
    return none
  else if c == '"' || c == '\'' then
    return quotedScan cs c (pos + 1)
  else
    match propScanL strict (cs.drop pos) with
    | none => return none
    | some n => if n > 0 then return some (pos + n) else return none

/-- `HTMLParser._readTagAttributeValue` (parser.py:396): end position of an
attribute value at `pos`; unquoted values are accepted in lenient mode only. -/
def readTagAttributeValue (cs : Str) (strict : Bool) (pos : Nat) : PyM (Option Nat) := do
  let c ← pyIndex cs pos
  if c == '"' || c == '\'' then
    return quotedScan cs c (pos + 1)
  else if !strict then
    return some (pos + valueScanL (cs.drop pos))
  else
    return none

/-- `HTMLParser._readTagAttribute` (parser.py:294): read one `name` or
`name=value` attribute starting at `pos0`, returning the end position and
the updated attribute dictionary, or `none` on clean failure. -/
def readTagAttribute (cs : Str) (strict : Bool) (pos0 : Nat)
    (attrs : List (Str × Str)) : PyM (Option (Nat × List (Str × Str))) := do
  let pos := readWhitespace cs pos0
  match ← readTagAttributeProperty cs strict pos with
  | none => return none
  | some r =>
    let name := pyLower (pyStrip (pyUnwrap (slice cs pos r)))
    let pos2 := readWhitespace cs r
    let c ← pyIndex cs pos2
    if c == '=' then
      let pos3 := pos2 + 1
      match ← readTagAttributeValue cs strict pos3 with
      | none => return none
      | some r2 =>
        let value := pyUnwrap (slice cs pos3 r2)
        if strict && dictContains attrs name then return none
        else return some (r2, dictSet attrs name value)
    else
      let value : Str := "true".toList
      if strict && dictContains attrs name then return none
      else return some (pos2, dictSet attrs name value)

/-- `HTMLParser._readTagNameDoctype` (parser.py:482): the special-cased
`!DOCTYPE` tag name (case-insensitively in lenient mode), which must be
followed by whitespace, `/` or `>` strictly before the end of the buffer. -/
def readTagNameDoctype (cs : Str) (strict : Bool) (pos : Nat) : Option Nat :=
  let doctype : Str := "!DOCTYPE".toList
  let endP := pos + 8
  if h : endP < cs.length then
    if slice cs pos endP == doctype ||
        (!strict && pyUpper (slice cs pos endP) == doctype) then
      let c := cs.get ⟨endP, h⟩
      if pyIsSpace c || c == '/' || c == '>' then some endP else none
    else none
  else none

/-- `HTMLParser._readTagName` (parser.py:444): doctype special case first,
then the generic name scan; a name must be non-empty. -/
def readTagName (cs : Str) (strict : Bool) (pos : Nat) : Option Nat :=
  match readTagNameDoctype cs strict pos with
  | some r => some r
  | none =>
    match tagNameScanL strict true (cs.drop pos) with
    | none => none
    | some n => if n > 0 then some (pos + n) else none

/-- The `while (result := self._readTagAttribute(...))` loop of `_readTag`
(parser.py:141-142), with explicit fuel (the caller passes more fuel than the
buffer length, which is always sufficient since each attribute consumes at
least one character). -/
def attrLoop (cs : Str) (strict : Bool) :
    Nat → Nat → List (Str × Str) → PyM (Nat × List (Str × Str))
  | 0, _, _ => .error .fuelExhausted
  | fuel + 1, pos, attrs => do
    match ← readTagAttribute cs strict pos attrs with
    | none => return (pos, attrs)
    | some (r, attrs') => attrLoop cs strict fuel (readWhitespace cs r) attrs'

/-- `HTMLParser._readTag` (parser.py:97): attempt to read an open/close/
self-closing tag at `startPos`.  Single-character indexing is unguarded in
the source and can raise `IndexError` near the end of the buffer. -/
def readTag (cs : Str) (strict : Bool) (startPos : Nat) : PyM (Option ElemSeg) := do
  let c ← pyIndex cs startPos
  if !(c == '<') then return none
  let pos1 := startPos + 1
  let c2 ← pyIndex cs pos1
  let (op, cl, pos2) :=
    if c2 == '/' then (false, true, pos1 + 1) else (true, false, pos1)
  let pos3 := if !strict then readWhitespace cs pos2 else pos2
  match readTagName cs strict pos3 with
  | none => return none
  | some r =>
    let name := pyLower (pyUnwrap (slice cs pos3 r))
    let (pos5, attrs) ← attrLoop cs strict (cs.length + 1) (readWhitespace cs r) []
    if !op && attrs.length > 0 then return none
    let c3 ← pyIndex cs pos5
    if c3 == '/' && strict && cl then return none
    let (cl2, pos6) := if c3 == '/' then (true, pos5 + 1) else (cl, pos5)
    let pos7 := if !strict then readWhitespace cs pos6 else pos6
    let c4 ← pyIndex cs pos7
    if c4 == '>' then
      return some { text := slice cs startPos (pos7 + 1), start := startPos,
                    endPos := pos7 + 1, name := name, attrs := attrs,
                    isOpen := op, isClose := cl2 }
    else return none

/-- `HTMLParser._readComment` (parser.py:169): a comment delimited by
`<!--` and `-->`, its content stripped.  Uses only slicing and `find`, so it
never raises. -/
def readComment (cs : Str) (pos : Nat) : Option Segment :=
  if slice cs pos (pos + 4) == "<!--".toList then
    match pyFind cs "-->".toList (pos + 4) with
    | some f =>
      some (.commentS (slice cs pos (f + 3)) pos (f + 3)
        (pyStrip (slice cs (pos + 4) f)))
    | none => none
  else none

/-- Indices (relative to the head of the suffix) of every occurrence of a
character; drives the `while (position := self._html.find("<", position))`
loops of `_readText` and `_readSpecialContextText`, whose failure branch
re-searches from one past the previous hit — i.e. walks exactly this list. -/
def charPositions (c : Char) : Str → List Nat
  | [] => []
  | x :: xs =>
    let ps := (charPositions c xs).map (· + 1)
    if x == c then 0 :: ps else ps

/-- The text segment built at lines 220-221 / 229-230 of parser.py:
`text` is the stripped source slice between `startPos` and `endPos`. -/
def mkTextSeg (cs : Str) (startPos endPos : Nat) : Segment :=
  .textS (pyStrip (slice cs startPos endPos)) startPos endPos

/-- Loop of `HTMLParser._readText` (parser.py:213-225), walking the `<`
positions at or after the start: at each one try a comment then a tag; the
first success terminates the text run (caching the parsed segment as the
parser's lookahead); a `readTag` crash propagates. -/
def textLoop (cs : Str) (strict : Bool) (startPos : Nat) :
    List Nat → PyM (Option (Segment × Option Segment))
  | [] =>
    -- parser.py:227-233: no terminator before end of input.
    if !strict then return some (mkTextSeg cs startPos cs.length, none)
    else return none
  | p :: rest =>
    match readComment cs p with
    | some cseg => return some (mkTextSeg cs startPos p, some cseg)
    | none => do
      match ← readTag cs strict p with
      | some tseg => return some (mkTextSeg cs startPos p, some (.elem tseg))
      | none => textLoop cs strict startPos rest

/-- `HTMLParser._readText` (parser.py:199): read a text run starting at
`pos`, also returning the lookahead segment stored into `_segmentNext`. -/
def readText (cs : Str) (strict : Bool) (pos : Nat) :
    PyM (Option (Segment × Option Segment)) :=
  textLoop cs strict pos ((charPositions '<' (cs.drop pos)).map (pos + ·))

/-- `HTMLParser._readSpecialContextTagEnd` (parser.py:235): a close tag of
the given context tag name at `pos`, otherwise `none`. -/
def readSpecialContextTagEnd (cs : Str) (strict : Bool) (pos : Nat)
    (contextTag : Str) : PyM (Option ElemSeg) := do
  match ← readTag cs strict pos with
  | some seg =>
    if !seg.isOpen && seg.isClose && seg.name == contextTag then
      return some seg
    else return none
  | none => return none

/-- Loop of `HTMLParser._readSpecialContextText` (parser.py:268-279):
like the text loop, but only the matching context close tag terminates. -/
def specialTextLoop (cs : Str) (strict : Bool) (startPos : Nat)
    (contextTag : Str) : List Nat → PyM (Option (Segment × Option Segment))
  | [] =>
    if !strict then return some (mkTextSeg cs startPos cs.length, none)
    else return none
  | p :: rest => do
    match ← readSpecialContextTagEnd cs strict p contextTag with
    | some tseg => return some (mkTextSeg cs startPos p, some (.elem tseg))
    | none => specialTextLoop cs strict startPos contextTag rest

/-- `HTMLParser._readSpecialContextText` (parser.py:253): the raw body of a
script/style/block element, not tokenized as markup. -/
def readSpecialContextText (cs : Str) (strict : Bool) (pos : Nat)
    (contextTag : Str) : PyM (Option (Segment × Option Segment)) :=
  specialTextLoop cs strict pos contextTag
    ((charPositions '<' (cs.drop pos)).map (pos + ·))

/-- The mutable state of an `HTMLParser` instance (parser.py:5-12). -/
structure ParserState where
  html : Str
  strict : Bool
  position : Nat
  segmentCurrent : Option Segment
  segmentNext : Option Segment
deriving DecidableEq, Repr

/-- `HTMLParser.__init__` (parser.py:20). -/
def initParser (html : Str) (strict : Bool) : ParserState :=
  { html := html, strict := strict, position := 0,
    segmentCurrent := none, segmentNext := none }

/-- The raw-text-context test of parser.py:72: the previous segment is an
element segment that is not a close tag and whose name is a context tag. -/
def ctxSwitch : Option Segment → Option Str
  | some (.elem e) =>
    if !e.isClose && contextSwitchTags.contains e.name then some e.name else none
  | _ => none

/-- `HTMLParser.next` (parser.py:52): skip whitespace, signal end of input,
return a cached lookahead segment, handle the raw-text context, otherwise
attempt comment, tag, text in that order; on emission record the segment and
advance the cursor to its end. -/
def nextSeg (st : ParserState) : PyM (Option Segment × ParserState) := do
  let cs := st.html
  let segCur := st.segmentCurrent
  let pos := readWhitespace cs st.position
  let st := { st with position := pos }
  if pos == cs.length then return (none, st)
  match st.segmentNext with
  | some seg =>
    return (some seg,
      { st with segmentNext := none, segmentCurrent := some seg,
                position := seg.endP })
  | none =>
    match ctxSwitch segCur with
    | some ctxName =>
      match ← readSpecialContextTagEnd cs st.strict pos ctxName with
      | some e =>
        let seg := Segment.elem e
        return (some seg,
          { st with segmentCurrent := some seg, position := seg.endP })
      | none =>
        match ← readSpecialContextText cs st.strict pos ctxName with
        | some (seg, cached) =>
          return (some seg,
            { st with segmentCurrent := some seg, position := seg.endP,
                      segmentNext := cached })
        | none => return (none, st)
    | none =>
      match readComment cs pos with
      | some seg =>
        return (some seg,
          { st with segmentCurrent := some seg, position := seg.endP })
      | none =>
        match ← readTag cs st.strict pos with
        | some e =>
          let seg := Segment.elem e
          return (some seg,
            { st with segmentCurrent := some seg, position := seg.endP })
        | none =>
          match ← readText cs st.strict pos with
          | some (seg, cached) =>
            return (some seg,
              { st with segmentCurrent := some seg, position := seg.endP,
                        segmentNext := cached })
          | none =>
            -- parser.py:78-81; the position test is dead code (the same test
            -- already returned at line 64), leaving the raise.
            if pos == cs.length then return (none, st)
            else .error (.exc (.unparsableSegment pos))

/-- Repeated calls to `next` until it signals end of input, collecting the
emitted segments in order (the tokenizer side of the `build` loops and of
iterating an `HTMLParser`). -/
def tokenizeList (fuel : Nat) (st : ParserState) : PyM (List Segment) :=
  match fuel with
  | 0 => .error .fuelExhausted
  | fuel + 1 => do
    match ← nextSeg st with
    | (none, _) => return []
    | (some seg, st') => return seg :: (← tokenizeList fuel st')

/-- Tokenize a whole buffer: fuel `length + 1` suffices because every
emitted segment consumes at least one character. -/
def tokenizeAll (html : Str) (strict : Bool) : PyM (List Segment) :=
  tokenizeList (html.length + 1) (initParser html strict)

/-- The node tree (`HTMLElementNode` / `HTMLTextNode` / `HTMLCommentNode`,
document.py:354-619); the non-owning `parent` back-reference is dropped. -/
inductive HTMLNode
  | element (name : Str) (attrs : List (Str × Str)) (children : List HTMLNode)
  | textNode (text : Str)
  | commentNode (comment : Str)

/-- `HTMLDocument._voidTags` (document.py:16). -/
def voidTags : List Str :=
  ["!doctype".toList, "area".toList, "base".toList, "br".toList,
   "col".toList, "embed".toList, "hr".toList, "img".toList, "input".toList,
   "link".toList, "meta".toList, "source".toList, "track".toList,
   "wbr".toList]

/-- `HTMLDocument._neverSelfClosing` (document.py:33). -/
def neverSelfClosing : List Str :=
  ["script".toList, "style".toList, "html".toList, "head".toList,
   "body".toList]

/-- `HTMLDocument._loadChildren` (document.py:134): consume segments for the
children of the element named `parentName`.  Returns the children built, the
optional unresolved segment handed back to the caller (document.py:164/174:
note that line 164 returns the loop's OPEN segment, not the close segment
that came back from the recursion), and the parser state.  `fuel` bounds the
number of `next()` calls. -/
def loadChildren (strict comments : Bool) (parentName : Str) :
    Nat → ParserState → PyM (List HTMLNode × Option Segment × ParserState)
  | 0, _ => .error .fuelExhausted
  | fuel + 1, st => do
    match ← nextSeg st with
    | (none, st') =>
      -- document.py:189-193: ran out of segments before the parent closed.
      if strict then .error (.exc .unclosedElement)
      else return ([], none, st')
    | (some seg, st') =>
      match seg with
      | .elem e =>
        if e.isOpen then
          if !e.isClose && !(voidTags.contains e.name) then do
            let (grand, response, st2) ← loadChildren strict comments e.name fuel st'
            let node := HTMLNode.element e.name e.attrs grand
            match response with
            | some _ =>
              -- document.py:157-164: the name compared (and the segment
              -- returned) is `segment`, the open tag of the child just built.
              if e.name == parentName then return ([node], none, st2)
              else return ([node], some seg, st2)
            | none => do
              let (rest, resp, st3) ← loadChildren strict comments parentName fuel st2
              return (node :: rest, resp, st3)
          else do
            let node := HTMLNode.element e.name e.attrs []
            let (rest, resp, st2) ← loadChildren strict comments parentName fuel st'
            return (node :: rest, resp, st2)
        else if e.isClose then
          -- document.py:167-174: a close segment met directly.
          if e.name == parentName then return ([], none, st')
          else return ([], some seg, st')
        else
          -- document.py:176-179: neither open nor close.
          if strict then .error (.exc (.unidentifiedTag e.start))
          else do
            let (rest, resp, st2) ← loadChildren strict comments parentName fuel st'
            return (rest, resp, st2)
      | .textS t _ _ => do
        let (rest, resp, st2) ← loadChildren strict comments parentName fuel st'
        return (HTMLNode.textNode t :: rest, resp, st2)
      | .commentS _ _ _ c =>
        if comments then do
          let (rest, resp, st2) ← loadChildren strict comments parentName fuel st'
          return (HTMLNode.commentNode c :: rest, resp, st2)
        else do
          let (rest, resp, st2) ← loadChildren strict comments parentName fuel st'
          return (rest, resp, st2)

/-- The root loop of `HTMLDocument._load` (document.py:105-128), returning
the root node list. -/
def loadRoot (strict comments : Bool) :
    Nat → ParserState → PyM (List HTMLNode × ParserState)
  | 0, _ => .error .fuelExhausted
  | fuel + 1, st => do
    match ← nextSeg st with
    | (none, st') => return ([], st')
    | (some seg, st') =>
      match seg with
      | .elem e =>
        if e.isOpen then
          if !e.isClose && !(voidTags.contains e.name) then do
            let (children, response, st2) ← loadChildren strict comments e.name fuel st'
            let node := HTMLNode.element e.name e.attrs children
            -- document.py:115-117: an unresolved response at the root.
            if response.isSome && strict then .error (.exc (.closeNoMatch e.start))
            else do
              let (rest, st3) ← loadRoot strict comments fuel st2
              return (node :: rest, st3)
          else do
            let node := HTMLNode.element e.name e.attrs []
            let (rest, st2) ← loadRoot strict comments fuel st'
            return (node :: rest, st2)
        else
          -- document.py:119-120: a non-open element segment at the root.
          if strict then .error (.exc (.strayCloseAtRoot e.start))
          else loadRoot strict comments fuel st'
      | .textS t _ _ => do
        let (rest, st2) ← loadRoot strict comments fuel st'
        return (HTMLNode.textNode t :: rest, st2)
      | .commentS _ _ _ c =>
        if comments then do
          let (rest, st2) ← loadRoot strict comments fuel st'
          return (HTMLNode.commentNode c :: rest, st2)
        else
          -- document.py:125-128: a comment segment with comments disabled
          -- falls into the `else: raise Exception("Unknown node type.")`.
          .error (.exc .unknownNodeType)

/-- `HTMLDocument(html, strict, comments)`: run the builder over the
tokenizer and return the root node list.  Fuel `2*length + 4` exceeds the
maximum possible number of `next()` calls (one per emitted segment plus one
end-of-input signal per open recursion level). -/
def buildDoc (html : Str) (strict comments : Bool) : PyM (List HTMLNode) := do
  return (← loadRoot strict comments (2 * html.length + 4)
    (initParser html strict)).1

/-- The display form of a node name in `write` (document.py:306-309 and
326-329): a `!doctype` name is upper-cased. -/
def dispName (name : Str) : Str :=
  if name == "!doctype".toList then pyUpper name else name

/-- The attribute loop of `write` (document.py:311-315 and 331-335): a
doctype attribute whose value is `"true"` renders as a bare flag, every
other attribute as ` key="value"`. -/
def attrsRender (name : Str) (attrs : List (Str × Str)) : Str :=
  attrs.flatMap (fun kv =>
    if name == "!doctype".toList && kv.2 == "true".toList then ' ' :: kv.1
    else ' ' :: kv.1 ++ '=' :: '"' :: kv.2 ++ ['"'])

/-- The attribute rendering of the basic `html` property
(document.py:405-406): always ` key="value"`. -/
def attrsBasic (attrs : List (Str × Str)) : Str :=
  attrs.flatMap (fun kv => ' ' :: kv.1 ++ '=' :: '"' :: kv.2 ++ ['"'])

mutual

/-- The `html` property of the node classes (document.py:394-414, 605-607,
617-619): the basic (non-configurable) HTML rendering of one node. -/
def nodeHtml : HTMLNode → Str
  | .element name attrs children =>
    '<' :: name ++ attrsBasic attrs ++
    (if children.length > 0 then
      '>' :: innerHtml children ++ '<' :: '/' :: name ++ ['>']
     else ['/', '>'])
  | .textNode t => t
  | .commentNode c => "<!-- ".toList ++ c ++ " -->".toList

/-- `HTMLElementNode.innerHtml` (document.py:417-428). -/
def innerHtml : List HTMLNode → Str
  | [] => []
  | n :: rest => nodeHtml n ++ innerHtml rest

end

/-- The per-iteration newline/indent prefix and the `first` update of
`writeNode` (document.py:287-300); returns (newline, prefix, updated first). -/
def writePre (pretty tabs : Bool) (indent depth : Nat) (first : Bool) :
    Str × Str × Bool :=
  if pretty then
    ((if first then [] else ['\r', '\n']),
     (if tabs then List.replicate depth '\t'
      else List.replicate (depth * indent) ' '),
     false)
  else ([], [], first)

/-- The branch test of document.py:304: render as a void/self-closing tag. -/
def selfCloseBranch (selfClosing : Bool) (name : Str)
    (children : List HTMLNode) : Bool :=
  !(neverSelfClosing.contains name) &&
    (voidTags.contains name || (selfClosing && children.length == 0))

/-- The shrink test of document.py:338: a sole text child short enough to
inline. -/
def shrinkBranch (shrinkText : Bool) (shrinkLimit : Nat)
    (children : List HTMLNode) : Bool :=
  shrinkText &&
    (match children with
     | [.textNode t] => t.length ≤ shrinkLimit
     | _ => false)

mutual

/-- One loop iteration of the recursive `writeNode` helper of
`HTMLDocument.write` (document.py:283-348): prefix handling, then either the
void/self-closing rendering (document.py:304-322) or the open/children/close
rendering (document.py:324-345). -/
def writeOne (pretty : Bool) (indent : Nat) (tabs selfClosing shrinkText : Bool)
    (shrinkLimit : Nat) : HTMLNode → Nat → Bool → Str
  | .element name attrs children, depth, first =>
    let (nl, pre, first') := writePre pretty tabs indent depth first
    nl ++ pre ++
    (if selfCloseBranch selfClosing name children then
      '<' :: dispName name ++ attrsRender name attrs ++
      (if !(voidTags.contains name) then
        (if attrs.length > 0 then [' '] else []) ++ ['/']
       else []) ++ ['>']
     else
      '<' :: dispName name ++ attrsRender name attrs ++ ['>'] ++
      (if shrinkBranch shrinkText shrinkLimit children then
        (match children with
         | [.textNode t] => t
         | _ => [])
       else
        writeList pretty indent tabs selfClosing shrinkText shrinkLimit
          children (depth + 1) first' ++
        (if pretty then '\r' :: '\n' :: pre else [])) ++
      '<' :: '/' :: name ++ ['>'])
  | .textNode t, depth, first =>
    let (nl, pre, _) := writePre pretty tabs indent depth first
    nl ++ pre ++ t
  | .commentNode c, depth, first =>
    let (nl, pre, _) := writePre pretty tabs indent depth first
    nl ++ pre ++ "<!-- ".toList ++ c ++ " -->".toList

/-- The `for node in nodeList` loop of `writeNode` (document.py:283),
threading the `first` flag across iterations. -/
def writeList (pretty : Bool) (indent : Nat) (tabs selfClosing shrinkText : Bool)
    (shrinkLimit : Nat) : List HTMLNode → Nat → Bool → Str
  | [], _, _ => []
  | node :: rest, depth, first =>
    writeOne pretty indent tabs selfClosing shrinkText shrinkLimit
      node depth first ++
    writeList pretty indent tabs selfClosing shrinkText shrinkLimit
      rest depth (if pretty then false else first)

end

/-- `HTMLDocument.write` (document.py:248) applied to a root node list. -/
def write (roots : List HTMLNode) (pretty : Bool := true) (indent : Nat := 2)
    (tabs : Bool := false) (selfClosing : Bool := true)
    (shrinkText : Bool := true) (shrinkLimit : Nat := 20) : Str :=
  writeList pretty indent tabs selfClosing shrinkText shrinkLimit roots 0 true

/-- The match/append and result-cap step at the head of `searchRecursive`
(document.py:580-583); the Bool is the stop signal. -/
def visit (flt : HTMLNode → Bool) (maxResults : Option Int) (node : HTMLNode)
    (results : List HTMLNode) : List HTMLNode × Bool :=
  let results1 := if flt node then results ++ [node] else results
  (results1,
   flt node &&
     (match maxResults with
      | some m => (results1.length : Int) ≥ m
      | none => false))

mutual

/-- `searchRecursive` (document.py:566-590): visit the node (appending to
`results` on a filter match and stopping once `maxResults` is reached), then
descend into the children of an element if the depth budget allows; the
returned Bool is the Python return value (`False` = stop everything). -/
def searchRec (flt : HTMLNode → Bool) (maxResults : Option Int) :
    HTMLNode → Option Int → List HTMLNode → (List HTMLNode × Bool)
  | .element nm a children, depthRemaining, results =>
    let (results1, stop) := visit flt maxResults (.element nm a children) results
    if stop then (results1, false)
    else
      (match depthRemaining with
       | none => searchKids flt maxResults children none results1
       | some d =>
         if d - 1 ≥ 0 then searchKids flt maxResults children (some (d - 1)) results1
         else (results1, true))
  | .textNode t, _, results =>
    let (results1, stop) := visit flt maxResults (.textNode t) results
    if stop then (results1, false) else (results1, true)
  | .commentNode c, _, results =>
    let (results1, stop) := visit flt maxResults (.commentNode c) results
    if stop then (results1, false) else (results1, true)

/-- The `for child in node.children` loop of `searchRecursive`
(document.py:586-588), aborting as soon as a recursive call signals stop. -/
def searchKids (flt : HTMLNode → Bool) (maxResults : Option Int) :
    List HTMLNode → Option Int → List HTMLNode → (List HTMLNode × Bool)
  | [], _, results => (results, true)
  | c :: rest, depthRemaining, results =>
    let (r', cont) := searchRec flt maxResults c depthRemaining results
    if cont then searchKids flt maxResults rest depthRemaining r'
    else (r', false)

end

/-- `HTMLElementNode.search` (document.py:554): search the node itself and
its descendants, with optional depth and result-count limits. -/
def search (flt : HTMLNode → Bool) (maxDepth maxResults : Option Int)
    (node : HTMLNode) : List HTMLNode :=
  (searchRec flt maxResults node maxDepth []).1

/-- `HTMLElementNode.hasClass` (document.py:538): membership of the class
name in the `class` attribute value split on single spaces (Python
`split(" ")`). -/
def pySplitChar (sep : Char) : Str → List Str
  | [] => [[]]
  | c :: cs =>
    match pySplitChar sep cs with
    | t :: ts => if c == sep then [] :: t :: ts else (c :: t) :: ts
    | [] => [[c]]

/-- `hasClass` on an element's attribute dictionary. -/
def hasClass (attrs : List (Str × Str)) (className : Str) : Bool :=
  match dictGet attrs "class".toList with
  | some v => (pySplitChar ' ' v).contains className
  | none => false

/-- The filter of `getElementsByClassName` (document.py:476-477). -/
def classFilter (className : Str) : HTMLNode → Bool
  | .element _ attrs _ => hasClass attrs className
  | _ => false

/-- `HTMLElementNode.getElementsByClassName` (document.py:466). -/
def getElementsByClassName (node : HTMLNode) (className : Str) :
    List HTMLNode :=
  search (classFilter className) none none node

/-! ### Specification-side notions

The definitions below are not translations of the source; they are the
independent notions the claims are checked against (document order with a
depth bound, whitespace tokens, the well-formed builder inputs of the
round-trip claims, tree shape). -/

mutual

/-- Size of a node (number of tree constructors), used as an induction
measure. -/
def nodeSize : HTMLNode → Nat
  | .element _ _ children => 1 + listSize children
  | _ => 1

/-- Size of a sibling list. -/
def listSize : List HTMLNode → Nat
  | [] => 1
  | n :: rest => 1 + nodeSize n + listSize rest

end

mutual

/-- Document (pre-)order listing of a node and the descendants at most `d`
generations below it (`d = 0`: the node only). -/
def preorderDepth : Nat → HTMLNode → List HTMLNode
  | d, .element n a c =>
    .element n a c :: (match d with
      | 0 => []
      | d + 1 => preorderDepthList d c)
  | _, n => [n]

/-- `preorderDepth` over a sibling list. -/
def preorderDepthList : Nat → List HTMLNode → List HTMLNode
  | _, [] => []
  | d, x :: xs => preorderDepth d x ++ preorderDepthList d xs

end

mutual

/-- Full document (pre-)order listing of a node and all its descendants. -/
def preorder : HTMLNode → List HTMLNode
  | .element n a c => .element n a c :: preorderList c
  | n => [n]

/-- `preorder` over a sibling list. -/
def preorderList : List HTMLNode → List HTMLNode
  | [] => []
  | x :: xs => preorder x ++ preorderList xs

end

/-- The whitespace-separated tokens of a string (Python `str.split()` with
no argument: tokens separated by runs of whitespace, no empty tokens). -/
def wsTokens (s : Str) : List Str :=
  (s.splitOnP pyIsSpace).filter (fun t => !t.isEmpty)

/-- A discrete markup segment as produced by a test builder
(`tests/htmltools/builder.py`): an open tag (optionally self-closing, with
`slashSpace` selecting `" />"` versus `"/>"`), a close tag, a text run, or a
comment. -/
inductive SegSpec
  | openTag (name : Str) (attrs : List (Str × Str)) (selfClose : Bool)
      (slashSpace : Bool)
  | closeTag (name : Str)
  | textSpec (s : Str)
  | commentSpec (s : Str)
deriving DecidableEq, Repr

/-- The markup text of one builder segment. -/
def renderSeg : SegSpec → Str
  | .openTag n as sc sp =>
    '<' :: n ++ attrsBasic as ++
    (if sc then (if sp then [' ', '/'] else ['/']) else []) ++ ['>']
  | .closeTag n => '<' :: '/' :: n ++ ['>']
  | .textSpec s => s
  | .commentSpec s => "<!-- ".toList ++ s ++ " -->".toList

/-- The whole document built from a list of builder segments. -/
def renderSpecs (specs : List SegSpec) : Str := specs.flatMap renderSeg

/-- Well-formed tag name for the round-trip claims: non-empty, lower-case
ASCII letters, not a raw-text context tag. -/
def wfName (n : Str) : Bool :=
  !n.isEmpty && n.all isLowerAlpha && !(contextSwitchTags.contains n)

/-- Pairwise-distinct attribute keys. -/
def distinctKeys : List (Str × Str) → Bool
  | [] => true
  | kv :: rest => !(dictContains rest kv.1) && distinctKeys rest

/-- Well-formed attribute list: non-empty lower-case-letter keys,
alphanumeric values, distinct keys. -/
def wfAttrs (as : List (Str × Str)) : Bool :=
  as.all (fun kv =>
    !kv.1.isEmpty && kv.1.all isLowerAlpha && kv.2.all pyIsAlnum) &&
  distinctKeys as

/-- Well-formedness of one builder segment: tag names and attributes as
above; text that contains no `<` and does not strip to nothing; comments
without `-`. -/
def wfSpec : SegSpec → Bool
  | .openTag n as _ _ => wfName n && wfAttrs as
  | .closeTag n => wfName n
  | .textSpec s => !(s.contains '<') && !(pyStrip s).isEmpty
  | .commentSpec s => !(s.contains '-')

/-- Discreteness of consecutive builder segments: two adjacent text runs
would fuse into one segment. -/
def discretePair : SegSpec → SegSpec → Bool
  | .textSpec _, .textSpec _ => false
  | _, _ => true

/-- Well-formed builder segment list: every segment well-formed, no two
adjacent text runs, and no text run at the very end of the document. -/
def wfSpecs : List SegSpec → Bool
  | [] => true
  | [x] =>
    wfSpec x && (match x with | .textSpec _ => false | _ => true)
  | x :: y :: rest => wfSpec x && discretePair x y && wfSpecs (y :: rest)

/-- The segment the tokenizer is expected to emit for one builder segment
whose markup starts at buffer offset `b`. -/
def expSeg (b : Nat) : SegSpec → Segment
  | .openTag n as sc sp =>
    .elem { text := renderSeg (.openTag n as sc sp), start := b,
            endPos := b + (renderSeg (.openTag n as sc sp)).length,
            name := n, attrs := as, isOpen := true, isClose := sc }
  | .closeTag n =>
    .elem { text := renderSeg (.closeTag n), start := b,
            endPos := b + n.length + 3,
            name := n, attrs := [], isOpen := false, isClose := true }
  | .textSpec s => .textS (pyStrip s) (b + countWs s) (b + s.length)
  | .commentSpec s =>
    .commentS (renderSeg (.commentSpec s)) b (b + s.length + 9) (pyStrip s)

/-- The expected segment list for a builder segment list starting at `b`. -/
def expSegs : Nat → List SegSpec → List Segment
  | _, [] => []
  | b, sp :: rest => expSeg b sp :: expSegs (b + (renderSeg sp).length) rest

/-- Well-formed node name for the serialisation round-trip: additionally not
a void or never-self-closing tag (those serialise through other branches). -/
def wfNodeName (n : Str) : Bool :=
  !n.isEmpty && n.all isLowerAlpha && !(voidTags.contains n) &&
  !(neverSelfClosing.contains n) && !(contextSwitchTags.contains n)

/-- Shape compatibility of two sibling lists at a position: adjacent text
nodes are excluded (they would fuse when re-parsed). -/
def discreteNodes : HTMLNode → HTMLNode → Bool
  | .textNode _, .textNode _ => false
  | _, _ => true

mutual

/-- Serialisable tree: element names and attributes as above, text without
`<` that does not strip to nothing, no comments (a default build drops
them), and no two adjacent text children. -/
def wfTree : HTMLNode → Bool
  | .element n a c => wfNodeName n && wfAttrs a && wfForest c
  | .textNode t => !(t.contains '<') && !(pyStrip t).isEmpty
  | .commentNode _ => false

/-- Serialisable sibling list. -/
def wfForest : List HTMLNode → Bool
  | [] => true
  | [x] => wfTree x
  | x :: y :: rest => wfTree x && discreteNodes x y && wfForest (y :: rest)

end

mutual

/-- The builder-segment sequence whose rendering is exactly the non-pretty,
non-shrink, self-closing serialisation of a node. -/
def flattenN : HTMLNode → List SegSpec
  | .element n a c =>
    if c.isEmpty then [.openTag n a true (a.length > 0)]
    else .openTag n a false false :: flattenF c ++ [.closeTag n]
  | .textNode t => [.textSpec t]
  | .commentNode c => [.commentSpec c]

/-- `flattenN` over a sibling list. -/
def flattenF : List HTMLNode → List SegSpec
  | [] => []
  | x :: xs => flattenN x ++ flattenF xs

end

mutual

/-- The tree a serialised document re-parses to: the same tree with every
text node's content whitespace-stripped. -/
def stripTextsN : HTMLNode → HTMLNode
  | .element n a c => .element n a (stripTextsF c)
  | .textNode t => .textNode (pyStrip t)
  | .commentNode c => .commentNode c

/-- `stripTextsN` over a sibling list. -/
def stripTextsF : List HTMLNode → List HTMLNode
  | [] => []
  | x :: xs => stripTextsN x :: stripTextsF xs

end

mutual

/-- Same tree shape: equal node kinds, element names, attribute lists and
child structure (text/comment content is not compared). -/
def shapeEqN : HTMLNode → HTMLNode → Bool
  | .element n a c, .element n' a' c' => n == n' && a == a' && shapeEqF c c'
  | .textNode _, .textNode _ => true
  | .commentNode _, .commentNode _ => true
  | _, _ => false

/-- `shapeEqN` over sibling lists. -/
def shapeEqF : List HTMLNode → List HTMLNode → Bool
  | [], [] => true
  | x :: xs, y :: ys => shapeEqN x y && shapeEqF xs ys
  | _, _ => false

end

/-- Is a builder segment a text run? -/
def isTextSpec : SegSpec → Bool
  | .textSpec _ => true
  | _ => false

/-- Well-formedness of a builder-segment stream relative to a parse mode:
every segment well-formed, no two adjacent text runs, and (in strict mode
only) no text run at the very end of the stream. -/
def wfStream (strict : Bool) : List SegSpec → Bool
  | [] => true
  | [x] => wfSpec x && (!(isTextSpec x) || !strict)
  | x :: y :: r => wfSpec x && discretePair x y && wfStream strict (y :: r)

/-- The parser-state invariant tying a `ParserState` to the suffix of
builder segments still to be emitted, whose rendering starts at buffer
offset `b`: the cursor sits at `b`, the previous segment cannot trigger the
raw-text context switch, and the one-segment lookahead cache is either empty
or holds exactly the expected next (non-text) segment. -/
def stInv (cs : Str) (strict : Bool) (b : Nat) (specs : List SegSpec)
    (st : ParserState) : Prop :=
  st.html = cs ∧ st.strict = strict ∧ ctxSwitch st.segmentCurrent = none ∧
  st.position = b ∧ cs.drop b = renderSpecs specs ∧ b ≤ cs.length ∧
  (st.segmentNext = none ∨
   (∃ sp r, specs = sp :: r ∧ isTextSpec sp = false ∧
     st.segmentNext = some (expSeg b sp)))

/-! ### Helper lemmas -/

theorem pym_bind_ok {α β : Type} (a : α) (f : α → PyM β) :
    ((Except.ok a : PyM α) >>= f) = f a := rfl

theorem pym_bind_error {α β : Type} (e : PyError) (f : α → PyM β) :
    ((Except.error e : PyM α) >>= f) = .error e := rfl

theorem pym_pure {α : Type} (a : α) : (pure a : PyM α) = .ok a := rfl

theorem pym_map_ok {α β : Type} (g : α → β) (a : α) :
    (g <$> (Except.ok a : PyM α)) = .ok (g a) := rfl

theorem pym_map_error {α β : Type} (g : α → β) (e : PyError) :
    (g <$> (Except.error e : PyM α)) = .error e := rfl

/-- The strict-mode rejection branch of the unquoted attribute-name scan is
dead (`not char.isalnum` tests the truthiness of the un-called method), so
the scan is mode-independent. -/
theorem propScanL_mode (s : Str) : propScanL true s = propScanL false s := by
  induction s with
  | nil => rfl
  | cons c cs ih => simp [propScanL, isalnumUncalled, ih]

/-! ### Claim C3 -/

/-- C3: the claim states that each of the three read attempts either
succeeds or fails cleanly — never an out-of-bounds access — in particular
for a buffer ending in a lone `<`.  The code violates this: `_readTag` at a
final `<` performs the unguarded index `self._html[position]`
(parser.py:119) one past the end of the buffer and raises `IndexError`, in
both modes, so the tokenizer crashes rather than failing with
`UnparsableSegment`.  (The `UnparsableSegment` failure itself is reachable,
in strict mode only, e.g. on bare trailing text.) -/
theorem readTag_truncated_buffer_index_error :
    readTag "<".toList true 0 = .error (.indexError 1) ∧
    readTag "<".toList false 0 = .error (.indexError 1) ∧
    nextSeg (initParser "<".toList true) = .error (.indexError 1) ∧
    nextSeg (initParser "<".toList false) = .error (.indexError 1) ∧
    nextSeg (initParser "a".toList true) =
      .error (.exc (.unparsableSegment 0)) := by
  exact ⟨rfl, rfl, rfl, rfl, rfl⟩

/-! ### Claim C10 -/

/-- C10 counterexample: `_readTagAttributeProperty` does NOT return the same
result in both modes at every position — at a quoted attribute name, strict
mode rejects (parser.py:354) while lenient mode reads the quoted name. -/
theorem readTagAttributeProperty_quoted_mode_divergence :
    readTagAttributeProperty "\"a\"x".toList true 0 = .ok none ∧
    readTagAttributeProperty "\"a\"x".toList false 0 = .ok (some 3) ∧
    (Except.ok (none : Option Nat) : PyM (Option Nat)) ≠ .ok (some 3) := by
  refine ⟨rfl, rfl, fun hcontr => ?_⟩
  exact Option.noConfusion (Except.ok.inj hcontr)

/-- C10 amended: for every position whose character is not a quote (i.e. for
every unquoted attribute name), `_readTagAttributeProperty` returns the same
result in strict mode as in lenient mode: the strict-mode character-set
rejection branch (parser.py:386) is dead because `not char.isalnum` tests
the truthiness of the un-called bound method. -/
theorem readTagAttributeProperty_unquoted_mode_agreement :
    ∀ (cs : Str) (pos : Nat) (c : Char), cs.get? pos = some c →
      ¬(c = '"' ∨ c = '\'') →
      readTagAttributeProperty cs true pos = readTagAttributeProperty cs false pos := by
  intro cs pos c h hq
  have h2 : cs[pos]? = some c := by simpa using h
  simp [readTagAttributeProperty, pyIndex, h2, pym_bind_ok, hq, propScanL_mode]

/-- C10 amended, witness at a concrete unquoted name. -/
theorem readTagAttributeProperty_unquoted_mode_agreement_witness :
    readTagAttributeProperty "ab=".toList true 0 =
      readTagAttributeProperty "ab=".toList false 0 :=
  readTagAttributeProperty_unquoted_mode_agreement "ab=".toList 0 'a'
    (by decide) (by decide)

/-! ### Claim C5 -/

/-- C5 counterexample: an input containing a tag with duplicate attribute
names is NOT rejected in strict mode — the duplicate makes the tag read fail
cleanly (parser.py:334), the tag text falls through to a text segment, and
the whole strict parse succeeds (and no `DuplicateAttribute` error kind
exists anywhere in the code). -/
theorem strict_duplicate_attribute_not_rejected :
    buildDoc "<html>x<p a=\"1\" a=\"1\"></html>".toList true false =
      .ok [.element "html".toList []
        [.textNode "x<p a=\"1\" a=\"1\">".toList]] := by
  exact rfl

/-- C5 amended: in strict mode a tag with duplicate attribute names fails to
parse as a tag and its text falls through to be treated as text (so the
parse as a whole need not fail); in lenient mode the same tag is accepted,
with the later duplicate value overwriting the earlier one. -/
theorem duplicate_attribute_tag_behaviour :
    readTag "<p a=\"1\" a=\"2\">".toList true 0 = .ok none ∧
    readTag "<p a=\"1\" a=\"2\">".toList false 0 =
      .ok (some ⟨"<p a=\"1\" a=\"2\">".toList, 0, 15, ['p'],
        [(['a'], ['2'])], true, false⟩) ∧
    tokenizeAll "<p a=\"1\" a=\"1\">x</p>".toList true =
      .ok [mkTextSeg "<p a=\"1\" a=\"1\">x</p>".toList 0 16,
           .elem ⟨"</p>".toList, 16, 20, ['p'], [], false, true⟩] := by
  exact ⟨rfl, rfl, rfl⟩

/-! ### Claim C9 -/

/-- C9: a bare attribute (no `=`) is stored with the string value `"true"`
in both modes, indistinguishable from an explicit `x="true"`; and the
serializer renders a `"true"` value as a bare flag only on doctype nodes —
for every other element name the attribute loop renders plain
` key="value"` pairs, so such attributes serialize as `x="true"`. -/
theorem bare_attribute_stored_as_true :
    readTag "<p x>".toList false 0 =
      .ok (some ⟨"<p x>".toList, 0, 5, ['p'], [(['x'], "true".toList)],
        true, false⟩) ∧
    readTag "<p x>".toList true 0 =
      .ok (some ⟨"<p x>".toList, 0, 5, ['p'], [(['x'], "true".toList)],
        true, false⟩) ∧
    readTag "<p x=\"true\">".toList false 0 =
      .ok (some ⟨"<p x=\"true\">".toList, 0, 12, ['p'],
        [(['x'], "true".toList)], true, false⟩) ∧
    readTag "<p x=\"true\">".toList true 0 =
      .ok (some ⟨"<p x=\"true\">".toList, 0, 12, ['p'],
        [(['x'], "true".toList)], true, false⟩) ∧
    (∀ (name : Str) (attrs : List (Str × Str)), name ≠ "!doctype".toList →
      attrsRender name attrs = attrsBasic attrs) ∧
    write [.element ['p'] [(['x'], "true".toList)] []]
      false 2 false true false 20 = "<p x=\"true\" />".toList ∧
    write [.element "!doctype".toList [("html".toList, "true".toList)] []]
      false 2 false true false 20 = "<!DOCTYPE html>".toList := by
  refine ⟨rfl, rfl, rfl, rfl, ?_, rfl, rfl⟩
  intro name attrs h
  have h' : name ≠ ['!', 'd', 'o', 'c', 't', 'y', 'p', 'e'] := h
  simp [attrsRender, attrsBasic, h']

/-- C9 witness for the hypothesis-bearing conjunct, at element name `p`. -/
theorem bare_attribute_stored_as_true_witness :
    attrsRender ['p'] [(['x'], "true".toList)] =
      attrsBasic [(['x'], "true".toList)] :=
  bare_attribute_stored_as_true.2.2.2.2.1 ['p'] [(['x'], "true".toList)]
    (by decide)

/-! ### Claim C1 -/

/-- C1 counterexample: when the recursive child pass returns an unresolved
close segment, the code does not compare (or propagate) that close segment —
it compares the just-built child's OPEN segment name with the parent
(document.py:159) and propagates the OPEN segment (document.py:164).  On
`<p>A<b>B</p>` with parent `p`, the segment handed up is the open `<b>`
segment, not the orphan `</p>` close segment; and in strict mode the input
fails with the root-level close-no-match error, not with `UnclosedElement`. -/
theorem child_pass_propagates_open_not_close :
    loadChildren false false ['p'] 20
      ⟨"<p>A<b>B</p>".toList, false, 3,
       some (.elem ⟨"<p>".toList, 0, 3, ['p'], [], true, false⟩), none⟩ =
      .ok ([.textNode ['A'], .element ['b'] [] [.textNode ['B']]],
           some (.elem ⟨"<b>".toList, 4, 7, ['b'], [], true, false⟩),
           ⟨"<p>A<b>B</p>".toList, false, 12,
            some (.elem ⟨"</p>".toList, 8, 12, ['p'], [], false, true⟩),
            none⟩) ∧
    (Segment.elem ⟨"<b>".toList, 4, 7, ['b'], [], true, false⟩ ≠
     Segment.elem ⟨"</p>".toList, 8, 12, ['p'], [], false, true⟩) ∧
    buildDoc "<p>A<b>B</p>".toList true false =
      .error (.exc (.closeNoMatch 0)) ∧
    (PyError.exc (.closeNoMatch 0) ≠ PyError.exc .unclosedElement) := by
  exact ⟨rfl, by decide, rfl, by decide⟩

/-- C1 amended: when a recursive call of the child pass returns an
unresolved segment, the pass compares the NAME OF THE CHILD'S OPEN SEGMENT
(the tag it just recursed into) with the current parent's name — on a match
the parent is closed and `None` is returned, otherwise the child's OPEN
segment is propagated upward.  For `<p>A<b>B</p>` in lenient mode the
resulting tree is nevertheless `p{A, b{B}}` with `b` implicitly closed (any
unresolved response terminates the parent's loop), and in strict mode the
input fails — but with the root-pass close-no-match error
(document.py:117), not `UnclosedElement`; the propagation of the open
segment is observable: in `<a><p>X<b>Y</p>Z</a>` the orphan `</p>` is never
matched against `p`, the recovery unwinds to the root, and `Z` becomes a
root sibling of `a` instead of its child. -/
theorem child_pass_open_segment_recovery :
    buildDoc "<p>A<b>B</p>".toList false false =
      .ok [.element ['p'] []
        [.textNode ['A'], .element ['b'] [] [.textNode ['B']]]] ∧
    buildDoc "<p>A<b>B</p>".toList true false =
      .error (.exc (.closeNoMatch 0)) ∧
    buildDoc "<a><p>X<b>Y</p>Z</a>".toList false false =
      .ok [.element ['a'] []
             [.element ['p'] [] [.textNode ['X'],
               .element ['b'] [] [.textNode ['Y']]]],
           .textNode ['Z']] := by
  exact ⟨rfl, rfl, rfl⟩

/-! ### Claim C6 -/

/-- C6: whenever the child pass's segment stream is exhausted while its
parent element is still open, strict mode fails with `UnclosedElement`
(document.py:191) and no document is produced, while lenient mode succeeds
treating the parent as implicitly closed (document.py:193); end-to-end on
`<p><b></b>`: strict build fails with `UnclosedElement`, lenient build
returns `p{b}` with `p` implicitly closed at end of input. -/
theorem unclosed_element_end_of_input :
    (∀ (comments : Bool) (pname : Str) (fuel : Nat)
       (stS stL rS rL : ParserState),
      nextSeg stS = .ok (none, rS) →
      nextSeg stL = .ok (none, rL) →
      loadChildren true comments pname (fuel + 1) stS =
        .error (.exc .unclosedElement) ∧
      loadChildren false comments pname (fuel + 1) stL =
        .ok ([], none, rL)) ∧
    buildDoc "<p><b></b>".toList true false = .error (.exc .unclosedElement) ∧
    buildDoc "<p><b></b>".toList false false =
      .ok [.element ['p'] [] [.element ['b'] [] []]] := by
  refine ⟨?_, rfl, rfl⟩
  intro comments pname fuel stS stL rS rL hS hL
  constructor
  · simp only [loadChildren, hS]; rfl
  · simp only [loadChildren, hL]; rfl

/-- C6 witness: the stream of an empty buffer is exhausted at once. -/
theorem unclosed_element_end_of_input_witness :
    loadChildren true false ['p'] 1 (initParser [] true) =
      .error (.exc .unclosedElement) ∧
    loadChildren false false ['p'] 1 (initParser [] false) =
      .ok ([], none, initParser [] false) :=
  unclosed_element_end_of_input.1 false ['p'] 0
    (initParser [] true) (initParser [] false)
    (initParser [] true) (initParser [] false) rfl rfl

/-! ### Claim C7 -/

/-- Filtering a cons whose head passes. -/
theorem filterP {flt : HTMLNode → Bool} {t : HTMLNode} {l : List HTMLNode}
    (hf : flt t = true) : List.filter flt (t :: l) = t :: List.filter flt l :=
  List.filter_cons_of_pos hf

/-- Filtering a cons whose head fails. -/
theorem filterN {flt : HTMLNode → Bool} {t : HTMLNode} {l : List HTMLNode}
    (hf : flt t = false) : List.filter flt (t :: l) = List.filter flt l :=
  List.filter_cons_of_neg (by simp [hf])

/-- The result-cap test of `visit` as a standalone function. -/
theorem visit_eq (flt : HTMLNode → Bool) (mr : Option Int) (node : HTMLNode)
    (results : List HTMLNode) :
    visit flt mr node results =
      (if flt node then results ++ [node] else results,
       flt node &&
         (match mr with
          | some m => decide (((if flt node then results ++ [node]
              else results).length : Int) ≥ m)
          | none => false)) := rfl

/-- Step: a matched node that reaches the result cap stops everything. -/
theorem searchRec_stop (flt : HTMLNode → Bool) (m : Int) (t : HTMLNode)
    (dr : Option Int) (acc : List HTMLNode) (hf : flt t = true)
    (hcap : (((acc.length + 1 : Nat)) : Int) ≥ m) :
    searchRec flt (some m) t dr acc = (acc ++ [t], false) := by
  have h : (((acc ++ [t]).length : Nat) : Int) ≥ m := by
    simpa using hcap
  cases t <;> simp [searchRec, visit, hf, h] <;>
    first | omega | (intro h2; omega)

/-- Step: an unmatched leaf (text/comment) node continues unchanged. -/
theorem searchRec_leaf_nomatch (flt : HTMLNode → Bool) (mr : Option Int)
    (t : HTMLNode) (dr : Option Int) (acc : List HTMLNode)
    (hleaf : (match t with | .element _ _ _ => False | _ => True))
    (hf : flt t = false) :
    searchRec flt mr t dr acc = (acc, true) := by
  cases t with
  | element nm a c => exact absurd hleaf (by simp)
  | textNode s => simp [searchRec, visit, hf]
  | commentNode s => simp [searchRec, visit, hf]

/-- Step: a matched leaf below the cap is appended and continues. -/
theorem searchRec_leaf_match (flt : HTMLNode → Bool) (m : Int)
    (t : HTMLNode) (dr : Option Int) (acc : List HTMLNode)
    (hleaf : (match t with | .element _ _ _ => False | _ => True))
    (hf : flt t = true)
    (hcap : ¬((((acc.length + 1 : Nat)) : Int) ≥ m)) :
    searchRec flt (some m) t dr acc = (acc ++ [t], true) := by
  have h : ¬((((acc ++ [t]).length : Nat) : Int) ≥ m) := by
    simpa using hcap
  cases t with
  | element nm a c => exact absurd hleaf (by simp)
  | textNode s => simp [searchRec, visit, hf, h] <;>
      first | omega | (intro h2; omega)
  | commentNode s => simp [searchRec, visit, hf, h] <;>
      first | omega | (intro h2; omega)

/-- Step: a matched element below the cap, with the depth gate closed,
is appended and continues without descending. -/
theorem searchRec_elem_match_nodesc (flt : HTMLNode → Bool) (m : Int)
    (nm : Str) (a : List (Str × Str)) (children : List HTMLNode) (dd : Int)
    (acc : List HTMLNode) (hf : flt (.element nm a children) = true)
    (hcap : ¬((((acc.length + 1 : Nat)) : Int) ≥ m))
    (hgate : ¬(dd - 1 ≥ 0)) :
    searchRec flt (some m) (.element nm a children) (some dd) acc =
      (acc ++ [.element nm a children], true) := by
  have h : ¬((((acc ++ [HTMLNode.element nm a children]).length : Nat) : Int) ≥ m) := by
    simpa using hcap
  simp [searchRec, visit, hf, h, hgate] <;> first | omega | (intro h2; omega)

/-- Step: a matched element below the cap, with the depth gate open,
is appended and the children are searched with one fewer generation. -/
theorem searchRec_elem_match_desc (flt : HTMLNode → Bool) (m : Int)
    (nm : Str) (a : List (Str × Str)) (children : List HTMLNode) (dd : Int)
    (acc : List HTMLNode) (hf : flt (.element nm a children) = true)
    (hcap : ¬((((acc.length + 1 : Nat)) : Int) ≥ m))
    (hgate : dd - 1 ≥ 0) :
    searchRec flt (some m) (.element nm a children) (some dd) acc =
      searchKids flt (some m) children (some (dd - 1))
        (acc ++ [.element nm a children]) := by
  have h : ¬((((acc ++ [HTMLNode.element nm a children]).length : Nat) : Int) ≥ m) := by
    simpa using hcap
  simp [searchRec, visit, hf, h, hgate] <;> first | omega | (intro h2; omega)

/-- Step: an unmatched element with the depth gate closed continues. -/
theorem searchRec_elem_nomatch_nodesc (flt : HTMLNode → Bool)
    (mr : Option Int) (nm : Str) (a : List (Str × Str))
    (children : List HTMLNode) (dd : Int) (acc : List HTMLNode)
    (hf : flt (.element nm a children) = false) (hgate : ¬(dd - 1 ≥ 0)) :
    searchRec flt mr (.element nm a children) (some dd) acc = (acc, true) := by
  simp [searchRec, visit, hf, hgate]

/-- Step: an unmatched element with the depth gate open descends. -/
theorem searchRec_elem_nomatch_desc (flt : HTMLNode → Bool) (mr : Option Int)
    (nm : Str) (a : List (Str × Str)) (children : List HTMLNode) (dd : Int)
    (acc : List HTMLNode) (hf : flt (.element nm a children) = false)
    (hgate : dd - 1 ≥ 0) :
    searchRec flt mr (.element nm a children) (some dd) acc =
      searchKids flt mr children (some (dd - 1)) acc := by
  simp [searchRec, visit, hf, hgate]

/-- Step: the sibling loop on an empty list continues. -/
theorem searchKids_nil (flt : HTMLNode → Bool) (mr : Option Int)
    (dr : Option Int) (acc : List HTMLNode) :
    searchKids flt mr [] dr acc = (acc, true) := rfl

/-- Step: one iteration of the sibling loop. -/
theorem searchKids_cons (flt : HTMLNode → Bool) (mr : Option Int)
    (x : HTMLNode) (rest : List HTMLNode) (dr : Option Int)
    (acc r1 : List HTMLNode) (c1 : Bool)
    (hx : searchRec flt mr x dr acc = (r1, c1)) :
    searchKids flt mr (x :: rest) dr acc =
      (if c1 then searchKids flt mr rest dr r1 else (r1, false)) := by
  simp [searchKids, hx]

/-- Step: unmatched element with no depth limit descends with no limit. -/
theorem searchRec_elem_nomatch_none (flt : HTMLNode → Bool) (mr : Option Int)
    (nm : Str) (a : List (Str × Str)) (children : List HTMLNode)
    (acc : List HTMLNode) (hf : flt (.element nm a children) = false) :
    searchRec flt mr (.element nm a children) none acc =
      searchKids flt mr children none acc := by
  simp [searchRec, visit, hf]

/-- Step: with no result cap, a matched node never stops; an element
descends with no depth limit. -/
theorem searchRec_elem_match_none (flt : HTMLNode → Bool) (nm : Str)
    (a : List (Str × Str)) (children : List HTMLNode)
    (acc : List HTMLNode) (hf : flt (.element nm a children) = true) :
    searchRec flt none (.element nm a children) none acc =
      searchKids flt none children none (acc ++ [.element nm a children]) := by
  simp [searchRec, visit, hf]

/-- Step: with no result cap, a matched leaf is appended and continues. -/
theorem searchRec_leaf_match_none (flt : HTMLNode → Bool) (t : HTMLNode)
    (dr : Option Int) (acc : List HTMLNode)
    (hleaf : (match t with | .element _ _ _ => False | _ => True))
    (hf : flt t = true) :
    searchRec flt none t dr acc = (acc ++ [t], true) := by
  cases t with
  | element nm a c => exact absurd hleaf (by simp)
  | textNode s => simp [searchRec, visit, hf]
  | commentNode s => simp [searchRec, visit, hf]

/-- Characterisation of the depth- and result-capped search: with `k ≥ 1`
results allowed, the traversal returns the accumulator extended by the first
`k - |acc|` filter matches of the depth-bounded pre-order listing, and its
continue flag is false exactly when the cap has been reached. -/
theorem search_cap_lemma (flt : HTMLNode → Bool) (k : Nat) : ∀ N : Nat,
    (∀ t, nodeSize t ≤ N → ∀ (d : Nat) (acc : List HTMLNode),
      acc.length < k →
      searchRec flt (some (k : Int)) t (some (d : Int)) acc =
        (acc ++ ((preorderDepth d t).filter flt).take (k - acc.length),
         decide (acc.length + ((preorderDepth d t).filter flt).length < k))) ∧
    (∀ xs, listSize xs ≤ N → ∀ (d : Nat) (acc : List HTMLNode),
      acc.length < k →
      searchKids flt (some (k : Int)) xs (some (d : Int)) acc =
        (acc ++ ((preorderDepthList d xs).filter flt).take (k - acc.length),
         decide (acc.length + ((preorderDepthList d xs).filter flt).length < k))) := by
  intro N
  induction N using Nat.strong_induction_on with
  | _ N ih =>
    constructor
    · intro t ht d acc hacc
      match t with
      | .element nm a children =>
        have hch : listSize children < N := by
          simp only [nodeSize] at ht; omega
        by_cases hf : flt (.element nm a children)
        · by_cases hcap : acc.length + 1 < k
          · have hncap : ¬((((acc.length + 1 : Nat)) : Int) ≥ (k : Int)) := by
              omega
            match d with
            | 0 =>
              rw [searchRec_elem_match_nodesc flt (k : Int) nm a children
                ((0 : Nat) : Int) acc hf hncap (by omega)]
              simp only [preorderDepth, filterP hf, List.filter_nil]
              rw [List.take_of_length_le (by simp; omega)]
              refine Prod.ext rfl ?_
              simp only [List.length_cons, List.length_nil]
              symm
              exact decide_eq_true (by omega)
            | d' + 1 =>
              have hd1 : (((d' + 1 : Nat) : Int) - 1) = ((d' : Nat) : Int) := by
                omega
              rw [searchRec_elem_match_desc flt (k : Int) nm a children
                (((d' + 1 : Nat)) : Int) acc hf hncap (by omega), hd1]
              rw [(ih (listSize children) hch).2 children (le_refl _) d'
                (acc ++ [HTMLNode.element nm a children]) (by simp; omega)]
              simp only [preorderDepth, filterP hf, List.length_append,
                List.length_cons, List.length_nil]
              refine Prod.ext ?_ ?_
              · have hsplit : k - acc.length = (k - (acc.length + 1)) + 1 := by
                  omega
                rw [hsplit, List.take_succ_cons]
                simp only [List.append_assoc, List.singleton_append]
              · simp only [List.length_cons]
                congr 1
                simp only [eq_iff_iff]
                omega
          · have hxcap : (((acc.length + 1 : Nat)) : Int) ≥ (k : Int) := by
              omega
            rw [searchRec_stop flt (k : Int) _ _ acc hf hxcap]
            have hk1 : k - acc.length = 1 := by omega
            match d with
            | 0 =>
              simp only [preorderDepth, filterP hf, List.filter_nil, hk1,
                List.take_succ_cons, List.take_nil, List.take_zero]
              refine Prod.ext rfl ?_
              simp only [List.length_cons, List.length_nil]
              symm
              exact decide_eq_false (by omega)
            | d' + 1 =>
              simp only [preorderDepth, filterP hf, hk1,
                List.take_succ_cons, List.take_zero]
              refine Prod.ext rfl ?_
              simp only [List.length_cons]
              symm
              exact decide_eq_false (by omega)
        · have hf' : flt (.element nm a children) = false := by
            simpa using hf
          match d with
          | 0 =>
            rw [searchRec_elem_nomatch_nodesc flt _ nm a children
              ((0 : Nat) : Int) acc hf' (by omega)]
            simp only [preorderDepth, filterN hf', List.filter_nil,
              List.take_nil, List.append_nil, List.length_nil]
            refine Prod.ext rfl ?_
            symm
            exact decide_eq_true (by omega)
          | d' + 1 =>
            have hd1 : (((d' + 1 : Nat) : Int) - 1) = ((d' : Nat) : Int) := by
              omega
            rw [searchRec_elem_nomatch_desc flt _ nm a children
              (((d' + 1 : Nat)) : Int) acc hf' (by omega), hd1]
            rw [(ih (listSize children) hch).2 children (le_refl _) d'
              acc hacc]
            simp only [preorderDepth, filterN hf']
      | .textNode s =>
        by_cases hf : flt (.textNode s)
        · by_cases hcap : acc.length + 1 < k
          · rw [searchRec_leaf_match flt (k : Int) _ _ acc (by simp)
              hf (by omega)]
            simp only [preorderDepth, filterP hf, List.filter_nil]
            rw [List.take_of_length_le (by simp; omega)]
            refine Prod.ext rfl ?_
            simp only [List.length_cons, List.length_nil]
            symm
            exact decide_eq_true (by omega)
          · rw [searchRec_stop flt (k : Int) _ _ acc hf (by omega)]
            have hk1 : k - acc.length = 1 := by omega
            simp only [preorderDepth, filterP hf, List.filter_nil, hk1,
              List.take_succ_cons, List.take_nil]
            refine Prod.ext rfl ?_
            simp only [List.length_cons, List.length_nil]
            symm
            exact decide_eq_false (by omega)
        · rw [searchRec_leaf_nomatch flt _ _ _ acc (by simp)
            (by simpa using hf)]
          simp only [preorderDepth,
            filterN (by simpa using hf : flt (.textNode s) = false),
            List.filter_nil, List.take_nil, List.append_nil,
            List.length_nil]
          refine Prod.ext rfl ?_
          symm
          exact decide_eq_true (by omega)
      | .commentNode s =>
        by_cases hf : flt (.commentNode s)
        · by_cases hcap : acc.length + 1 < k
          · rw [searchRec_leaf_match flt (k : Int) _ _ acc (by simp)
              hf (by omega)]
            simp only [preorderDepth, filterP hf, List.filter_nil]
            rw [List.take_of_length_le (by simp; omega)]
            refine Prod.ext rfl ?_
            simp only [List.length_cons, List.length_nil]
            symm
            exact decide_eq_true (by omega)
          · rw [searchRec_stop flt (k : Int) _ _ acc hf (by omega)]
            have hk1 : k - acc.length = 1 := by omega
            simp only [preorderDepth, filterP hf, List.filter_nil, hk1,
              List.take_succ_cons, List.take_nil]
            refine Prod.ext rfl ?_
            simp only [List.length_cons, List.length_nil]
            symm
            exact decide_eq_false (by omega)
        · rw [searchRec_leaf_nomatch flt _ _ _ acc (by simp)
            (by simpa using hf)]
          simp only [preorderDepth,
            filterN (by simpa using hf : flt (.commentNode s) = false),
            List.filter_nil, List.take_nil, List.append_nil,
            List.length_nil]
          refine Prod.ext rfl ?_
          symm
          exact decide_eq_true (by omega)
    · intro xs hxs d acc hacc
      match xs with
      | [] =>
        rw [searchKids_nil]
        simp only [preorderDepthList, List.filter_nil, List.take_nil,
          List.append_nil, List.length_nil]
        refine Prod.ext rfl ?_
        symm
        exact decide_eq_true (by omega)
      | x :: rest =>
        have hx : nodeSize x < N := by
          simp only [listSize] at hxs; omega
        have hrest : listSize rest < N := by
          simp only [listSize] at hxs; omega
        have ihx := (ih (nodeSize x) hx).1 x (le_refl _) d acc hacc
        by_cases hcont : acc.length + ((preorderDepth d x).filter flt).length < k
        · have hlen : ((preorderDepth d x).filter flt).length ≤ k - acc.length := by
            omega
          rw [searchKids_cons flt _ x rest _ acc _ _ ihx,
            if_pos (decide_eq_true hcont)]
          rw [List.take_of_length_le hlen]
          rw [(ih (listSize rest) hrest).2 rest (le_refl _) d
            (acc ++ (preorderDepth d x).filter flt)
            (by simp only [List.length_append]; omega)]
          simp only [preorderDepthList, List.filter_append,
            List.length_append, List.append_assoc]
          refine Prod.ext ?_ ?_
          · rw [List.take_append_eq_append_take, List.take_of_length_le hlen]
            have hixx : (k - acc.length) -
                ((preorderDepth d x).filter flt).length =
                k - (acc.length + ((preorderDepth d x).filter flt).length) := by
              omega
            rw [hixx]
          · rw [Nat.add_assoc]
        · rw [searchKids_cons flt _ x rest _ acc _ _ ihx,
            if_neg (by simpa using hcont)]
          simp only [preorderDepthList, List.filter_append,
            List.length_append]
          refine Prod.ext ?_ ?_
          · rw [List.take_append_of_le_length (by omega)]
          · symm
            exact decide_eq_false (by omega)

/-- C7 amended: for every tree, predicate, depth cap `d` and result cap
`k ≥ 1`, `search` returns exactly the first `k` filter matches of the
depth-`d`-bounded pre-order (document-order) listing — so results come in
document order, never more than `k` of them, never from deeper than `d`
generations (`d = 0`: the start node only), and traversal stops with the
`k`-th match.  (For `k = 0` the claim fails, see the counterexample: the cap
is only checked after a match is appended, so one result is returned.) -/
theorem search_depth_cap_characterization :
    ∀ (flt : HTMLNode → Bool) (t : HTMLNode) (d k : Nat), 1 ≤ k →
      search flt (some (d : Int)) (some (k : Int)) t =
        ((preorderDepth d t).filter flt).take k := by
  intro flt t d k hk
  have h := (search_cap_lemma flt k (nodeSize t)).1 t (le_refl _) d []
    (by simpa using hk)
  simp [search, h]

/-- C7 witness at a concrete tree, depth 1 and cap 1. -/
theorem search_depth_cap_characterization_witness :
    search (fun _ => true) (some (1 : Int)) (some (1 : Int))
      (.element ['p'] [] [.textNode ['x']]) =
      ((preorderDepth 1 (.element ['p'] [] [.textNode ['x']])).filter
        (fun _ => true)).take 1 :=
  search_depth_cap_characterization (fun _ => true)
    (.element ['p'] [] [.textNode ['x']]) 1 1 (by decide)

/-- C7 counterexample: with maximum result count `k = 0` the search still
returns one match (the cap `len(results) >= maxResults` is only tested after
a match is appended, document.py:580-583), violating “returns at most k
results”. -/
theorem search_zero_cap_returns_one :
    search (fun _ => true) (some (5 : Int)) (some (0 : Int))
      (.textNode ['x']) = [.textNode ['x']] ∧
    ¬((search (fun _ => true) (some (5 : Int)) (some (0 : Int))
        (.textNode ['x'])).length ≤ 0) := by
  exact ⟨rfl, by decide⟩

/-! ### Claim C8 -/

/-- Characterisation of the uncapped, unlimited-depth search: it collects
exactly the filter matches of the full pre-order listing and never stops. -/
theorem search_unbounded_lemma (flt : HTMLNode → Bool) : ∀ N : Nat,
    (∀ t, nodeSize t ≤ N → ∀ acc : List HTMLNode,
      searchRec flt none t none acc =
        (acc ++ (preorder t).filter flt, true)) ∧
    (∀ xs, listSize xs ≤ N → ∀ acc : List HTMLNode,
      searchKids flt none xs none acc =
        (acc ++ (preorderList xs).filter flt, true)) := by
  intro N
  induction N using Nat.strong_induction_on with
  | _ N ih =>
    constructor
    · intro t ht acc
      match t with
      | .element nm a children =>
        have hch : listSize children < N := by
          simp only [nodeSize] at ht; omega
        by_cases hf : flt (.element nm a children)
        · rw [searchRec_elem_match_none flt nm a children acc hf]
          rw [(ih (listSize children) hch).2 children (le_refl _)
            (acc ++ [HTMLNode.element nm a children])]
          simp [preorder, filterP hf]
        · have hf' : flt (.element nm a children) = false := by
            simpa using hf
          rw [searchRec_elem_nomatch_none flt none nm a children acc hf']
          rw [(ih (listSize children) hch).2 children (le_refl _) acc]
          simp [preorder, filterN hf']
      | .textNode s =>
        by_cases hf : flt (.textNode s)
        · rw [searchRec_leaf_match_none flt _ none acc (by simp) hf]
          simp [preorder, filterP hf]
        · have hf' : flt (.textNode s) = false := by simpa using hf
          rw [searchRec_leaf_nomatch flt none _ none acc (by simp) hf']
          simp [preorder, filterN hf']
      | .commentNode s =>
        by_cases hf : flt (.commentNode s)
        · rw [searchRec_leaf_match_none flt _ none acc (by simp) hf]
          simp [preorder, filterP hf]
        · have hf' : flt (.commentNode s) = false := by simpa using hf
          rw [searchRec_leaf_nomatch flt none _ none acc (by simp) hf']
          simp [preorder, filterN hf']
    · intro xs hxs acc
      match xs with
      | [] =>
        rw [searchKids_nil]
        simp [preorderList]
      | x :: rest =>
        have hx : nodeSize x < N := by
          simp only [listSize] at hxs; omega
        have hrest : listSize rest < N := by
          simp only [listSize] at hxs; omega
        have ihx := (ih (nodeSize x) hx).1 x (le_refl _) acc
        rw [searchKids_cons flt none x rest none acc _ _ ihx, if_pos rfl]
        rw [(ih (listSize rest) hrest).2 rest (le_refl _)
          (acc ++ (preorder x).filter flt)]
        simp [preorderList, List.filter_append]

/-- `pySplitChar` never returns the empty list of tokens. -/
theorem pySplitChar_ne_nil (sep : Char) (s : Str) :
    pySplitChar sep s ≠ [] := by
  induction s with
  | nil => simp [pySplitChar]
  | cons c cs ih =>
    simp only [pySplitChar]
    cases h : pySplitChar sep cs with
    | nil => exact absurd h ih
    | cons t ts => by_cases hc : c == sep <;> simp [hc]

/-- The implementation's single-character split agrees with the library's
`List.splitOn`. -/
theorem pySplitChar_eq_splitOn (sep : Char) (s : Str) :
    pySplitChar sep s = s.splitOn sep := by
  induction s with
  | nil => rfl
  | cons c cs ih =>
    have hne := List.splitOnP_ne_nil (fun x => x == sep) cs
    simp only [pySplitChar, ih, List.splitOn, List.splitOnP_cons]
    cases h : List.splitOnP (fun x => x == sep) cs with
    | nil => exact absurd h hne
    | cons t ts =>
      by_cases hc : c == sep
      · simp [hc, h]
      · simp [hc, h, List.modifyHead]

/-- C8 counterexample: class matching does not split the `class` attribute
on arbitrary whitespace — with `class="a\tb"` the name `a` is a
whitespace-separated token but `hasClass` does not match it (the split is on
single spaces only, document.py:549). -/
theorem has_class_whitespace_token_not_matched :
    hasClass [("class".toList, "a\tb".toList)] ['a'] = false ∧
    ['a'] ∈ wsTokens "a\tb".toList := by
  exact ⟨rfl, by decide⟩

/-- C8 amended: class matching is exact-token membership (not substring
matching) in the `class` attribute value split on single SPACE characters
(Python `split(" ")`): `hasClass` succeeds exactly when the name is one of
the space-separated tokens; it is false without a `class` attribute; and
`getElementsByClassName` returns exactly the document-order elements whose
class list matches. -/
theorem has_class_exact_space_token_membership :
    (∀ (attrs : List (Str × Str)) (c v : Str),
      dictGet attrs "class".toList = some v →
      (hasClass attrs c = true ↔ c ∈ v.splitOn ' ')) ∧
    (∀ (attrs : List (Str × Str)) (c : Str),
      dictGet attrs "class".toList = none → hasClass attrs c = false) ∧
    hasClass [("class".toList, "ab".toList)] ['a'] = false ∧
    (∀ (t : HTMLNode) (c : Str),
      getElementsByClassName t c = (preorder t).filter (classFilter c)) := by
  refine ⟨?_, ?_, rfl, ?_⟩
  · intro attrs c v h
    simp only [hasClass, h, ← pySplitChar_eq_splitOn]
    exact List.elem_iff
  · intro attrs c h
    simp [hasClass,
      show dictGet attrs ['c', 'l', 'a', 's', 's'] = none from h]
  · intro t c
    have h := (search_unbounded_lemma (classFilter c) (nodeSize t)).1 t
      (le_refl _) []
    simp [getElementsByClassName, search, h]

/-- C8 witness at a concrete element with `class="a b"`. -/
theorem has_class_exact_space_token_membership_witness :
    hasClass [("class".toList, "a b".toList)] ['a'] = true ↔
      ['a'] ∈ ("a b".toList).splitOn ' ' :=
  has_class_exact_space_token_membership.1 [("class".toList, "a b".toList)]
    ['a'] "a b".toList rfl

/-! ### Character-class facts -/

theorem lowAlpha_bounds {c : Char} (h : isLowerAlpha c = true) :
    97 ≤ c.toNat ∧ c.toNat ≤ 122 := by
  simp only [isLowerAlpha, Bool.and_eq_true, decide_eq_true_eq] at h
  exact ⟨h.1, h.2⟩

theorem alnum_cases {c : Char} (h : pyIsAlnum c = true) :
    (48 ≤ c.toNat ∧ c.toNat ≤ 57) ∨ (65 ≤ c.toNat ∧ c.toNat ≤ 90) ∨
    (97 ≤ c.toNat ∧ c.toNat ≤ 122) := by
  simp only [pyIsAlnum, pyIsAlpha, isLowerAlpha, isUpperAlpha, pyIsDigit,
    Bool.or_eq_true, Bool.and_eq_true, decide_eq_true_eq] at h
  rcases h with (⟨h1, h2⟩ | ⟨h1, h2⟩) | ⟨h1, h2⟩
  · exact Or.inr (Or.inr ⟨h1, h2⟩)
  · exact Or.inr (Or.inl ⟨h1, h2⟩)
  · exact Or.inl ⟨h1, h2⟩

theorem chNe_of_toNat {c d : Char} (h : c.toNat ≠ d.toNat) : c ≠ d :=
  fun hc => h (congrArg Char.toNat hc)

theorem chBeq_false {c d : Char} (h : c.toNat ≠ d.toNat) : (c == d) = false :=
  beq_eq_false_iff_ne.mpr (chNe_of_toNat h)

/-- No character with code point at least 33 is Python whitespace. -/
theorem pyIsSpace_false_of_ge {c : Char} (h : 33 ≤ c.toNat) :
    pyIsSpace c = false := by
  simp only [pyIsSpace]
  rw [chBeq_false (show c.toNat ≠ 32 by omega),
    chBeq_false (show c.toNat ≠ 9 by omega),
    chBeq_false (show c.toNat ≠ 10 by omega),
    chBeq_false (show c.toNat ≠ 13 by omega),
    chBeq_false (show c.toNat ≠ 11 by omega),
    chBeq_false (show c.toNat ≠ 12 by omega)]
  rfl

theorem lowAlpha_not_space {c : Char} (h : isLowerAlpha c = true) :
    pyIsSpace c = false :=
  pyIsSpace_false_of_ge (by have := lowAlpha_bounds h; omega)

theorem alnum_not_space {c : Char} (h : pyIsAlnum c = true) :
    pyIsSpace c = false :=
  pyIsSpace_false_of_ge (by have := alnum_cases h; omega)

theorem lowAlpha_toNat_ne {c : Char} (h : isLowerAlpha c = true) {n : Nat}
    (hn : n < 97 ∨ 122 < n) : c.toNat ≠ n := by
  have := lowAlpha_bounds h; omega

theorem alnum_toNat_ne {c : Char} (h : pyIsAlnum c = true) {n : Nat}
    (hn : (n < 48 ∨ 57 < n) ∧ (n < 65 ∨ 90 < n) ∧ (n < 97 ∨ 122 < n)) :
    c.toNat ≠ n := by
  have := alnum_cases h; omega

theorem lowAlpha_isAlpha {c : Char} (h : isLowerAlpha c = true) :
    pyIsAlpha c = true := by
  simp [pyIsAlpha, h]

theorem lowAlpha_isAlnum {c : Char} (h : isLowerAlpha c = true) :
    pyIsAlnum c = true := by
  simp [pyIsAlnum, lowAlpha_isAlpha h]

theorem lowerChar_id {c : Char} (h : isLowerAlpha c = true) :
    lowerChar c = c := by
  have hb := lowAlpha_bounds h
  simp only [lowerChar, isUpperAlpha]
  rw [if_neg]
  intro hcontr
  simp only [Bool.and_eq_true, decide_eq_true_eq] at hcontr
  have h1 : (65 : Nat) ≤ c.toNat := hcontr.1
  have h2 : c.toNat ≤ (90 : Nat) := hcontr.2
  omega

theorem pyLower_id {s : Str} (h : s.all isLowerAlpha = true) :
    pyLower s = s := by
  induction s with
  | nil => rfl
  | cons c cs ih =>
    simp only [List.all_cons, Bool.and_eq_true] at h
    simp only [pyLower, List.map_cons, lowerChar_id h.1]
    have h2 := ih h.2
    simp only [pyLower] at h2
    rw [h2]

theorem upperChar_ne_bang {c : Char} (h : isLowerAlpha c = true) :
    upperChar c ≠ '!' := by
  have hb := lowAlpha_bounds h
  simp only [upperChar, h, if_true]
  intro hcontr
  have h3 := congrArg Char.toNat hcontr
  have hv : (c.toNat - 32).isValidChar := by
    constructor; omega
  rw [Char.ofNat, dif_pos hv] at h3
  have h4 : (Char.ofNatAux (c.toNat - 32) hv).toNat = c.toNat - 32 := rfl
  rw [h4] at h3
  have h5 : ('!').toNat = 33 := rfl
  rw [h5] at h3
  omega

/-! ### Position and region helpers -/

theorem drop_add (cs : Str) (b n : Nat) :
    cs.drop (b + n) = (cs.drop b).drop n := by
  rw [List.drop_drop, Nat.add_comm]

theorem getq_drop {cs : Str} {b : Nat} : cs.get? b = (cs.drop b).head? := by
  rw [List.get?_eq_getElem?, ← List.head?_drop]

theorem pyIndex_drop {cs : Str} {b : Nat} {c : Char} {rest : Str}
    (hb : cs.drop b = c :: rest) : pyIndex cs b = .ok c := by
  unfold pyIndex
  rw [getq_drop, hb]
  rfl

theorem slice_drop {cs : Str} {b : Nat} {s rest : Str}
    (hb : cs.drop b = s ++ rest) : slice cs b (b + s.length) = s := by
  simp only [slice, hb, Nat.add_sub_cancel_left]
  exact List.take_left s rest

theorem readWhitespace_nonspace {cs : Str} {b : Nat} {c : Char} {rest : Str}
    (hb : cs.drop b = c :: rest) (hc : pyIsSpace c = false) :
    readWhitespace cs b = b := by
  simp [readWhitespace, hb, countWs, hc]

theorem countWs_append_left {s t : Str} (h : (s.dropWhile pyIsSpace) ≠ []) :
    countWs (s ++ t) = countWs s := by
  induction s with
  | nil => simp [List.dropWhile] at h
  | cons c cs ih =>
    by_cases hc : pyIsSpace c
    · simp only [List.dropWhile, hc] at h
      simp only [List.cons_append, countWs, hc, if_true]
      simp only [List.append_eq]
      rw [ih h]
    · simp only [countWs, List.cons_append, hc, if_false]
      simp [hc]

theorem drop_countWs (s : Str) : s.drop (countWs s) = s.dropWhile pyIsSpace := by
  induction s with
  | nil => rfl
  | cons c cs ih =>
    by_cases hc : pyIsSpace c
    · simp [countWs, hc, ih]
    · simp [countWs, hc]

theorem countWs_lt_of_strip {s : Str} (h : (s.dropWhile pyIsSpace) ≠ []) :
    countWs s < s.length := by
  induction s with
  | nil => simp [List.dropWhile] at h
  | cons c cs ih =>
    by_cases hc : pyIsSpace c
    · simp only [List.dropWhile, hc] at h
      simp only [countWs, hc, if_true, List.length_cons]
      have := ih h
      omega
    · simp [countWs, hc]

/-! ### Strip and unwrap facts -/

theorem pyStrip_cons_space {c : Char} (hc : pyIsSpace c = true) (t : Str) :
    pyStrip (c :: t) = pyStrip t := by
  simp [pyStrip, List.dropWhile, hc]

theorem dropWhile_idem (p : Char → Bool) (s : Str) :
    (s.dropWhile p).dropWhile p = s.dropWhile p := by
  induction s with
  | nil => rfl
  | cons c cs ih => by_cases h : p c <;> simp [List.dropWhile, h, ih]

theorem pyStrip_dropWhile (s : Str) :
    pyStrip (s.dropWhile pyIsSpace) = pyStrip s := by
  simp [pyStrip, dropWhile_idem]

theorem pyStrip_append_space {c : Char} (hc : pyIsSpace c = true) (t : Str) :
    pyStrip (t ++ [c]) = pyStrip t := by
  simp only [pyStrip]
  rw [List.dropWhile_append]
  by_cases he : (t.dropWhile pyIsSpace).isEmpty
  · rw [if_pos he]
    rw [List.isEmpty_iff] at he
    rw [he]
    simp [List.dropWhile_cons, hc]
  · rw [if_neg he]
    rw [List.reverse_append]
    simp [List.dropWhile_cons, hc]

theorem pyStrip_id {s : Str} (h : ∀ c ∈ s, pyIsSpace c = false) :
    pyStrip s = s := by
  have h1 : s.dropWhile pyIsSpace = s := by
    cases s with
    | nil => rfl
    | cons c cs => simp [List.dropWhile, h c (by simp)]
  have h2 : s.reverse.dropWhile pyIsSpace = s.reverse := by
    cases hs : s.reverse with
    | nil => rfl
    | cons c cs =>
      have hcmem : c ∈ s := by
        have : c ∈ s.reverse := by rw [hs]; simp
        simpa using this
      simp [List.dropWhile, h c hcmem]
  simp [pyStrip, h1, h2]

theorem pyUnwrap_nonquote {c : Char} {rest : Str} (hc1 : (c == '"') = false)
    (hc2 : (c == '\'') = false) : pyUnwrap (c :: rest) = c :: rest := by
  simp [pyUnwrap, hc1, hc2]

theorem pyUnwrap_quoted (q : Char) (v : Str) (hq : q = '"' ∨ q = '\'') :
    pyUnwrap (q :: v ++ [q]) = v := by
  have hcond : (q == '"' || q == '\'') = true := by
    rcases hq with h | h <;> simp [h]
  show pyUnwrap (q :: (v ++ [q])) = v
  simp only [pyUnwrap, hcond, if_true]
  simp only [slice, List.length_cons, List.length_append, List.length_cons,
    List.length_nil, List.drop_one]
  show ((q :: (v ++ [q])).tail).take (v.length + (0 + 1) + 1 - 1 - 1) = v
  simp only [List.tail_cons]
  have : v.length + (0 + 1) + 1 - 1 - 1 = v.length := by omega
  rw [this]
  exact List.take_left v [q]

/-! ### Scan-loop runs -/

theorem tagNameScanL_run (strict : Bool) :
    ∀ (n : Str) (first : Bool) (rest : Str),
    n.all isLowerAlpha = true →
    (match rest with
     | [] => True
     | c :: _ => (pyIsSpace c || c == '/' || c == '>') = true) →
    tagNameScanL strict first (n ++ rest) = some n.length := by
  intro n
  induction n with
  | nil =>
    intro first rest _ hr
    cases rest with
    | nil => rfl
    | cons c cr => simp [tagNameScanL, hr]
  | cons c n' ih =>
    intro first rest hn hr
    simp only [List.all_cons, Bool.and_eq_true] at hn
    have hs : pyIsSpace c = false := lowAlpha_not_space hn.1
    have h47 : (c == '/') = false :=
      chBeq_false (show c.toNat ≠ 47 by have := lowAlpha_bounds hn.1; omega)
    have h62 : (c == '>') = false :=
      chBeq_false (show c.toNat ≠ 62 by have := lowAlpha_bounds hn.1; omega)
    have hα : pyIsAlpha c = true := lowAlpha_isAlpha hn.1
    have hαn : pyIsAlnum c = true := lowAlpha_isAlnum hn.1
    simp only [List.cons_append, tagNameScanL, hs, h47, h62, Bool.or_false,
      Bool.false_or, if_false, hα, hαn, Bool.not_true, Bool.false_and,
      Bool.and_false, List.append_eq]
    cases strict with
    | false =>
      rw [ih false rest hn.2 hr]
      rfl
    | true =>
      cases first with
      | true =>
        rw [ih false rest hn.2 hr]
        rfl
      | false =>
        rw [ih false rest hn.2 hr]
        rfl

theorem propScanL_run (strict : Bool) :
    ∀ (k : Str) (rest : Str),
    k.all isLowerAlpha = true →
    (match rest with
     | [] => True
     | c :: _ => (pyIsSpace c || c == '=' || c == '/' || c == '>') = true) →
    propScanL strict (k ++ rest) = some k.length := by
  intro k
  induction k with
  | nil =>
    intro rest _ hr
    cases rest with
    | nil => rfl
    | cons c cr => simp [propScanL, hr]
  | cons c k' ih =>
    intro rest hk hr
    simp only [List.all_cons, Bool.and_eq_true] at hk
    have hs : pyIsSpace c = false := lowAlpha_not_space hk.1
    have h61 : (c == '=') = false :=
      chBeq_false (show c.toNat ≠ 61 by have := lowAlpha_bounds hk.1; omega)
    have h47 : (c == '/') = false :=
      chBeq_false (show c.toNat ≠ 47 by have := lowAlpha_bounds hk.1; omega)
    have h62 : (c == '>') = false :=
      chBeq_false (show c.toNat ≠ 62 by have := lowAlpha_bounds hk.1; omega)
    simp only [List.cons_append, propScanL, hs, h61, h47, h62, Bool.or_false,
      Bool.false_or, if_false, isalnumUncalled, Bool.not_true, Bool.false_and,
      Bool.and_false, List.append_eq]
    rw [ih rest hk.2 hr]
    rfl

theorem quotedScanL_run (q : Char) :
    ∀ (v : Str) (rest : Str),
    (∀ c ∈ v, (c == q) = false ∧ (c == '\\') = false) →
    quotedScanL q (v ++ q :: rest) = some (v.length + 1) := by
  intro v
  induction v with
  | nil =>
    intro rest _
    cases rest with
    | nil => simp [quotedScanL]
    | cons c cr => simp [quotedScanL]
  | cons a v' ih =>
    intro rest hv
    have ha := hv a (by simp)
    have hrest : v' ++ q :: rest ≠ [] := by simp
    cases hvv : v' ++ q :: rest with
    | nil => exact absurd hvv hrest
    | cons x xs =>
      rw [List.cons_append, hvv]
      simp only [quotedScanL, ha.1, ha.2, if_false]
      rw [← hvv, ih rest (fun c hc => hv c (by simp [hc]))]
      rfl

/-! ### Dictionary facts -/

theorem dictContains_false_iff (d : List (Str × Str)) (k : Str) :
    dictContains d k = false ↔ ∀ kv ∈ d, kv.1 ≠ k := by
  simp [dictContains, List.any_eq_false]

theorem dictSet_fresh {d : List (Str × Str)} {k : Str} (v : Str)
    (h : dictContains d k = false) : dictSet d k v = d ++ [(k, v)] := by
  simp [dictSet, h]

/-! ### Region groundwork for the round-trip claims -/

theorem drop_region {cs : Str} {b : Nat} {s t : Str}
    (hb : cs.drop b = s ++ t) : cs.drop (b + s.length) = t := by
  rw [drop_add, hb, List.drop_left]

theorem drop_lt_length {cs : Str} {b : Nat} {c : Char} {t : Str}
    (hb : cs.drop b = c :: t) : b < cs.length := by
  by_contra h
  rw [List.drop_eq_nil_of_le (by omega)] at hb
  exact List.noConfusion hb

theorem beq_symm_false {c d : Char} (h : (c == d) = false) :
    (d == c) = false := by
  rw [beq_eq_false_iff_ne] at h ⊢
  exact fun he => h he.symm

theorem countWs_cons_space {c : Char} (hc : pyIsSpace c = true) (t : Str) :
    countWs (c :: t) = countWs t + 1 := by simp [countWs, hc]

theorem countWs_cons_nonspace {c : Char} (hc : pyIsSpace c = false) (t : Str) :
    countWs (c :: t) = 0 := by simp [countWs, hc]

theorem readWhitespace_drop {cs : Str} {b : Nat} {t : Str}
    (hb : cs.drop b = t) : readWhitespace cs b = b + countWs t := by
  simp [readWhitespace, hb]

theorem readComment_none_head {cs : Str} {pos : Nat} {c : Char} {t : Str}
    (hb : cs.drop pos = c :: t) (hc : (c == '<') = false) :
    readComment cs pos = none := by
  have hs : slice cs pos (pos + 4) = c :: t.take 3 := by
    simp [slice, hb, Nat.add_sub_cancel_left, List.take_cons]
  have hfalse : (slice cs pos (pos + 4) == "<!--".toList) = false := by
    rw [hs, beq_eq_false_iff_ne]
    intro h
    have h' : c :: t.take 3 = '<' :: ['!', '-', '-'] := h
    rw [beq_eq_false_iff_ne] at hc
    exact hc (List.cons.injEq .. |>.mp h').1
  simp only [readComment, hfalse]
  rw [if_neg (show ¬ (false = true) by simp)]

theorem readComment_none_second {cs : Str} {pos : Nat} {c c2 : Char} {t : Str}
    (hb : cs.drop pos = c :: c2 :: t) (hc : (c2 == '!') = false) :
    readComment cs pos = none := by
  have hs : slice cs pos (pos + 4) = c :: c2 :: t.take 2 := by
    simp [slice, hb, Nat.add_sub_cancel_left, List.take_cons]
  have hfalse : (slice cs pos (pos + 4) == "<!--".toList) = false := by
    rw [hs, beq_eq_false_iff_ne]
    intro h
    have h' : c :: c2 :: t.take 2 = '<' :: '!' :: ['-', '-'] := h
    rw [beq_eq_false_iff_ne] at hc
    exact hc (List.cons.injEq .. |>.mp (List.cons.injEq .. |>.mp h').2).1
  simp only [readComment, hfalse]
  rw [if_neg (show ¬ (false = true) by simp)]

theorem readTag_none_head {cs : Str} {pos : Nat} {c : Char} {t : Str}
    (hb : cs.drop pos = c :: t) (hc : (c == '<') = false) (strict : Bool) :
    readTag cs strict pos = .ok none := by
  have hne : c ≠ '<' := by rw [beq_eq_false_iff_ne] at hc; exact hc
  simp [readTag, pyIndex_drop hb, pym_bind_ok, pym_pure, hc, hne]

theorem findIdx_dashes : ∀ (u rest : Str),
    (∀ c ∈ u, (c == '-') = false) →
    findIdx "-->".toList (u ++ '-' :: '-' :: '>' :: rest) = some u.length
  | [], rest, _ => by
    simp [findIdx, List.isPrefixOf]
  | c :: u', rest, hu => by
    have hc := hu c (by simp)
    have hpre : (("-->".toList).isPrefixOf
        (c :: (u' ++ '-' :: '-' :: '>' :: rest))) = false := by
      show ((['-', '-', '>'] : Str).isPrefixOf _) = false
      simp [List.isPrefixOf, beq_symm_false hc]
    simp only [List.cons_append, findIdx, hpre, Bool.false_eq_true,
      if_false, List.append_eq]
    rw [findIdx_dashes u' rest (fun d hd => hu d (by simp [hd]))]
    rfl

theorem charPositions_append_nomem (a : Char) : ∀ (u t : Str),
    (∀ c ∈ u, (c == a) = false) →
    charPositions a (u ++ t) = (charPositions a t).map (· + u.length)
  | [], t, _ => by
    simp
  | c :: u', t, hu => by
    have hc := hu c (by simp)
    simp only [List.cons_append, charPositions, hc, Bool.false_eq_true,
      if_false, List.append_eq]
    rw [charPositions_append_nomem a u' t (fun d hd => hu d (by simp [hd]))]
    simp [List.map_map, Function.comp, Nat.add_assoc]

theorem charPositions_cons_self (a : Char) (t : Str) :
    charPositions a (a :: t) = 0 :: (charPositions a t).map (· + 1) := by
  simp [charPositions]

/-! ### Symbolic runs of the attribute reader -/

theorem readTagAttribute_run {cs : Str} {b : Nat} {k v rest : Str}
    (strict : Bool) (attrs : List (Str × Str))
    (hk : k ≠ []) (hka : k.all isLowerAlpha = true)
    (hv : v.all pyIsAlnum = true)
    (hb : cs.drop b = k ++ ('=' :: '"' :: (v ++ '"' :: rest)))
    (hfresh : dictContains attrs k = false) :
    readTagAttribute cs strict b attrs =
      .ok (some (b + k.length + v.length + 3, attrs ++ [(k, v)])) := by
  obtain ⟨kc, k', hkc⟩ : ∃ kc k', k = kc :: k' := by
    cases k with
    | nil => exact absurd rfl hk
    | cons a l => exact ⟨a, l, rfl⟩
  have hkmem : ∀ c ∈ k, isLowerAlpha c = true := fun c hcm =>
    List.all_eq_true.mp hka c hcm
  have hk1 : isLowerAlpha kc = true := hkmem kc (by rw [hkc]; simp)
  have hb' : cs.drop b = kc :: (k' ++ ('=' :: '"' :: (v ++ '"' :: rest))) := by
    rw [hb, hkc]
    rfl
  have hq1 : (kc == '"') = false :=
    chBeq_false (show kc.toNat ≠ 34 by have := lowAlpha_bounds hk1; omega)
  have hq2 : (kc == '\'') = false :=
    chBeq_false (show kc.toNat ≠ 39 by have := lowAlpha_bounds hk1; omega)
  have hws : readWhitespace cs b = b := by
    rw [readWhitespace_drop hb', countWs_cons_nonspace (lowAlpha_not_space hk1)]
    omega
  have hscan : propScanL strict (cs.drop b) = some k.length := by
    rw [hb]
    exact propScanL_run strict k ('=' :: '"' :: (v ++ '"' :: rest)) hka
      (by show (pyIsSpace '=' || '=' == '=' || '=' == '/' || '=' == '>') = true
          decide)
  have hprop : readTagAttributeProperty cs strict b =
      .ok (some (b + k.length)) := by
    simp only [readTagAttributeProperty, pyIndex_drop hb', pym_bind_ok, hq1,
      hq2, Bool.or_self, Bool.and_false, Bool.false_eq_true, if_false, hscan]
    rw [if_pos (by rw [hkc]; simp)]
    rfl
  have hslice : slice cs b (b + k.length) = k :=
    @slice_drop cs b k ('=' :: '"' :: (v ++ '"' :: rest)) hb
  have hname : pyLower (pyStrip (pyUnwrap (slice cs b (b + k.length)))) = k := by
    rw [hslice, hkc, pyUnwrap_nonquote hq1 hq2, ← hkc,
      pyStrip_id (fun c hcm => lowAlpha_not_space (hkmem c hcm)),
      pyLower_id hka]
  have h2 : cs.drop (b + k.length) = '=' :: '"' :: (v ++ '"' :: rest) :=
    drop_region hb
  have hws2 : readWhitespace cs (b + k.length) = b + k.length := by
    rw [readWhitespace_drop h2, countWs_cons_nonspace (by decide)]
    omega
  have h3 : cs.drop (b + k.length + 1) = '"' :: (v ++ '"' :: rest) :=
    drop_region (s := ['=']) h2
  have h4 : cs.drop (b + k.length + 1 + 1) = v ++ '"' :: rest :=
    drop_region (s := ['"']) h3
  have hqv : quotedScanL '"' (cs.drop (b + k.length + 1 + 1)) =
      some (v.length + 1) := by
    rw [h4]
    exact quotedScanL_run '"' v rest (fun c hcm => by
      have hcn := alnum_cases (List.all_eq_true.mp hv c hcm)
      exact ⟨chBeq_false (show c.toNat ≠ 34 by omega),
             chBeq_false (show c.toNat ≠ 92 by omega)⟩)
  have hvalue : readTagAttributeValue cs strict (b + k.length + 1) =
      .ok (some (b + k.length + v.length + 3)) := by
    simp only [readTagAttributeValue, pyIndex_drop h3, pym_bind_ok]
    rw [if_pos (by decide)]
    have harith : b + k.length + 1 + 1 + (v.length + 1) =
        b + k.length + v.length + 3 := by omega
    simp only [quotedScan, hqv]
    show pure (some (b + k.length + 1 + 1 + (v.length + 1))) =
      Except.ok (some (b + k.length + v.length + 3))
    rw [harith]
    rfl
  have hsl3 : cs.drop (b + k.length + 1) = ('"' :: v ++ ['"']) ++ rest := by
    rw [h3]
    simp
  have hslice2 : slice cs (b + k.length + 1) (b + k.length + v.length + 3) =
      '"' :: v ++ ['"'] := by
    have h5 := @slice_drop cs (b + k.length + 1) ('"' :: v ++ ['"']) rest hsl3
    have hlen : b + k.length + 1 + ('"' :: v ++ ['"']).length =
        b + k.length + v.length + 3 := by simp; omega
    rw [hlen] at h5
    exact h5
  have hval : pyUnwrap (slice cs (b + k.length + 1)
      (b + k.length + v.length + 3)) = v := by
    rw [hslice2]
    exact pyUnwrap_quoted '"' v (Or.inl rfl)
  simp only [readTagAttribute, hws, hprop, pym_bind_ok, hname, hws2,
    pyIndex_drop h2, hvalue, hval, hfresh, Bool.and_false, Bool.false_eq_true,
    if_false, dictSet_fresh v hfresh]
  rw [if_pos (by decide : (('=' : Char) == '=') = true)]
  rfl

/-! ### The attribute loop -/

theorem distinctKeys_fresh : ∀ (l1 : List (Str × Str)) (kv : Str × Str)
    (l2 : List (Str × Str)), distinctKeys (l1 ++ kv :: l2) = true →
    dictContains l1 kv.1 = false
  | [], _, _, _ => rfl
  | e :: l1', kv, l2, h => by
    simp only [List.cons_append, distinctKeys, Bool.and_eq_true,
      Bool.not_eq_true'] at h
    have h1 : dictContains (l1' ++ kv :: l2) e.1 = false := h.1
    have hkv : (kv.1 == e.1) = false := by
      simp only [dictContains, List.any_append, List.any_cons,
        Bool.or_eq_false_iff] at h1
      exact h1.2.1
    have hne : (e.1 == kv.1) = false := by
      rw [beq_eq_false_iff_ne] at hkv ⊢
      exact fun he => hkv he.symm
    simp only [dictContains, List.any_cons, hne, Bool.false_or]
    exact distinctKeys_fresh l1' kv l2 h.2

theorem attrsBasic_cons (k v : Str) (l : List (Str × Str)) :
    attrsBasic ((k, v) :: l) =
      (' ' :: (k ++ ('=' :: '"' :: (v ++ ['"'])))) ++ attrsBasic l := by
  simp [attrsBasic, List.append_assoc]

theorem attrsBasic_cons_length (k v : Str) (l : List (Str × Str)) :
    (attrsBasic ((k, v) :: l)).length =
      k.length + v.length + 4 + (attrsBasic l).length := by
  rw [attrsBasic_cons]
  simp
  omega

/-- A failing `_readTagAttribute` read at a `/` or `>` stop character. -/
theorem readTagAttribute_stop {cs : Str} {q : Nat} {c : Char} {t : Str}
    (strict : Bool) (acc : List (Str × Str))
    (hq : cs.drop q = c :: t) (hc : c = '/' ∨ c = '>') :
    readTagAttribute cs strict q acc = .ok none := by
  have hcs : pyIsSpace c = false := by rcases hc with h | h <;> subst h <;> decide
  have hws : readWhitespace cs q = q := by
    rw [readWhitespace_drop hq, countWs_cons_nonspace hcs]
    omega
  have hq1 : (c == '"') = false := by rcases hc with h | h <;> subst h <;> decide
  have hq2 : (c == '\'') = false := by rcases hc with h | h <;> subst h <;> decide
  have hstop : (pyIsSpace c || c == '=' || c == '/' || c == '>') = true := by
    rcases hc with h | h <;> subst h <;> decide
  have hscan : propScanL strict (cs.drop q) = some 0 := by
    rw [hq]
    simp [propScanL, hstop]
  have hprop : readTagAttributeProperty cs strict q = .ok none := by
    simp only [readTagAttributeProperty, pyIndex_drop hq, pym_bind_ok, hq1,
      hq2, Bool.or_self, Bool.and_false, Bool.false_eq_true, if_false, hscan]
    rw [if_neg (by omega)]
    rfl
  simp only [readTagAttribute, hws, hprop, pym_bind_ok]
  rfl

/-- Symbolic run of the attribute loop of `_readTag` over a rendered,
well-formed attribute region followed by a tag terminator. -/
theorem attrLoop_run (cs : Str) (strict : Bool) :
    ∀ (as acc : List (Str × Str)) (b fuel : Nat) (stop srest : Str),
    as.length + 1 ≤ fuel →
    (∀ kv ∈ as, kv.1 ≠ [] ∧ kv.1.all isLowerAlpha = true ∧
      kv.2.all pyIsAlnum = true) →
    distinctKeys (acc ++ as) = true →
    cs.drop b = attrsBasic as ++ stop →
    (stop = '>' :: srest ∨ stop = '/' :: ('>' :: srest) ∨
      stop = ' ' :: ('/' :: ('>' :: srest))) →
    attrLoop cs strict fuel (readWhitespace cs b) acc =
      .ok (b + (attrsBasic as).length + countWs stop, acc ++ as)
  | [], acc, b, fuel, stop, srest, hfuel, _, _, hb, hsh => by
    cases fuel with
    | zero => omega
    | succ fuel' =>
      have hb0 : cs.drop b = stop := by simpa [attrsBasic] using hb
      have hdq : cs.drop (b + countWs stop) = stop.drop (countWs stop) := by
        rw [drop_add, hb0]
      rw [readWhitespace_drop hb0]
      rcases hsh with h | h | h <;> subst h
      · have hcw : countWs ('>' :: srest) = 0 :=
          countWs_cons_nonspace (by decide) _
        rw [hcw] at hdq ⊢
        simp only [attrLoop,
          readTagAttribute_stop strict acc hdq (Or.inr rfl), pym_bind_ok]
        simp [pym_pure, attrsBasic]
      · have hcw : countWs ('/' :: ('>' :: srest)) = 0 :=
          countWs_cons_nonspace (by decide) _
        rw [hcw] at hdq ⊢
        simp only [attrLoop,
          readTagAttribute_stop strict acc hdq (Or.inl rfl), pym_bind_ok]
        simp [pym_pure, attrsBasic]
      · have hcw : countWs (' ' :: ('/' :: ('>' :: srest))) = 1 := by
          rw [countWs_cons_space (by decide), countWs_cons_nonspace (by decide)]
        rw [hcw] at hdq ⊢
        simp only [List.drop_succ_cons, List.drop_zero] at hdq
        simp only [attrLoop,
          readTagAttribute_stop strict acc hdq (Or.inl rfl), pym_bind_ok]
        simp [pym_pure, attrsBasic]
  | (k, v) :: as', acc, b, fuel, stop, srest, hfuel, hwf, hdk, hb, hsh => by
    cases fuel with
    | zero => simp at hfuel
    | succ fuel' =>
      obtain ⟨hk, hka, hv⟩ := hwf (k, v) (by simp)
      obtain ⟨kc, k', hkc⟩ : ∃ kc k', k = kc :: k' := by
        cases k with
        | nil => exact absurd rfl hk
        | cons a l => exact ⟨a, l, rfl⟩
      have hk1 : isLowerAlpha kc = true :=
        List.all_eq_true.mp hka kc (by rw [hkc]; simp)
      have hbl : cs.drop b =
          ' ' :: (k ++ ('=' :: '"' :: (v ++ '"' :: (attrsBasic as' ++ stop)))) := by
        rw [hb, attrsBasic_cons]
        simp [List.append_assoc]
      have hws1 : readWhitespace cs b = b + 1 := by
        rw [readWhitespace_drop hbl, countWs_cons_space (by decide), hkc]
        simp only [List.cons_append]
        rw [countWs_cons_nonspace (lowAlpha_not_space hk1)]
      have hb1 : cs.drop (b + 1) =
          k ++ ('=' :: '"' :: (v ++ '"' :: (attrsBasic as' ++ stop))) :=
        drop_region (s := [' ']) hbl
      have hfresh : dictContains acc k = false :=
        distinctKeys_fresh acc (k, v) as' hdk
      have hread := readTagAttribute_run strict acc hk hka hv hb1 hfresh
      rw [hws1]
      simp only [attrLoop, hread, pym_bind_ok]
      have hb2 : cs.drop (b + 1) =
          (k ++ ('=' :: '"' :: (v ++ ['"']))) ++ (attrsBasic as' ++ stop) := by
        rw [hb1]
        simp [List.append_assoc]
      have hreg0 := drop_region hb2
      have hidx : b + 1 + (k ++ ('=' :: '"' :: (v ++ ['"']))).length =
          b + 1 + k.length + v.length + 3 := by
        simp
        omega
      rw [hidx] at hreg0
      have hdk' : distinctKeys ((acc ++ [(k, v)]) ++ as') = true := by
        rw [List.append_assoc, List.singleton_append]
        exact hdk
      have ihres := attrLoop_run cs strict as' (acc ++ [(k, v)])
        (b + 1 + k.length + v.length + 3) fuel' stop srest
        (by simp at hfuel ⊢; omega)
        (fun kv h => hwf kv (by simp [h])) hdk' hreg0 hsh
      rw [ihres]
      have e1 : b + 1 + k.length + v.length + 3 + (attrsBasic as').length +
          countWs stop =
          b + (attrsBasic ((k, v) :: as')).length + countWs stop := by
        rw [attrsBasic_cons_length]
        omega
      have e2 : (acc ++ [(k, v)]) ++ as' = acc ++ ((k, v) :: as') := by
        rw [List.append_assoc, List.singleton_append]
      rw [e1, e2]

/-! ### Symbolic runs of the tag reader -/

theorem readTagNameDoctype_none {cs : Str} {pos : Nat} {c : Char} {t : Str}
    (strict : Bool) (hb : cs.drop pos = c :: t) (hc : isLowerAlpha c = true) :
    readTagNameDoctype cs strict pos = none := by
  have hcne : c ≠ '!' := by
    have hb33 := lowAlpha_bounds hc
    intro he
    rw [he] at hb33
    have h33 : ('!').toNat = 33 := rfl
    omega
  have hs : slice cs pos (pos + 8) = c :: t.take 7 := by
    simp [slice, hb, Nat.add_sub_cancel_left, List.take_cons]
  have h1 : (slice cs pos (pos + 8) == "!DOCTYPE".toList) = false := by
    rw [hs, beq_eq_false_iff_ne]
    intro hcontr
    have h' : c :: t.take 7 = '!' :: ['D', 'O', 'C', 'T', 'Y', 'P', 'E'] :=
      hcontr
    exact hcne (List.cons.injEq .. |>.mp h').1
  have h2 : (pyUpper (slice cs pos (pos + 8)) == "!DOCTYPE".toList) = false := by
    rw [hs]
    simp only [pyUpper, List.map_cons]
    rw [beq_eq_false_iff_ne]
    intro hcontr
    have h' : upperChar c :: (t.take 7).map upperChar =
        '!' :: ['D', 'O', 'C', 'T', 'Y', 'P', 'E'] := hcontr
    exact upperChar_ne_bang hc (List.cons.injEq .. |>.mp h').1
  simp only [readTagNameDoctype]
  split
  · rw [h1, h2]
    simp
  · rfl

theorem readTagName_run {cs : Str} {pos : Nat} {n stopt : Str}
    (strict : Bool) (hn : n ≠ []) (hna : n.all isLowerAlpha = true)
    (hb : cs.drop pos = n ++ stopt)
    (hstop : ∀ c t', stopt = c :: t' →
      (pyIsSpace c || c == '/' || c == '>') = true) :
    readTagName cs strict pos = some (pos + n.length) := by
  obtain ⟨nc, n', hnc⟩ : ∃ nc n', n = nc :: n' := by
    cases n with
    | nil => exact absurd rfl hn
    | cons a l => exact ⟨a, l, rfl⟩
  have hn1 : isLowerAlpha nc = true :=
    List.all_eq_true.mp hna nc (by rw [hnc]; simp)
  have hb' : cs.drop pos = nc :: (n' ++ stopt) := by
    rw [hb, hnc]
    rfl
  have hdoc : readTagNameDoctype cs strict pos = none :=
    readTagNameDoctype_none strict hb' hn1
  have hscan : tagNameScanL strict true (cs.drop pos) = some n.length := by
    rw [hb]
    refine tagNameScanL_run strict n true stopt hna ?_
    cases stopt with
    | nil => trivial
    | cons c t' => exact hstop c t' rfl
  simp only [readTagName, hdoc, hscan]
  rw [if_pos (by rw [hnc]; simp)]

theorem readTag_close_run {cs : Str} {b : Nat} {n rest : Str}
    (strict : Bool) (hn : n ≠ []) (hna : n.all isLowerAlpha = true)
    (hb : cs.drop b = '<' :: '/' :: (n ++ '>' :: rest)) :
    readTag cs strict b =
      .ok (some ⟨'<' :: '/' :: (n ++ ['>']), b, b + n.length + 3, n, [],
        false, true⟩) := by
  obtain ⟨nc, n', hnc⟩ : ∃ nc n', n = nc :: n' := by
    cases n with
    | nil => exact absurd rfl hn
    | cons a l => exact ⟨a, l, rfl⟩
  have hn1 : isLowerAlpha nc = true :=
    List.all_eq_true.mp hna nc (by rw [hnc]; simp)
  have h1 : cs.drop (b + 1) = '/' :: (n ++ '>' :: rest) :=
    drop_region (s := ['<']) hb
  have h2 : cs.drop (b + 1 + 1) = n ++ '>' :: rest :=
    drop_region (s := ['/']) h1
  have h2' : cs.drop (b + 1 + 1) = nc :: (n' ++ '>' :: rest) := by
    rw [h2, hnc]
    rfl
  have hws2 : readWhitespace cs (b + 1 + 1) = b + 1 + 1 := by
    rw [readWhitespace_drop h2', countWs_cons_nonspace (lowAlpha_not_space hn1)]
  have hrtn : readTagName cs strict (b + 1 + 1) =
      some (b + 1 + 1 + n.length) :=
    readTagName_run strict hn hna h2
      (by intro c t' hct
          rw [List.cons.injEq] at hct
          rw [← hct.1]
          decide)
  have hslice : slice cs (b + 1 + 1) (b + 1 + 1 + n.length) = n :=
    @slice_drop cs (b + 1 + 1) n ('>' :: rest) h2
  have hname : pyLower (pyUnwrap (slice cs (b + 1 + 1)
      (b + 1 + 1 + n.length))) = n := by
    have hq1 : (nc == '"') = false :=
      chBeq_false (show nc.toNat ≠ 34 by have := lowAlpha_bounds hn1; omega)
    have hq2 : (nc == '\'') = false :=
      chBeq_false (show nc.toNat ≠ 39 by have := lowAlpha_bounds hn1; omega)
    rw [hslice, hnc, pyUnwrap_nonquote hq1 hq2, ← hnc, pyLower_id hna]
  have h3 : cs.drop (b + 1 + 1 + n.length) = '>' :: rest := drop_region h2
  have h3' : cs.drop (b + 1 + 1 + n.length) = attrsBasic [] ++ '>' :: rest := by
    rw [h3]
    rfl
  have hloop := attrLoop_run cs strict [] [] (b + 1 + 1 + n.length)
    (cs.length + 1) ('>' :: rest) rest (by simp)
    (fun kv h => absurd h (List.not_mem_nil kv)) rfl h3' (Or.inl rfl)
  have hcw : countWs ('>' :: rest) = 0 := countWs_cons_nonspace (by decide) _
  rw [hcw] at hloop
  have hloop' : attrLoop cs strict (cs.length + 1)
      (readWhitespace cs (b + 1 + 1 + n.length)) [] =
      .ok (b + 1 + 1 + n.length, []) := by
    rw [hloop]
    simp [attrsBasic]
  have hws3 : readWhitespace cs (b + 1 + 1 + n.length) = b + 1 + 1 + n.length := by
    rw [readWhitespace_drop h3, countWs_cons_nonspace (by decide)]
    omega
  have hsl : slice cs b (b + 1 + 1 + n.length + 1) =
      '<' :: '/' :: (n ++ ['>']) := by
    have hb2 : cs.drop b = ('<' :: '/' :: (n ++ ['>'])) ++ rest := by
      rw [hb]
      simp
    have h5 := slice_drop hb2
    have hlen : b + ('<' :: '/' :: (n ++ ['>'])).length =
        b + 1 + 1 + n.length + 1 := by
      simp
      omega
    rw [hlen] at h5
    exact h5
  have hend : b + 1 + 1 + n.length + 1 = b + n.length + 3 := by omega
  rw [hend] at hsl
  rw [hws3] at hloop'
  have hne1 : (('>' : Char) == '/') = false := by decide
  simp only [readTag, pyIndex_drop hb, pym_bind_ok, pym_pure,
    beq_self_eq_true, Bool.not_true, Bool.false_eq_true, if_false, if_true,
    pyIndex_drop h1, hws2, ite_self, hrtn, hname, hloop', pyIndex_drop h3,
    hws3, hsl, hend, hne1, Bool.not_false, Bool.true_and, Bool.and_true,
    Bool.false_and, List.length_nil, gt_iff_lt, Nat.lt_irrefl,
    decide_eq_true_eq]

theorem attrsBasic_length_ge (as : List (Str × Str)) :
    as.length ≤ (attrsBasic as).length := by
  induction as with
  | nil => simp [attrsBasic]
  | cons kv l ih =>
    obtain ⟨k, v⟩ := kv
    rw [attrsBasic_cons_length]
    simp only [List.length_cons]
    omega

theorem stop_char_cond {as : List (Str × Str)} {X : Str} {c : Char} {t' : Str}
    (hX : ∀ d t'', X = d :: t'' → (pyIsSpace d || d == '/' || d == '>') = true)
    (h : attrsBasic as ++ X = c :: t') :
    (pyIsSpace c || c == '/' || c == '>') = true := by
  cases as with
  | nil => exact hX c t' (by simpa [attrsBasic] using h)
  | cons kv l =>
    obtain ⟨k, v⟩ := kv
    rw [attrsBasic_cons] at h
    have hsp : ' ' = c := (List.cons.injEq .. |>.mp (by simpa using h)).1
    rw [← hsp]
    decide

/-- Symbolic run of `_readTag` over the rendered markup of an open
(optionally self-closing) tag with well-formed name and attributes. -/
theorem readTag_open_run {cs : Str} {b : Nat} {n rest : Str}
    {as : List (Str × Str)} {sc sp : Bool}
    (strict : Bool) (hn : n ≠ []) (hna : n.all isLowerAlpha = true)
    (hwfa : ∀ kv ∈ as, kv.1 ≠ [] ∧ kv.1.all isLowerAlpha = true ∧
      kv.2.all pyIsAlnum = true)
    (hdk : distinctKeys as = true)
    (hb : cs.drop b = renderSeg (.openTag n as sc sp) ++ rest) :
    readTag cs strict b =
      .ok (some ⟨renderSeg (.openTag n as sc sp), b,
        b + (renderSeg (.openTag n as sc sp)).length, n, as, true, sc⟩) := by
  obtain ⟨nc, n', hnc⟩ : ∃ nc n', n = nc :: n' := by
    cases n with
    | nil => exact absurd rfl hn
    | cons a l => exact ⟨a, l, rfl⟩
  have hn1 : isLowerAlpha nc = true :=
    List.all_eq_true.mp hna nc (by rw [hnc]; simp)
  have hc2 : (nc == '/') = false :=
    chBeq_false (show nc.toNat ≠ 47 by have := lowAlpha_bounds hn1; omega)
  have hq1 : (nc == '"') = false :=
    chBeq_false (show nc.toNat ≠ 34 by have := lowAlpha_bounds hn1; omega)
  have hq2 : (nc == '\'') = false :=
    chBeq_false (show nc.toNat ≠ 39 by have := lowAlpha_bounds hn1; omega)
  cases sc with
  | false =>
    have hR : renderSeg (.openTag n as false sp) =
        '<' :: (n ++ (attrsBasic as ++ ['>'])) := by
      simp [renderSeg, List.append_assoc]
    rw [hR] at hb ⊢
    have hb0 : cs.drop b = '<' :: (n ++ (attrsBasic as ++ ('>' :: rest))) := by
      rw [hb]
      simp [List.append_assoc]
    have h1 : cs.drop (b + 1) = n ++ (attrsBasic as ++ ('>' :: rest)) :=
      drop_region (s := ['<']) hb0
    have h1' : cs.drop (b + 1) = nc :: (n' ++ (attrsBasic as ++ ('>' :: rest))) := by
      rw [h1, hnc]
      rfl
    have hws1 : readWhitespace cs (b + 1) = b + 1 := by
      rw [readWhitespace_drop h1', countWs_cons_nonspace (lowAlpha_not_space hn1)]
    have hrtn : readTagName cs strict (b + 1) = some (b + 1 + n.length) :=
      readTagName_run strict hn hna h1 (fun c t' hct =>
        stop_char_cond (fun d t'' hd => by
          rw [List.cons.injEq] at hd
          rw [← hd.1]
          decide) hct)
    have hslice : slice cs (b + 1) (b + 1 + n.length) = n :=
      @slice_drop cs (b + 1) n (attrsBasic as ++ ('>' :: rest)) h1
    have hname : pyLower (pyUnwrap (slice cs (b + 1) (b + 1 + n.length))) = n := by
      rw [hslice, hnc, pyUnwrap_nonquote hq1 hq2, ← hnc, pyLower_id hna]
    have hreg : cs.drop (b + 1 + n.length) = attrsBasic as ++ ('>' :: rest) :=
      drop_region h1
    have hfuel : as.length + 1 ≤ cs.length + 1 := by
      have hg := attrsBasic_length_ge as
      have hd := congrArg List.length hreg
      simp only [List.length_drop, List.length_append, List.length_cons] at hd
      omega
    have hloop := attrLoop_run cs strict as [] (b + 1 + n.length)
      (cs.length + 1) ('>' :: rest) rest hfuel hwfa hdk hreg (Or.inl rfl)
    rw [countWs_cons_nonspace (by decide)] at hloop
    have hloop' : attrLoop cs strict (cs.length + 1)
        (readWhitespace cs (b + 1 + n.length)) [] =
        .ok (b + 1 + n.length + (attrsBasic as).length, as) := by
      rw [hloop]
      simp only [List.nil_append, Nat.add_zero]
    have h5 : cs.drop (b + 1 + n.length + (attrsBasic as).length) =
        '>' :: rest := drop_region hreg
    have hws5 : readWhitespace cs (b + 1 + n.length + (attrsBasic as).length) =
        b + 1 + n.length + (attrsBasic as).length := by
      rw [readWhitespace_drop h5, countWs_cons_nonspace (by decide)]
      omega
    have hne1 : (('>' : Char) == '/') = false := by decide
    have hend : b + 1 + n.length + (attrsBasic as).length + 1 =
        b + ('<' :: (n ++ (attrsBasic as ++ ['>']))).length := by
      simp
      omega
    have hsl : slice cs b (b + ('<' :: (n ++ (attrsBasic as ++ ['>']))).length) =
        '<' :: (n ++ (attrsBasic as ++ ['>'])) := by
      have hb2 : cs.drop b =
          ('<' :: (n ++ (attrsBasic as ++ ['>']))) ++ rest := by
        rw [hb0]
        simp [List.append_assoc]
      exact slice_drop hb2
    simp only [readTag, pyIndex_drop hb0, pym_bind_ok, pym_pure,
      beq_self_eq_true, Bool.not_true, Bool.false_eq_true, if_false, if_true,
      pyIndex_drop h1', hc2, hws1, ite_self, hrtn, hname, hloop',
      pyIndex_drop h5, hws5, hsl, hne1, Bool.not_false, Bool.false_and,
      Bool.true_and, Bool.and_true, Bool.and_false, hend]
  | true =>
    cases sp with
    | false =>
      have hR : renderSeg (.openTag n as true false) =
          '<' :: (n ++ (attrsBasic as ++ ['/', '>'])) := by
        simp [renderSeg, List.append_assoc]
      rw [hR] at hb ⊢
      have hb0 : cs.drop b =
          '<' :: (n ++ (attrsBasic as ++ ('/' :: ('>' :: rest)))) := by
        rw [hb]
        simp [List.append_assoc]
      have h1 : cs.drop (b + 1) =
          n ++ (attrsBasic as ++ ('/' :: ('>' :: rest))) :=
        drop_region (s := ['<']) hb0
      have h1' : cs.drop (b + 1) =
          nc :: (n' ++ (attrsBasic as ++ ('/' :: ('>' :: rest)))) := by
        rw [h1, hnc]
        rfl
      have hws1 : readWhitespace cs (b + 1) = b + 1 := by
        rw [readWhitespace_drop h1',
          countWs_cons_nonspace (lowAlpha_not_space hn1)]
      have hrtn : readTagName cs strict (b + 1) = some (b + 1 + n.length) :=
        readTagName_run strict hn hna h1 (fun c t' hct =>
          stop_char_cond (fun d t'' hd => by
            rw [List.cons.injEq] at hd
            rw [← hd.1]
            decide) hct)
      have hslice : slice cs (b + 1) (b + 1 + n.length) = n :=
        @slice_drop cs (b + 1) n (attrsBasic as ++ ('/' :: ('>' :: rest))) h1
      have hname : pyLower (pyUnwrap (slice cs (b + 1) (b + 1 + n.length))) = n := by
        rw [hslice, hnc, pyUnwrap_nonquote hq1 hq2, ← hnc, pyLower_id hna]
      have hreg : cs.drop (b + 1 + n.length) =
          attrsBasic as ++ ('/' :: ('>' :: rest)) := drop_region h1
      have hfuel : as.length + 1 ≤ cs.length + 1 := by
        have hg := attrsBasic_length_ge as
        have hd := congrArg List.length hreg
        simp only [List.length_drop, List.length_append, List.length_cons] at hd
        omega
      have hloop := attrLoop_run cs strict as [] (b + 1 + n.length)
        (cs.length + 1) ('/' :: ('>' :: rest)) rest hfuel hwfa hdk hreg
        (Or.inr (Or.inl rfl))
      rw [countWs_cons_nonspace (by decide)] at hloop
      have hloop' : attrLoop cs strict (cs.length + 1)
          (readWhitespace cs (b + 1 + n.length)) [] =
          .ok (b + 1 + n.length + (attrsBasic as).length, as) := by
        rw [hloop]
        simp
      have h5 : cs.drop (b + 1 + n.length + (attrsBasic as).length) =
          '/' :: ('>' :: rest) := drop_region hreg
      have h6 : cs.drop (b + 1 + n.length + (attrsBasic as).length + 1) =
          '>' :: rest := drop_region (s := ['/']) h5
      have hws6 : readWhitespace cs
          (b + 1 + n.length + (attrsBasic as).length + 1) =
          b + 1 + n.length + (attrsBasic as).length + 1 := by
        rw [readWhitespace_drop h6, countWs_cons_nonspace (by decide)]
      have hend : b + 1 + n.length + (attrsBasic as).length + 1 + 1 =
          b + ('<' :: (n ++ (attrsBasic as ++ ['/', '>']))).length := by
        simp
        omega
      have hsl : slice cs b
          (b + ('<' :: (n ++ (attrsBasic as ++ ['/', '>']))).length) =
          '<' :: (n ++ (attrsBasic as ++ ['/', '>'])) := by
        have hb2 : cs.drop b =
            ('<' :: (n ++ (attrsBasic as ++ ['/', '>']))) ++ rest := by
          rw [hb0]
          simp [List.append_assoc]
        exact slice_drop hb2
      simp only [readTag, pyIndex_drop hb0, pym_bind_ok, pym_pure,
        beq_self_eq_true, Bool.not_true, Bool.false_eq_true, if_false, if_true,
        pyIndex_drop h1', hc2, hws1, ite_self, hrtn, hname, hloop',
        pyIndex_drop h5, pyIndex_drop h6, hws6, hsl, Bool.not_false,
        Bool.false_and, Bool.true_and, Bool.and_true, Bool.and_false, hend]
    | true =>
      have hR : renderSeg (.openTag n as true true) =
          '<' :: (n ++ (attrsBasic as ++ [' ', '/', '>'])) := by
        simp [renderSeg, List.append_assoc]
      rw [hR] at hb ⊢
      have hb0 : cs.drop b =
          '<' :: (n ++ (attrsBasic as ++ (' ' :: ('/' :: ('>' :: rest))))) := by
        rw [hb]
        simp [List.append_assoc]
      have h1 : cs.drop (b + 1) =
          n ++ (attrsBasic as ++ (' ' :: ('/' :: ('>' :: rest)))) :=
        drop_region (s := ['<']) hb0
      have h1' : cs.drop (b + 1) =
          nc :: (n' ++ (attrsBasic as ++ (' ' :: ('/' :: ('>' :: rest))))) := by
        rw [h1, hnc]
        rfl
      have hws1 : readWhitespace cs (b + 1) = b + 1 := by
        rw [readWhitespace_drop h1',
          countWs_cons_nonspace (lowAlpha_not_space hn1)]
      have hrtn : readTagName cs strict (b + 1) = some (b + 1 + n.length) :=
        readTagName_run strict hn hna h1 (fun c t' hct =>
          stop_char_cond (fun d t'' hd => by
            rw [List.cons.injEq] at hd
            rw [← hd.1]
            decide) hct)
      have hslice : slice cs (b + 1) (b + 1 + n.length) = n :=
        @slice_drop cs (b + 1) n
          (attrsBasic as ++ (' ' :: ('/' :: ('>' :: rest)))) h1
      have hname : pyLower (pyUnwrap (slice cs (b + 1) (b + 1 + n.length))) = n := by
        rw [hslice, hnc, pyUnwrap_nonquote hq1 hq2, ← hnc, pyLower_id hna]
      have hreg : cs.drop (b + 1 + n.length) =
          attrsBasic as ++ (' ' :: ('/' :: ('>' :: rest))) := drop_region h1
      have hfuel : as.length + 1 ≤ cs.length + 1 := by
        have hg := attrsBasic_length_ge as
        have hd := congrArg List.length hreg
        simp only [List.length_drop, List.length_append, List.length_cons] at hd
        omega
      have hloop := attrLoop_run cs strict as [] (b + 1 + n.length)
        (cs.length + 1) (' ' :: ('/' :: ('>' :: rest))) rest hfuel hwfa hdk
        hreg (Or.inr (Or.inr rfl))
      rw [countWs_cons_space (by decide), countWs_cons_nonspace (by decide)]
        at hloop
      have hloop' : attrLoop cs strict (cs.length + 1)
          (readWhitespace cs (b + 1 + n.length)) [] =
          .ok (b + 1 + n.length + (attrsBasic as).length + 1, as) := by
        rw [hloop]
        simp only [List.nil_append, Nat.zero_add]
      have h5 : cs.drop (b + 1 + n.length + (attrsBasic as).length) =
          ' ' :: ('/' :: ('>' :: rest)) := drop_region hreg
      have h5' : cs.drop (b + 1 + n.length + (attrsBasic as).length + 1) =
          '/' :: ('>' :: rest) := drop_region (s := [' ']) h5
      have h6 : cs.drop (b + 1 + n.length + (attrsBasic as).length + 1 + 1) =
          '>' :: rest := drop_region (s := ['/']) h5'
      have hws6 : readWhitespace cs
          (b + 1 + n.length + (attrsBasic as).length + 1 + 1) =
          b + 1 + n.length + (attrsBasic as).length + 1 + 1 := by
        rw [readWhitespace_drop h6, countWs_cons_nonspace (by decide)]
      have hend : b + 1 + n.length + (attrsBasic as).length + 1 + 1 + 1 =
          b + ('<' :: (n ++ (attrsBasic as ++ [' ', '/', '>']))).length := by
        simp
        omega
      have hsl : slice cs b
          (b + ('<' :: (n ++ (attrsBasic as ++ [' ', '/', '>']))).length) =
          '<' :: (n ++ (attrsBasic as ++ [' ', '/', '>'])) := by
        have hb2 : cs.drop b =
            ('<' :: (n ++ (attrsBasic as ++ [' ', '/', '>']))) ++ rest := by
          rw [hb0]
          simp [List.append_assoc]
        exact slice_drop hb2
      simp only [readTag, pyIndex_drop hb0, pym_bind_ok, pym_pure,
        beq_self_eq_true, Bool.not_true, Bool.false_eq_true, if_false, if_true,
        pyIndex_drop h1', hc2, hws1, ite_self, hrtn, hname, hloop',
        pyIndex_drop h5', pyIndex_drop h6, hws6, hsl, Bool.not_false,
        Bool.false_and, Bool.true_and, Bool.and_true, Bool.and_false, hend]

/-! ### Symbolic run of the comment reader -/

theorem readComment_run {cs : Str} {b : Nat} {t rest : Str}
    (ht : ∀ c ∈ t, (c == '-') = false)
    (hb : cs.drop b = renderSeg (.commentSpec t) ++ rest) :
    readComment cs b =
      some (.commentS (renderSeg (.commentSpec t)) b (b + t.length + 9)
        (pyStrip t)) := by
  have hA : "<!-- ".toList = ['<', '!', '-', '-', ' '] := rfl
  have hB : " -->".toList = [' ', '-', '-', '>'] := rfl
  have hb0 : cs.drop b =
      '<' :: ('!' :: ('-' :: ('-' :: (' ' ::
        (t ++ (' ' :: ('-' :: ('-' :: ('>' :: rest))))))))) := by
    rw [hb]
    show "<!-- ".toList ++ t ++ " -->".toList ++ rest = _
    rw [hA, hB]
    simp [List.append_assoc]
  have hs4 : cs.drop b = ['<', '!', '-', '-'] ++
      (' ' :: (t ++ (' ' :: ('-' :: ('-' :: ('>' :: rest)))))) := by
    rw [hb0]
    rfl
  have hsl4 : slice cs b (b + 4) = ['<', '!', '-', '-'] :=
    @slice_drop cs b ['<', '!', '-', '-']
      (' ' :: (t ++ (' ' :: ('-' :: ('-' :: ('>' :: rest)))))) hs4
  have hbeq : ((['<', '!', '-', '-'] : Str) == "<!--".toList) = true := by
    decide
  have hdrop4 : cs.drop (b + 4) =
      (' ' :: (t ++ [' '])) ++ ('-' :: ('-' :: ('>' :: rest))) := by
    have h4 := drop_region (s := ['<', '!', '-', '-']) hs4
    have h4' : cs.drop (b + 4) =
        ' ' :: (t ++ (' ' :: ('-' :: ('-' :: ('>' :: rest))))) := h4
    rw [h4']
    simp [List.append_assoc]
  have hu : ∀ c ∈ ' ' :: (t ++ [' ']), (c == '-') = false := by
    intro c hc
    rcases List.mem_cons.mp hc with h | h
    · subst h
      decide
    · rcases List.mem_append.mp h with h2 | h2
      · exact ht c h2
      · simp at h2
        subst h2
        decide
  have hfi := findIdx_dashes (' ' :: (t ++ [' '])) rest hu
  have hfind : pyFind cs "-->".toList (b + 4) =
      some (b + 4 + (t.length + 2)) := by
    simp only [pyFind, hdrop4, hfi]
    simp
  have hslR : slice cs b (b + t.length + 9) =
      renderSeg (.commentSpec t) := by
    have h9 := slice_drop hb
    have hL : (renderSeg (.commentSpec t)).length = t.length + 9 := by
      show ("<!-- ".toList ++ t ++ " -->".toList).length = t.length + 9
      rw [hA, hB]
      simp
    rw [hL] at h9
    have he : b + (t.length + 9) = b + t.length + 9 := by omega
    rw [he] at h9
    exact h9
  have hslI : slice cs (b + 4) (b + 4 + (t.length + 2)) =
      ' ' :: (t ++ [' ']) := by
    have h10 := slice_drop hdrop4
    have he : b + 4 + (' ' :: (t ++ [' '])).length = b + 4 + (t.length + 2) := by
      simp
    rw [he] at h10
    exact h10
  have hstrip : pyStrip (' ' :: (t ++ [' '])) = pyStrip t := by
    rw [pyStrip_cons_space (by decide), pyStrip_append_space (by decide)]
  have hE : b + 4 + (t.length + 2) + 3 = b + t.length + 9 := by omega
  simp only [readComment, hsl4, hbeq, if_true, hfind, hslR, hslI, hstrip, hE]

/-! ### Symbolic runs of the text reader -/

theorem charPositions_hit {u rtail : Str}
    (hu : ∀ c ∈ u, (c == '<') = false) :
    charPositions '<' (u ++ ('<' :: rtail)) =
      u.length :: ((charPositions '<' rtail).map (· + 1)).map (· + u.length) := by
  rw [charPositions_append_nomem '<' u ('<' :: rtail) hu,
    charPositions_cons_self]
  simp

/-- A text run terminated by a parseable comment or tag at the first `<`. -/
theorem readText_run_hit {cs : Str} {pos : Nat} {u rtail : Str}
    (strict : Bool) (cseg : Segment)
    (hu : ∀ c ∈ u, (c == '<') = false)
    (hb : cs.drop pos = u ++ ('<' :: rtail))
    (hcase : readComment cs (pos + u.length) = some cseg ∨
      (readComment cs (pos + u.length) = none ∧
       ∃ e, readTag cs strict (pos + u.length) = .ok (some e) ∧
         cseg = .elem e)) :
    readText cs strict pos =
      .ok (some (mkTextSeg cs pos (pos + u.length), some cseg)) := by
  have hcp : (charPositions '<' (cs.drop pos)).map (pos + ·) =
      (pos + u.length) ::
        (((charPositions '<' rtail).map (· + 1)).map (· + u.length)).map
          (pos + ·) := by
    rw [hb, charPositions_hit hu]
    rfl
  rcases hcase with hcm | ⟨hcm, e, htag, hce⟩
  · simp only [readText, hcp, textLoop, hcm]
    rfl
  · simp only [readText, hcp, textLoop, hcm, htag, pym_bind_ok, hce]
    rfl

/-- A lenient trailing text run with no `<` before the end of the buffer. -/
theorem readText_run_tail {cs : Str} {pos : Nat} {u : Str}
    (hu : ∀ c ∈ u, (c == '<') = false)
    (hb : cs.drop pos = u) :
    readText cs false pos = .ok (some (mkTextSeg cs pos cs.length, none)) := by
  have hcp : charPositions '<' (cs.drop pos) = [] := by
    rw [hb]
    have h0 := charPositions_append_nomem '<' u [] hu
    simpa using h0
  simp only [readText, hcp, List.map_nil, textLoop, Bool.not_false, if_true]
  rfl

/-! ### Stream facts -/

theorem wfStream_head {m : Bool} {x : SegSpec} {l : List SegSpec}
    (h : wfStream m (x :: l) = true) : wfSpec x = true := by
  cases l with
  | nil => simp only [wfStream, Bool.and_eq_true] at h; exact h.1
  | cons y r => simp only [wfStream, Bool.and_eq_true] at h; exact h.1.1

theorem wfStream_tail {m : Bool} {x : SegSpec} {l : List SegSpec}
    (h : wfStream m (x :: l) = true) : wfStream m l = true := by
  cases l with
  | nil => rfl
  | cons y r => simp only [wfStream, Bool.and_eq_true] at h; exact h.2

theorem wfSpecs_stream (m : Bool) :
    ∀ {l : List SegSpec}, wfSpecs l = true → wfStream m l = true
  | [], _ => rfl
  | [x], h => by
    simp only [wfSpecs, Bool.and_eq_true] at h
    simp only [wfStream, Bool.and_eq_true]
    refine ⟨h.1, ?_⟩
    cases x with
    | textSpec s => exact absurd h.2 (by simp)
    | openTag n as sc sl => simp [isTextSpec]
    | closeTag n => simp [isTextSpec]
    | commentSpec c => simp [isTextSpec]
  | x :: y :: r, h => by
    simp only [wfSpecs, Bool.and_eq_true] at h
    simp only [wfStream, Bool.and_eq_true]
    exact ⟨h.1, wfSpecs_stream m h.2⟩

theorem contains_false_not_mem {α : Type} [BEq α] [LawfulBEq α]
    {l : List α} {a : α} (h : l.contains a = false) : a ∉ l := by
  intro hm
  have h2 : l.elem a = true := List.elem_iff.mpr hm
  rw [show l.contains a = l.elem a from rfl, h2] at h
  exact Bool.noConfusion h

theorem renderSpecs_cons (sp : SegSpec) (r : List SegSpec) :
    renderSpecs (sp :: r) = renderSeg sp ++ renderSpecs r := by
  simp [renderSpecs]

theorem expSeg_endP (b : Nat) (sp : SegSpec) :
    (expSeg b sp).endP = b + (renderSeg sp).length := by
  cases sp with
  | openTag n as sc sl => rfl
  | closeTag n => simp [expSeg, Segment.endP, renderSeg]; omega
  | textSpec s => rfl
  | commentSpec s => simp [expSeg, Segment.endP, renderSeg]; omega

theorem ctxSwitch_expSeg {b : Nat} {sp : SegSpec} (h : wfSpec sp = true) :
    ctxSwitch (some (expSeg b sp)) = none := by
  cases sp with
  | openTag n as sc sl =>
    simp only [wfSpec, Bool.and_eq_true] at h
    have hn := h.1
    simp only [wfName, Bool.and_eq_true, Bool.not_eq_true'] at hn
    cases sc with
    | true => simp [expSeg, ctxSwitch]
    | false =>
      have hnm : n ∉ contextSwitchTags := contains_false_not_mem hn.2
      simp [expSeg, ctxSwitch, hnm]
  | closeTag n => simp [expSeg, ctxSwitch]
  | textSpec s => simp [expSeg, ctxSwitch]
  | commentSpec s => simp [expSeg, ctxSwitch]

theorem wfName_parts {n : Str} (h : wfName n = true) :
    n ≠ [] ∧ n.all isLowerAlpha = true ∧
      contextSwitchTags.contains n = false := by
  simp only [wfName, Bool.and_eq_true, Bool.not_eq_true'] at h
  refine ⟨?_, h.1.2, h.2⟩
  intro he
  rw [he] at h
  simp at h

theorem wfAttrs_parts {as : List (Str × Str)} (h : wfAttrs as = true) :
    (∀ kv ∈ as, kv.1 ≠ [] ∧ kv.1.all isLowerAlpha = true ∧
      kv.2.all pyIsAlnum = true) ∧ distinctKeys as = true := by
  simp only [wfAttrs, Bool.and_eq_true] at h
  refine ⟨?_, h.2⟩
  intro kv hkv
  have hk := List.all_eq_true.mp h.1 kv hkv
  simp only [Bool.and_eq_true, Bool.not_eq_true'] at hk
  refine ⟨?_, hk.1.2, hk.2⟩
  intro he
  rw [he] at hk
  simp at hk

theorem strip_nonempty_dropWhile {s : Str}
    (h : (pyStrip s).isEmpty = false) : s.dropWhile pyIsSpace ≠ [] := by
  intro hd
  rw [pyStrip, hd] at h
  simp at h

theorem wfText_parts {s : Str} (h : wfSpec (.textSpec s) = true) :
    (∀ c ∈ s, (c == '<') = false) ∧ s.dropWhile pyIsSpace ≠ [] := by
  simp only [wfSpec, Bool.and_eq_true, Bool.not_eq_true'] at h
  constructor
  · intro c hc
    rw [beq_eq_false_iff_ne]
    intro he
    have hm : '<' ∈ s := he ▸ hc
    exact contains_false_not_mem h.1 hm
  · exact strip_nonempty_dropWhile h.2

theorem renderSeg_nontext_head {sp : SegSpec} (h : isTextSpec sp = false) :
    ∃ u, renderSeg sp = '<' :: u := by
  cases sp with
  | openTag n as sc sl => exact ⟨_, rfl⟩
  | closeTag n => exact ⟨_, rfl⟩
  | textSpec s => simp [isTextSpec] at h
  | commentSpec s => exact ⟨_, rfl⟩

/-! ### One `next` step over a rendered stream -/

theorem dropWhile_head_false {p : Char → Bool} :
    ∀ {s : Str} {c : Char} {t : Str}, s.dropWhile p = c :: t → p c = false
  | [], c, t, h => by simp at h
  | a :: s', c, t, h => by
    by_cases ha : p a
    · rw [List.dropWhile_cons, if_pos ha] at h
      exact dropWhile_head_false h
    · rw [List.dropWhile_cons, if_neg ha] at h
      rw [(List.cons.injEq .. |>.mp h).1] at ha
      exact Bool.eq_false_iff.mpr ha

theorem dropWhile_mem {p : Char → Bool} {s : Str} {c : Char}
    (h : c ∈ s.dropWhile p) : c ∈ s :=
  List.Sublist.subset (List.dropWhile_sublist _) h

theorem nextSeg_open {cs : Str} {strict : Bool} {b : Nat}
    {segCur : Option Segment} {n : Str} {as : List (Str × Str)} {sc sl : Bool}
    {r : List SegSpec}
    (hcur : ctxSwitch segCur = none)
    (hwf : wfSpec (.openTag n as sc sl) = true)
    (hb : cs.drop b = renderSpecs (.openTag n as sc sl :: r)) :
    nextSeg ⟨cs, strict, b, segCur, none⟩ =
      .ok (some (expSeg b (.openTag n as sc sl)),
        ⟨cs, strict, b + (renderSeg (.openTag n as sc sl)).length,
          some (expSeg b (.openTag n as sc sl)), none⟩) := by
  have hwf' := hwf
  simp only [wfSpec, Bool.and_eq_true] at hwf'
  obtain ⟨hn, hna, hctx⟩ := wfName_parts hwf'.1
  obtain ⟨hwfa, hdk⟩ := wfAttrs_parts hwf'.2
  obtain ⟨nc, n', hnc⟩ : ∃ nc n', n = nc :: n' := by
    cases n with
    | nil => exact absurd rfl hn
    | cons a l => exact ⟨a, l, rfl⟩
  have hn1 : isLowerAlpha nc = true :=
    List.all_eq_true.mp hna nc (by rw [hnc]; simp)
  have hb' : cs.drop b = renderSeg (.openTag n as sc sl) ++ renderSpecs r := by
    rw [hb, renderSpecs_cons]
  have hb2 : cs.drop b = '<' :: (nc :: ((((n' ++ attrsBasic as) ++
      (if sc then (if sl then [' ', '/'] else ['/']) else [])) ++ ['>']) ++
      renderSpecs r)) := by
    rw [hnc] at hb'
    exact hb'
  have hws : readWhitespace cs b = b := by
    rw [readWhitespace_drop hb2, countWs_cons_nonspace (by decide)]
    omega
  have hlt : b < cs.length := drop_lt_length hb2
  have hne : (b == cs.length) = false :=
    beq_eq_false_iff_ne.mpr (Nat.ne_of_lt hlt)
  have hcm : readComment cs b = none :=
    readComment_none_second hb2
      (chBeq_false (show nc.toNat ≠ 33 by have := lowAlpha_bounds hn1; omega))
  have htag := @readTag_open_run cs b n (renderSpecs r) as sc sl strict
    hn hna hwfa hdk hb'
  simp only [nextSeg, hws, hne, Bool.false_eq_true, if_false, hcur, hcm,
    htag, pym_bind_ok, pym_pure]
  rfl

theorem nextSeg_close {cs : Str} {strict : Bool} {b : Nat}
    {segCur : Option Segment} {n : Str} {r : List SegSpec}
    (hcur : ctxSwitch segCur = none)
    (hwf : wfSpec (.closeTag n) = true)
    (hb : cs.drop b = renderSpecs (.closeTag n :: r)) :
    nextSeg ⟨cs, strict, b, segCur, none⟩ =
      .ok (some (expSeg b (.closeTag n)),
        ⟨cs, strict, b + (renderSeg (.closeTag n)).length,
          some (expSeg b (.closeTag n)), none⟩) := by
  obtain ⟨hn, hna, hctx⟩ := wfName_parts (show wfName n = true from hwf)
  have hb' : cs.drop b = renderSeg (.closeTag n) ++ renderSpecs r := by
    rw [hb, renderSpecs_cons]
  have hb2 : cs.drop b = '<' :: ('/' :: (n ++ ('>' :: renderSpecs r))) := by
    rw [hb']
    show ('<' :: '/' :: n ++ ['>']) ++ renderSpecs r = _
    simp [List.append_assoc]
  have hws : readWhitespace cs b = b := by
    rw [readWhitespace_drop hb2, countWs_cons_nonspace (by decide)]
    omega
  have hlt : b < cs.length := drop_lt_length hb2
  have hne : (b == cs.length) = false :=
    beq_eq_false_iff_ne.mpr (Nat.ne_of_lt hlt)
  have hcm : readComment cs b = none :=
    readComment_none_second hb2 (by decide)
  have htag := readTag_close_run strict hn hna hb2
  have hlen : b + n.length + 3 = b + (renderSeg (.closeTag n)).length := by
    simp [renderSeg]
    omega
  have hfin : Segment.elem ⟨'<' :: '/' :: (n ++ ['>']), b,
      b + (renderSeg (.closeTag n)).length, n, [], false, true⟩ =
      expSeg b (.closeTag n) := by
    simp only [expSeg, Segment.elem.injEq, ElemSeg.mk.injEq,
      eq_self_iff_true, true_and, and_true]
    constructor
    · simp [renderSeg]
    · omega
  rw [hlen] at htag
  simp only [nextSeg, hws, hne, Bool.false_eq_true, if_false, hcur, hcm,
    htag, pym_bind_ok, pym_pure, hfin, expSeg_endP]

theorem nextSeg_comment {cs : Str} {strict : Bool} {b : Nat}
    {segCur : Option Segment} {t : Str} {r : List SegSpec}
    (hcur : ctxSwitch segCur = none)
    (hwf : wfSpec (.commentSpec t) = true)
    (hb : cs.drop b = renderSpecs (.commentSpec t :: r)) :
    nextSeg ⟨cs, strict, b, segCur, none⟩ =
      .ok (some (expSeg b (.commentSpec t)),
        ⟨cs, strict, b + (renderSeg (.commentSpec t)).length,
          some (expSeg b (.commentSpec t)), none⟩) := by
  have ht : ∀ c ∈ t, (c == '-') = false := by
    intro c hc
    rw [beq_eq_false_iff_ne]
    intro he
    exact contains_false_not_mem
      (show t.contains '-' = false by
        simpa [wfSpec, Bool.not_eq_true'] using hwf) (he ▸ hc)
  have hb' : cs.drop b = renderSeg (.commentSpec t) ++ renderSpecs r := by
    rw [hb, renderSpecs_cons]
  have hb2 : cs.drop b = '<' :: ('!' :: ('-' :: ('-' :: (' ' ::
      (t ++ (" -->".toList ++ renderSpecs r)))))) := by
    rw [hb']
    show ("<!-- ".toList ++ t ++ " -->".toList) ++ renderSpecs r = _
    rw [show "<!-- ".toList = ['<', '!', '-', '-', ' '] from rfl]
    simp [List.append_assoc]
  have hws : readWhitespace cs b = b := by
    rw [readWhitespace_drop hb2, countWs_cons_nonspace (by decide)]
    omega
  have hlt : b < cs.length := drop_lt_length hb2
  have hne : (b == cs.length) = false :=
    beq_eq_false_iff_ne.mpr (Nat.ne_of_lt hlt)
  have hcm := readComment_run ht hb'
  have hlen : b + t.length + 9 = b + (renderSeg (.commentSpec t)).length := by
    show _ = b + ("<!-- ".toList ++ t ++ " -->".toList).length
    simp
    omega
  have hfin : Segment.commentS (renderSeg (.commentSpec t)) b
      (b + (renderSeg (.commentSpec t)).length) (pyStrip t) =
      expSeg b (.commentSpec t) := by
    simp only [expSeg, Segment.commentS.injEq, eq_self_iff_true, true_and,
      and_true]
    omega
  rw [hlen] at hcm
  simp only [nextSeg, hws, hne, Bool.false_eq_true, if_false, hcur, hcm,
    pym_bind_ok, pym_pure, hfin, expSeg_endP]

theorem nextSeg_cached {cs : Str} {strict : Bool} {b : Nat}
    {segCur : Option Segment} {sp : SegSpec} {r : List SegSpec}
    (hsp : isTextSpec sp = false)
    (hb : cs.drop b = renderSpecs (sp :: r)) :
    nextSeg ⟨cs, strict, b, segCur, some (expSeg b sp)⟩ =
      .ok (some (expSeg b sp),
        ⟨cs, strict, b + (renderSeg sp).length, some (expSeg b sp),
          none⟩) := by
  obtain ⟨u, hu⟩ := renderSeg_nontext_head hsp
  have hb2 : cs.drop b = '<' :: (u ++ renderSpecs r) := by
    rw [hb, renderSpecs_cons, hu]
    rfl
  have hws : readWhitespace cs b = b := by
    rw [readWhitespace_drop hb2, countWs_cons_nonspace (by decide)]
    omega
  have hlt : b < cs.length := drop_lt_length hb2
  have hne : (b == cs.length) = false :=
    beq_eq_false_iff_ne.mpr (Nat.ne_of_lt hlt)
  simp only [nextSeg, hws, hne, Bool.false_eq_true, if_false, pym_bind_ok,
    pym_pure, expSeg_endP]

theorem nextSeg_text_tail {cs : Str} {b : Nat} {segCur : Option Segment}
    {s : Str}
    (hcur : ctxSwitch segCur = none)
    (hwf : wfSpec (.textSpec s) = true)
    (hb : cs.drop b = renderSpecs [SegSpec.textSpec s])
    (hble : b ≤ cs.length) :
    nextSeg ⟨cs, false, b, segCur, none⟩ =
      .ok (some (expSeg b (.textSpec s)),
        ⟨cs, false, b + s.length, some (expSeg b (.textSpec s)), none⟩) := by
  obtain ⟨hnl, hsd⟩ := wfText_parts hwf
  have hbs : cs.drop b = s := by
    rw [hb]
    simp [renderSpecs, renderSeg]
  have hlen : cs.length = b + s.length := by
    have h1 := congrArg List.length hbs
    rw [List.length_drop] at h1
    omega
  obtain ⟨sh, stl, hsplit⟩ : ∃ sh stl, s.dropWhile pyIsSpace = sh :: stl := by
    cases hdw : s.dropWhile pyIsSpace with
    | nil => exact absurd hdw hsd
    | cons a l => exact ⟨a, l, rfl⟩
  have hws : readWhitespace cs b = b + countWs s := readWhitespace_drop hbs
  have hdpos : cs.drop (b + countWs s) = s.dropWhile pyIsSpace := by
    rw [drop_add, hbs, drop_countWs]
  have hdpos' : cs.drop (b + countWs s) = sh :: stl := by
    rw [hdpos, hsplit]
  have hlt : b + countWs s < cs.length := drop_lt_length hdpos'
  have hne : (b + countWs s == cs.length) = false :=
    beq_eq_false_iff_ne.mpr (Nat.ne_of_lt hlt)
  have hshmem : sh ∈ s := dropWhile_mem (by rw [hsplit]; simp)
  have hshlt : (sh == '<') = false := hnl sh hshmem
  have hcm : readComment cs (b + countWs s) = none :=
    readComment_none_head hdpos' hshlt
  have htag : readTag cs false (b + countWs s) = .ok none :=
    readTag_none_head hdpos' hshlt false
  have hrt : readText cs false (b + countWs s) =
      .ok (some (mkTextSeg cs (b + countWs s) cs.length, none)) :=
    readText_run_tail (fun c hc => hnl c (dropWhile_mem hc)) hdpos
  have hmk : mkTextSeg cs (b + countWs s) cs.length =
      expSeg b (.textSpec s) := by
    simp only [mkTextSeg, expSeg]
    have hdwl : (s.dropWhile pyIsSpace).length = s.length - countWs s := by
      rw [← drop_countWs, List.length_drop]
    have hsl : slice cs (b + countWs s) cs.length = s.dropWhile pyIsSpace := by
      simp only [slice]
      rw [hdpos]
      rw [show cs.length - (b + countWs s) = (s.dropWhile pyIsSpace).length by
        omega]
      exact List.take_of_length_le (le_refl _)
    rw [hsl, pyStrip_dropWhile, hlen]
  simp only [nextSeg, hws, hne, Bool.false_eq_true, if_false, hcur, hcm,
    htag, hrt, pym_bind_ok, pym_pure, hmk]
  rfl

theorem nextSeg_text_hit {cs : Str} {strict : Bool} {b : Nat}
    {segCur : Option Segment} {s : Str} {sp2 : SegSpec} {r2 : List SegSpec}
    (hcur : ctxSwitch segCur = none)
    (hwf : wfSpec (.textSpec s) = true)
    (hsp2 : isTextSpec sp2 = false)
    (hwf2 : wfSpec sp2 = true)
    (hb : cs.drop b = renderSpecs (.textSpec s :: (sp2 :: r2))) :
    nextSeg ⟨cs, strict, b, segCur, none⟩ =
      .ok (some (expSeg b (.textSpec s)),
        ⟨cs, strict, b + s.length, some (expSeg b (.textSpec s)),
          some (expSeg (b + s.length) sp2)⟩) := by
  obtain ⟨hnl, hsd⟩ := wfText_parts hwf
  obtain ⟨u2, hu2⟩ := renderSeg_nontext_head hsp2
  have hbs : cs.drop b = s ++ (renderSeg sp2 ++ renderSpecs r2) := by
    rw [hb, renderSpecs_cons, renderSpecs_cons]
    rfl
  obtain ⟨sh, stl, hsplit⟩ : ∃ sh stl, s.dropWhile pyIsSpace = sh :: stl := by
    cases hdw : s.dropWhile pyIsSpace with
    | nil => exact absurd hdw hsd
    | cons a l => exact ⟨a, l, rfl⟩
  have hws : readWhitespace cs b = b + countWs s := by
    rw [readWhitespace_drop hbs, countWs_append_left hsd]
  have hcwle : countWs s ≤ s.length := le_of_lt (countWs_lt_of_strip hsd)
  have hdpos : cs.drop (b + countWs s) =
      s.dropWhile pyIsSpace ++ (renderSeg sp2 ++ renderSpecs r2) := by
    rw [drop_add, hbs, List.drop_append_of_le_length hcwle, drop_countWs]
  have hdwl : (s.dropWhile pyIsSpace).length = s.length - countWs s := by
    rw [← drop_countWs, List.length_drop]
  have hidx : b + countWs s + (s.dropWhile pyIsSpace).length = b + s.length := by
    omega
  have hdpos' : cs.drop (b + countWs s) =
      sh :: (stl ++ (renderSeg sp2 ++ renderSpecs r2)) := by
    rw [hdpos, hsplit]
    rfl
  have hlt : b + countWs s < cs.length := drop_lt_length hdpos'
  have hne : (b + countWs s == cs.length) = false :=
    beq_eq_false_iff_ne.mpr (Nat.ne_of_lt hlt)
  have hshmem : sh ∈ s := dropWhile_mem (by rw [hsplit]; simp)
  have hshlt : (sh == '<') = false := hnl sh hshmem
  have hcm : readComment cs (b + countWs s) = none :=
    readComment_none_head hdpos' hshlt
  have htag : readTag cs strict (b + countWs s) = .ok none :=
    readTag_none_head hdpos' hshlt strict
  have hp0 : cs.drop (b + countWs s + (s.dropWhile pyIsSpace).length) =
      renderSeg sp2 ++ renderSpecs r2 := drop_region hdpos
  rw [hidx] at hp0
  have hcase : readComment cs (b + s.length) =
      some (expSeg (b + s.length) sp2) ∨
      (readComment cs (b + s.length) = none ∧
       ∃ e, readTag cs strict (b + s.length) = .ok (some e) ∧
         expSeg (b + s.length) sp2 = .elem e) := by
    cases sp2 with
    | commentSpec t =>
      left
      have hdash : ∀ c ∈ t, (c == '-') = false := by
        intro c hc
        rw [beq_eq_false_iff_ne]
        intro he
        exact contains_false_not_mem
          (show t.contains '-' = false by
            simpa [wfSpec, Bool.not_eq_true'] using hwf2) (he ▸ hc)
      exact readComment_run hdash hp0
    | openTag n as sc sl =>
      right
      have hwf2' := hwf2
      simp only [wfSpec, Bool.and_eq_true] at hwf2'
      obtain ⟨hn, hna, hctx⟩ := wfName_parts hwf2'.1
      obtain ⟨hwfa, hdk⟩ := wfAttrs_parts hwf2'.2
      obtain ⟨nc, n', hnc⟩ : ∃ nc n', n = nc :: n' := by
        cases n with
        | nil => exact absurd rfl hn
        | cons a l => exact ⟨a, l, rfl⟩
      have hn1 : isLowerAlpha nc = true :=
        List.all_eq_true.mp hna nc (by rw [hnc]; simp)
      have hp0c : cs.drop (b + s.length) = '<' :: (nc :: ((((n' ++
          attrsBasic as) ++
          (if sc then (if sl then [' ', '/'] else ['/']) else [])) ++
          ['>']) ++ renderSpecs r2)) := by
        rw [hnc] at hp0
        exact hp0
      refine ⟨readComment_none_second hp0c
        (chBeq_false (show nc.toNat ≠ 33 by
          have := lowAlpha_bounds hn1; omega)), _,
        @readTag_open_run cs (b + s.length) n (renderSpecs r2) as sc sl strict
          hn hna hwfa hdk hp0, rfl⟩
    | closeTag n =>
      right
      obtain ⟨hn, hna, hctx⟩ := wfName_parts (show wfName n = true from hwf2)
      have hp0c : cs.drop (b + s.length) =
          '<' :: ('/' :: (n ++ ('>' :: renderSpecs r2))) := by
        rw [hp0]
        show ('<' :: '/' :: n ++ ['>']) ++ renderSpecs r2 = _
        simp [List.append_assoc]
      refine ⟨readComment_none_second hp0c (by decide), _,
        readTag_close_run strict hn hna hp0c, rfl⟩
    | textSpec t => simp [isTextSpec] at hsp2
  have hdpos2 : cs.drop (b + countWs s) =
      s.dropWhile pyIsSpace ++ ('<' :: (u2 ++ renderSpecs r2)) := by
    rw [hdpos, hu2]
    rfl
  have hcase' : readComment cs
        (b + countWs s + (s.dropWhile pyIsSpace).length) =
      some (expSeg (b + s.length) sp2) ∨
      (readComment cs (b + countWs s + (s.dropWhile pyIsSpace).length) =
        none ∧
       ∃ e, readTag cs strict
          (b + countWs s + (s.dropWhile pyIsSpace).length) = .ok (some e) ∧
         expSeg (b + s.length) sp2 = .elem e) := by
    rw [hidx]
    exact hcase
  have hrt := readText_run_hit strict (expSeg (b + s.length) sp2)
    (fun c hc => hnl c (dropWhile_mem hc)) hdpos2 hcase'
  have hmk : mkTextSeg cs (b + countWs s)
      (b + countWs s + (s.dropWhile pyIsSpace).length) =
      expSeg b (.textSpec s) := by
    simp only [mkTextSeg, expSeg]
    have hsl : slice cs (b + countWs s)
        (b + countWs s + (s.dropWhile pyIsSpace).length) =
        s.dropWhile pyIsSpace := slice_drop hdpos
    rw [hsl, pyStrip_dropWhile, hidx]
  rw [hidx] at hrt
  have hrt' : readText cs strict (b + countWs s) =
      .ok (some (expSeg b (.textSpec s), some (expSeg (b + s.length) sp2))) := by
    rw [hrt, ← hmk, hidx]
  simp only [nextSeg, hws, hne, Bool.false_eq_true, if_false, hcur, hcm,
    htag, hrt', pym_bind_ok, pym_pure]
  rfl

theorem discrete_after_text {s : Str} {y : SegSpec}
    (h : discretePair (.textSpec s) y = true) : isTextSpec y = false := by
  cases y with
  | textSpec t => exact absurd h (by simp [discretePair])
  | openTag n as sc sl => rfl
  | closeTag n => rfl
  | commentSpec t => rfl

/-- One `next` call on a state satisfying the invariant for a non-empty
well-formed stream emits exactly the expected head segment and re-establishes
the invariant for the tail. -/
theorem nextSeg_emit {cs : Str} {strict : Bool} {b : Nat} {sp : SegSpec}
    {r : List SegSpec} {st : ParserState}
    (hwf : wfStream strict (sp :: r) = true)
    (hinv : stInv cs strict b (sp :: r) st) :
    ∃ st', nextSeg st = .ok (some (expSeg b sp), st') ∧
      stInv cs strict (b + (renderSeg sp).length) r st' := by
  obtain ⟨hh, hs, hcur, hpos, hdrop, hble, hcache⟩ := hinv
  obtain ⟨html, pstrict, ppos, segCur, segNext⟩ := st
  replace hh : html = cs := hh
  replace hs : pstrict = strict := hs
  replace hpos : ppos = b := hpos
  replace hcur : ctxSwitch segCur = none := hcur
  rw [hh, hs, hpos]
  have hwfsp : wfSpec sp = true := wfStream_head hwf
  have hble' : b + (renderSeg sp).length ≤ cs.length := by
    have h1 := congrArg List.length hdrop
    rw [renderSpecs_cons, List.length_drop, List.length_append] at h1
    omega
  have hdrop' : cs.drop (b + (renderSeg sp).length) = renderSpecs r := by
    rw [renderSpecs_cons] at hdrop
    exact drop_region hdrop
  rcases hcache with hnone | ⟨sp0, r0, hspec, hsp0, hcached⟩
  · replace hnone : segNext = none := hnone
    subst hnone
    cases sp with
    | openTag n as sc sl =>
      exact ⟨_, nextSeg_open hcur hwfsp hdrop,
        rfl, rfl, ctxSwitch_expSeg hwfsp, rfl, hdrop', hble', Or.inl rfl⟩
    | closeTag n =>
      exact ⟨_, nextSeg_close hcur hwfsp hdrop,
        rfl, rfl, ctxSwitch_expSeg hwfsp, rfl, hdrop', hble', Or.inl rfl⟩
    | commentSpec t =>
      exact ⟨_, nextSeg_comment hcur hwfsp hdrop,
        rfl, rfl, ctxSwitch_expSeg hwfsp, rfl, hdrop', hble', Or.inl rfl⟩
    | textSpec s =>
      cases r with
      | nil =>
        have hstrict : strict = false := by
          have h2 := hwf
          simp only [wfStream, isTextSpec, Bool.not_true, Bool.false_or,
            Bool.and_eq_true, Bool.not_eq_true'] at h2
          exact h2.2
        subst hstrict
        exact ⟨_, nextSeg_text_tail hcur hwfsp hdrop hble,
          rfl, rfl, ctxSwitch_expSeg hwfsp, rfl, hdrop', hble', Or.inl rfl⟩
      | cons sp2 r2 =>
        have hd2 : discretePair (.textSpec s) sp2 = true := by
          have h2 := hwf
          simp only [wfStream, Bool.and_eq_true] at h2
          exact h2.1.2
        have hsp2 := discrete_after_text hd2
        have hwf2 : wfSpec sp2 = true := wfStream_head (wfStream_tail hwf)
        exact ⟨_, nextSeg_text_hit hcur hwfsp hsp2 hwf2 hdrop,
          rfl, rfl, ctxSwitch_expSeg hwfsp, rfl, hdrop', hble',
          Or.inr ⟨sp2, r2, rfl, hsp2, rfl⟩⟩
  · replace hcached : segNext = some (expSeg b sp0) := hcached
    subst hcached
    have hz := List.cons.injEq .. |>.mp hspec.symm
    obtain ⟨he1, he2⟩ := hz
    subst he1
    exact ⟨_, nextSeg_cached hsp0 hdrop,
      rfl, rfl, ctxSwitch_expSeg hwfsp, rfl, hdrop', hble', Or.inl rfl⟩

/-- One `next` call on a state satisfying the invariant for the empty stream
signals end of input. -/
theorem nextSeg_end {cs : Str} {strict : Bool} {b : Nat} {st : ParserState}
    (hinv : stInv cs strict b [] st) :
    ∃ st', nextSeg st = .ok (none, st') := by
  obtain ⟨hh, hs, hcur, hpos, hdrop, hble, hcache⟩ := hinv
  obtain ⟨html, pstrict, ppos, segCur, segNext⟩ := st
  replace hh : html = cs := hh
  replace hs : pstrict = strict := hs
  replace hpos : ppos = b := hpos
  rw [hh, hs, hpos]
  have hnil : cs.drop b = [] := by
    rw [hdrop]
    rfl
  have hnext : segNext = none := by
    rcases hcache with h | ⟨sp, r, habs, _⟩
    · exact h
    · exact absurd habs (by simp)
  subst hnext
  have hlen : b = cs.length := by
    have h1 := congrArg List.length hnil
    rw [List.length_drop] at h1
    simp at h1
    omega
  have hws : readWhitespace cs b = b := by
    rw [readWhitespace_drop hnil]
    rfl
  have hbeq : (b == cs.length) = true := by
    rw [hlen]
    simp
  refine ⟨⟨cs, strict, b, segCur, none⟩, ?_⟩
  simp only [nextSeg, hws, hbeq, if_true]
  rfl

/-! ### The tokenizer over a rendered stream -/

theorem renderSeg_length_pos {sp : SegSpec} (h : wfSpec sp = true) :
    1 ≤ (renderSeg sp).length := by
  cases sp with
  | openTag n as sc sl => simp [renderSeg]
  | closeTag n => simp [renderSeg]
  | textSpec s =>
    have h2 : (pyStrip s).isEmpty = false := by
      have h3 : (!(s.contains '<') && !(pyStrip s).isEmpty) = true := h
      simp only [Bool.and_eq_true, Bool.not_eq_true'] at h3
      exact h3.2
    have hd := strip_nonempty_dropWhile h2
    show 1 ≤ s.length
    cases s with
    | nil => simp [List.dropWhile] at hd
    | cons a l => simp
  | commentSpec s =>
    show 1 ≤ ("<!-- ".toList ++ s ++ " -->".toList).length
    simp

theorem renderSpecs_length_ge (m : Bool) :
    ∀ {specs : List SegSpec}, wfStream m specs = true →
    specs.length ≤ (renderSpecs specs).length
  | [], _ => by simp [renderSpecs]
  | sp :: r, h => by
    rw [renderSpecs_cons]
    simp only [List.length_cons, List.length_append]
    have h1 := renderSeg_length_pos (wfStream_head h)
    have h2 := renderSpecs_length_ge m (wfStream_tail h)
    omega

theorem expSegs_length : ∀ (specs : List SegSpec) (b : Nat),
    (expSegs b specs).length = specs.length
  | [], _ => rfl
  | sp :: r, b => by
    simp only [expSegs, List.length_cons]
    rw [expSegs_length r]

theorem tokenizeList_specs (cs : Str) (strict : Bool) :
    ∀ (N : Nat) (specs : List SegSpec), specs.length ≤ N →
    ∀ (b fuel : Nat) (st : ParserState),
    wfStream strict specs = true →
    specs.length + 1 ≤ fuel →
    stInv cs strict b specs st →
    tokenizeList fuel st = .ok (expSegs b specs) := by
  intro N
  induction N with
  | zero =>
    intro specs hlen b fuel st hwf hfuel hinv
    have hnil : specs = [] := List.length_eq_zero.mp (Nat.le_zero.mp hlen)
    subst hnil
    cases fuel with
    | zero => simp at hfuel
    | succ fuel' =>
      obtain ⟨st', hns⟩ := nextSeg_end hinv
      simp only [tokenizeList, hns, pym_bind_ok]
      rfl
  | succ N ih =>
    intro specs hlen b fuel st hwf hfuel hinv
    cases specs with
    | nil =>
      cases fuel with
      | zero => simp at hfuel
      | succ fuel' =>
        obtain ⟨st', hns⟩ := nextSeg_end hinv
        simp only [tokenizeList, hns, pym_bind_ok]
        rfl
    | cons sp r =>
      cases fuel with
      | zero => simp at hfuel
      | succ fuel' =>
        obtain ⟨st', hns, hinv'⟩ := nextSeg_emit hwf hinv
        have hr := ih r (by simp at hlen; omega) (b + (renderSeg sp).length)
          fuel' st' (wfStream_tail hwf) (by simp at hfuel; omega) hinv'
        simp only [tokenizeList, hns, pym_bind_ok, hr]
        rfl

/-! ### Claim C2 -/

/-- C2 counterexample: the tokenizer does NOT store the exact source slice
for text segments — `_readText` strips the text (parser.py:221/230).  On
`<p>A </p>` the emitted text segment covers offsets 3..5, whose source slice
is `"A "`, but stores `"A"`. -/
theorem text_segment_not_exact_slice :
    tokenizeAll "<p>A </p>".toList false =
      .ok [.elem ⟨"<p>".toList, 0, 3, ['p'], [], true, false⟩,
           .textS "A".toList 3 5,
           .elem ⟨"</p>".toList, 5, 9, ['p'], [], false, true⟩] ∧
    slice "<p>A </p>".toList 3 5 = "A ".toList ∧
    "A".toList ≠ "A ".toList :=
  ⟨rfl, rfl, by decide⟩

/-- C2 amended: for every well-formed discrete builder-segment list, in both
modes, tokenizing the rendered document yields exactly one segment per
builder segment, in order, each with the expected offsets; element and
comment segments store the exact source slice of their markup, while TEXT
segments store the whitespace-STRIPPED slice (with `start` pushed past the
leading whitespace but `end` and the stored text disagreeing about trailing
whitespace). -/
theorem tokenizer_round_trip (specs : List SegSpec) (strict : Bool)
    (hwf : wfSpecs specs = true) :
    tokenizeAll (renderSpecs specs) strict = .ok (expSegs 0 specs) ∧
    (expSegs 0 specs).length = specs.length := by
  constructor
  · have hws := wfSpecs_stream strict hwf
    have hlen := renderSpecs_length_ge strict hws
    refine tokenizeList_specs (renderSpecs specs) strict specs.length specs
      (le_refl _) 0 ((renderSpecs specs).length + 1) _ hws (by omega) ?_
    exact ⟨rfl, rfl, rfl, rfl, by simp, by simp, Or.inl rfl⟩
  · exact expSegs_length specs 0

/-- C2 amended, witness on a concrete three-segment document
`<p a="1"> x </p>`. -/
theorem tokenizer_round_trip_witness :
    wfSpecs [SegSpec.openTag ['p'] [(['a'], ['1'])] false false,
      SegSpec.textSpec [' ', 'x', ' '], SegSpec.closeTag ['p']] = true ∧
    (tokenizeAll (renderSpecs [SegSpec.openTag ['p'] [(['a'], ['1'])] false
        false, SegSpec.textSpec [' ', 'x', ' '], SegSpec.closeTag ['p']])
        true =
      .ok (expSegs 0 [SegSpec.openTag ['p'] [(['a'], ['1'])] false false,
        SegSpec.textSpec [' ', 'x', ' '], SegSpec.closeTag ['p']]) ∧
     (expSegs 0 [SegSpec.openTag ['p'] [(['a'], ['1'])] false false,
        SegSpec.textSpec [' ', 'x', ' '], SegSpec.closeTag ['p']]).length =
       ([SegSpec.openTag ['p'] [(['a'], ['1'])] false false,
        SegSpec.textSpec [' ', 'x', ' '], SegSpec.closeTag ['p']] :
          List SegSpec).length) :=
  ⟨by decide,
   tokenizer_round_trip [SegSpec.openTag ['p'] [(['a'], ['1'])] false false,
     SegSpec.textSpec [' ', 'x', ' '], SegSpec.closeTag ['p']] true
     (by decide)⟩

/-! ### Serialisation renders the flattened builder segments -/

theorem wfNodeName_parts {n : Str} (h : wfNodeName n = true) :
    wfName n = true ∧ voidTags.contains n = false ∧
      neverSelfClosing.contains n = false := by
  simp only [wfNodeName, Bool.and_eq_true, Bool.not_eq_true'] at h
  refine ⟨?_, h.1.1.2, h.1.2⟩
  simp only [wfName, Bool.and_eq_true, Bool.not_eq_true']
  exact ⟨h.1.1.1, h.2⟩

theorem wfTree_elem_parts {n : Str} {a : List (Str × Str)}
    {c : List HTMLNode} (h : wfTree (.element n a c) = true) :
    wfNodeName n = true ∧ wfAttrs a = true ∧ wfForest c = true := by
  have h' : (wfNodeName n && wfAttrs a && wfForest c) = true := h
  simp only [Bool.and_eq_true] at h'
  exact ⟨h'.1.1, h'.1.2, h'.2⟩

theorem wfForest_head {x : HTMLNode} {l : List HTMLNode}
    (h : wfForest (x :: l) = true) : wfTree x = true := by
  cases l with
  | nil => exact h
  | cons y r =>
    have h' : (wfTree x && discreteNodes x y && wfForest (y :: r)) = true := h
    simp only [Bool.and_eq_true] at h'
    exact h'.1.1

theorem wfForest_tail {x : HTMLNode} {l : List HTMLNode}
    (h : wfForest (x :: l) = true) : wfForest l = true := by
  cases l with
  | nil => rfl
  | cons y r =>
    have h' : (wfTree x && discreteNodes x y && wfForest (y :: r)) = true := h
    simp only [Bool.and_eq_true] at h'
    exact h'.2

theorem wfForest_discrete {x y : HTMLNode} {l : List HTMLNode}
    (h : wfForest (x :: y :: l) = true) : discreteNodes x y = true := by
  have h' : (wfTree x && discreteNodes x y && wfForest (y :: l)) = true := h
  simp only [Bool.and_eq_true] at h'
  exact h'.1.2

theorem renderSpecs_append (u v : List SegSpec) :
    renderSpecs (u ++ v) = renderSpecs u ++ renderSpecs v := by
  simp [renderSpecs]

theorem dispName_not_doctype {n : Str} (h : wfNodeName n = true) :
    (n == "!doctype".toList) = false := by
  obtain ⟨hw, _, _⟩ := wfNodeName_parts h
  obtain ⟨hn, hna, _⟩ := wfName_parts hw
  obtain ⟨nc, n', hnc⟩ : ∃ nc n', n = nc :: n' := by
    cases n with
    | nil => exact absurd rfl hn
    | cons a l => exact ⟨a, l, rfl⟩
  have hn1 : isLowerAlpha nc = true :=
    List.all_eq_true.mp hna nc (by rw [hnc]; simp)
  rw [beq_eq_false_iff_ne]
  intro he
  have h2 : nc :: n' = '!' :: ['d', 'o', 'c', 't', 'y', 'p', 'e'] := by
    rw [← hnc]
    exact he
  have h3 := (List.cons.injEq .. |>.mp h2).1
  have hb := lowAlpha_bounds hn1
  rw [h3] at hb
  have h33 : ('!').toNat = 33 := rfl
  omega

theorem dispName_id {n : Str} (h : wfNodeName n = true) : dispName n = n := by
  simp only [dispName, dispName_not_doctype h, Bool.false_eq_true, if_false]

theorem attrsRender_basic {n : Str} (a : List (Str × Str))
    (h : (n == "!doctype".toList) = false) :
    attrsRender n a = attrsBasic a := by
  simp only [attrsRender, attrsBasic, h, Bool.false_and, Bool.false_eq_true,
    if_false]

theorem write_flatten_aux : ∀ (N : Nat),
    (∀ (x : HTMLNode), nodeSize x ≤ N → wfTree x = true →
      ∀ (indent : Nat) (tabs : Bool) (lim depth : Nat) (first : Bool),
      writeOne false indent tabs true false lim x depth first =
        renderSpecs (flattenN x)) ∧
    (∀ (F : List HTMLNode), listSize F ≤ N → wfForest F = true →
      ∀ (indent : Nat) (tabs : Bool) (lim depth : Nat) (first : Bool),
      writeList false indent tabs true false lim F depth first =
        renderSpecs (flattenF F)) := by
  intro N
  induction N with
  | zero =>
    constructor
    · intro x hsz
      cases x with
      | element n a c => simp [nodeSize] at hsz
      | textNode t => simp [nodeSize] at hsz
      | commentNode c => simp [nodeSize] at hsz
    · intro F hsz
      cases F with
      | nil => simp [listSize] at hsz
      | cons y l => simp [listSize, nodeSize] at hsz
  | succ N ih =>
    constructor
    · intro x hsz hwf indent tabs lim depth first
      cases x with
      | textNode t =>
        simp [writeOne, writePre, flattenN, renderSpecs, renderSeg]
      | commentNode c => simp [wfTree] at hwf
      | element n a c =>
        obtain ⟨hname, hattrs, hkids⟩ := wfTree_elem_parts hwf
        obtain ⟨_, hvoid, hnsc⟩ := wfNodeName_parts hname
        have hdn := dispName_id hname
        have har := attrsRender_basic a (dispName_not_doctype hname)
        have hsb : selfCloseBranch true n c = (c.length == 0) := by
          simp [selfCloseBranch, contains_false_not_mem hvoid,
            contains_false_not_mem hnsc]
        cases c with
        | nil =>
          simp only [writeOne, writePre, hsb, hdn, har]
          simp only [flattenN, List.isEmpty_nil, if_true]
          by_cases hal : a.length > 0
          · simp [renderSpecs, renderSeg, contains_false_not_mem hvoid, hal,
              List.append_assoc]
          · simp [renderSpecs, renderSeg, contains_false_not_mem hvoid, hal,
              List.append_assoc]
        | cons y l =>
          have hrec := ih.2 (y :: l)
            (by simp only [nodeSize] at hsz; omega) hkids indent tabs lim
            (depth + 1) first
          simp only [writeOne, writePre, hsb, hdn, har, hrec]
          have hsh : shrinkBranch false lim (y :: l) = false := rfl
          simp only [hsh, Bool.false_eq_true, if_false]
          have hfl : flattenN (.element n a (y :: l)) =
              .openTag n a false false ::
                (flattenF (y :: l) ++ [.closeTag n]) := by
            simp [flattenN]
          rw [hfl, renderSpecs_cons, renderSpecs_append]
          simp [renderSpecs, renderSeg, hrec, List.append_assoc]
    · intro F hsz hwf indent tabs lim depth first
      cases F with
      | nil => rfl
      | cons x l =>
        have h1 := ih.1 x (by simp only [listSize] at hsz; omega)
          (wfForest_head hwf) indent tabs lim depth first
        have h2 := ih.2 l (by simp only [listSize, nodeSize] at hsz ⊢; omega)
          (wfForest_tail hwf) indent tabs lim depth first
        simp only [writeList, h1, Bool.false_eq_true, if_false, h2]
        rw [show flattenF (x :: l) = flattenN x ++ flattenF l from rfl,
          renderSpecs_append]

/-! ### Well-formed trees flatten to well-formed streams -/

theorem wfStream_cons_nontext {m : Bool} {x : SegSpec} {l : List SegSpec}
    (hx : isTextSpec x = false) (hw : wfSpec x = true)
    (hl : wfStream m l = true) : wfStream m (x :: l) = true := by
  cases l with
  | nil => simp [wfStream, hw, hx]
  | cons y r =>
    have hd : discretePair x y = true := by
      cases x with
      | textSpec s => simp [isTextSpec] at hx
      | openTag n as sc sl => cases y <;> rfl
      | closeTag n => cases y <;> rfl
      | commentSpec t => cases y <;> rfl
    simp only [wfStream, Bool.and_eq_true]
    exact ⟨⟨hw, hd⟩, hl⟩

theorem flattenN_shape (y : HTMLNode) :
    (∃ t, y = HTMLNode.textNode t ∧ flattenN y = [SegSpec.textSpec t]) ∨
    (∃ z l, flattenN y = z :: l ∧ isTextSpec z = false) := by
  cases y with
  | textNode t => exact Or.inl ⟨t, rfl, rfl⟩
  | commentNode c => exact Or.inr ⟨_, _, rfl, rfl⟩
  | element n a c =>
    by_cases hc : c.isEmpty
    · exact Or.inr ⟨SegSpec.openTag n a true (decide (0 < a.length)), [],
        by simp [flattenN, hc], rfl⟩
    · exact Or.inr ⟨SegSpec.openTag n a false false,
        flattenF c ++ [SegSpec.closeTag n], by simp [flattenN, hc], rfl⟩

theorem wfStream_flatten : ∀ (N : Nat),
    (∀ (x : HTMLNode), nodeSize x ≤ N → wfTree x = true →
      ∀ (tail : List SegSpec), wfStream false tail = true →
      (∀ t, x = HTMLNode.textNode t →
        (match tail with | .textSpec _ :: _ => False | _ => True)) →
      wfStream false (flattenN x ++ tail) = true) ∧
    (∀ (F : List HTMLNode), listSize F ≤ N → wfForest F = true →
      ∀ (tail : List SegSpec), wfStream false tail = true →
      (match tail with | .textSpec _ :: _ => False | _ => True) →
      wfStream false (flattenF F ++ tail) = true) := by
  intro N
  induction N with
  | zero =>
    constructor
    · intro x hsz
      cases x with
      | element n a c => simp [nodeSize] at hsz
      | textNode t => simp [nodeSize] at hsz
      | commentNode c => simp [nodeSize] at hsz
    · intro F hsz
      cases F with
      | nil => simp [listSize] at hsz
      | cons y l => simp [listSize, nodeSize] at hsz
  | succ N ih =>
    constructor
    · intro x hsz hwf tail htail hcomp
      cases x with
      | commentNode c => simp [wfTree] at hwf
      | textNode t =>
        show wfStream false (SegSpec.textSpec t :: tail) = true
        cases tail with
        | nil =>
          simp [wfStream, isTextSpec]
          exact hwf
        | cons y2 r2 =>
          have hd : discretePair (.textSpec t) y2 = true := by
            cases y2 with
            | textSpec u => exact absurd (hcomp t rfl) (by simp)
            | openTag n as sc sl => rfl
            | closeTag n => rfl
            | commentSpec u => rfl
          simp only [wfStream, Bool.and_eq_true]
          exact ⟨⟨hwf, hd⟩, htail⟩
      | element n a c =>
        obtain ⟨hname, hattrs, hkids⟩ := wfTree_elem_parts hwf
        have hwfn := (wfNodeName_parts hname).1
        have hwopen : ∀ (sc sl : Bool),
            wfSpec (.openTag n a sc sl) = true := by
          intro sc sl
          simp [wfSpec, hwfn, hattrs]
        cases hc : c with
        | nil =>
          show wfStream false
            ([SegSpec.openTag n a true (decide (a.length > 0))] ++ tail) = true
          exact wfStream_cons_nontext rfl (hwopen true _) htail
        | cons y l =>
          have hfl : flattenN (.element n a (y :: l)) ++ tail =
              SegSpec.openTag n a false false ::
                (flattenF (y :: l) ++ (SegSpec.closeTag n :: tail)) := by
            simp [flattenN, List.append_assoc]
          rw [hfl]
          refine wfStream_cons_nontext rfl (hwopen false false) ?_
          refine ih.2 (y :: l) ?_ (hc ▸ hkids) _ ?_ trivial
          · rw [hc] at hsz
            simp only [nodeSize] at hsz
            omega
          · exact wfStream_cons_nontext rfl hwfn htail
    · intro F hsz hwf tail htail hcomp
      cases F with
      | nil => exact htail
      | cons x F2 =>
        have hstep : flattenF (x :: F2) ++ tail =
            flattenN x ++ (flattenF F2 ++ tail) := by
          rw [show flattenF (x :: F2) = flattenN x ++ flattenF F2 from rfl,
            List.append_assoc]
        rw [hstep]
        refine ih.1 x (by simp only [listSize] at hsz; omega)
          (wfForest_head hwf) _
          (ih.2 F2 (by simp only [listSize, nodeSize] at hsz ⊢; omega)
            (wfForest_tail hwf) tail htail hcomp) ?_
        intro t hxt
        cases F2 with
        | nil => exact hcomp
        | cons y F3 =>
          rcases flattenN_shape y with ⟨u, hyu, hfly⟩ | ⟨z, zl, hfly, hz⟩
          · rw [hxt, hyu] at hwf
            have := wfForest_discrete hwf
            simp [discreteNodes] at this
          · show (match (flattenN y ++ flattenF F3) ++ tail with
              | .textSpec _ :: _ => False | _ => True)
            rw [hfly]
            cases z with
            | textSpec u => simp [isTextSpec] at hz
            | openTag nn aa sc sl => trivial
            | closeTag nn => trivial
            | commentSpec u => trivial

/-! ### The tree builder over a rendered stream -/

theorem wfStream_drop (m : Bool) : ∀ (u v : List SegSpec),
    wfStream m (u ++ v) = true → wfStream m v = true
  | [], _, h => h
  | x :: u', v, h => wfStream_drop m u' v (wfStream_tail h)

theorem loadChildren_run (cs : Str) (comments : Bool) :
    ∀ (N : Nat) (F : List HTMLNode), listSize F ≤ N →
    ∀ (pn : Str) (rest : List SegSpec) (b fuel : Nat) (st : ParserState),
    wfForest F = true →
    wfStream false (flattenF F ++ (SegSpec.closeTag pn :: rest)) = true →
    stInv cs false b (flattenF F ++ (SegSpec.closeTag pn :: rest)) st →
    (flattenF F).length + 2 ≤ fuel →
    ∃ b' st', loadChildren false comments pn fuel st =
      .ok (stripTextsF F, none, st') ∧ stInv cs false b' rest st' := by
  intro N
  induction N with
  | zero =>
    intro F hsz
    cases F with
    | nil => simp [listSize] at hsz
    | cons y l => simp [listSize, nodeSize] at hsz
  | succ N ih =>
    intro F hsz pn rest b fuel st hwfF hstr hinv hfuel
    cases F with
    | nil =>
      have hS : flattenF [] ++ (SegSpec.closeTag pn :: rest) =
          SegSpec.closeTag pn :: rest := rfl
      rw [hS] at hstr hinv
      cases fuel with
      | zero => simp [flattenF] at hfuel
      | succ fuel' =>
        obtain ⟨st1, hns, hinv1⟩ := nextSeg_emit hstr hinv
        have hseg : expSeg b (SegSpec.closeTag pn) =
            Segment.elem ⟨renderSeg (SegSpec.closeTag pn), b,
              b + pn.length + 3, pn, [], false, true⟩ := rfl
        rw [hseg] at hns
        refine ⟨b + (renderSeg (SegSpec.closeTag pn)).length, st1, ?_, hinv1⟩
        simp only [loadChildren, hns, pym_bind_ok, Bool.false_eq_true,
          if_false, if_true, beq_self_eq_true, eq_self_iff_true, pym_pure]
        rfl
    | cons x F2 =>
      cases x with
      | commentNode c =>
        have := wfForest_head hwfF
        simp [wfTree] at this
      | textNode t =>
        have hS : flattenF (HTMLNode.textNode t :: F2) ++
            (SegSpec.closeTag pn :: rest) =
            SegSpec.textSpec t ::
              (flattenF F2 ++ (SegSpec.closeTag pn :: rest)) := rfl
        rw [hS] at hstr hinv
        cases fuel with
        | zero => simp at hfuel
        | succ fuel' =>
          obtain ⟨st1, hns, hinv1⟩ := nextSeg_emit hstr hinv
          have hseg : expSeg b (SegSpec.textSpec t) =
              Segment.textS (pyStrip t) (b + countWs t) (b + t.length) := rfl
          rw [hseg] at hns
          have hflen : (flattenF (HTMLNode.textNode t :: F2)).length =
              (flattenF F2).length + 1 := by
            rw [show flattenF (HTMLNode.textNode t :: F2) =
              flattenN (HTMLNode.textNode t) ++ flattenF F2 from rfl]
            simp [flattenN]
          obtain ⟨b', st', hload, hinv'⟩ := ih F2
            (by simp only [listSize, nodeSize] at hsz ⊢; omega) pn rest _
            fuel' st1 (wfForest_tail hwfF) (wfStream_tail hstr) hinv1
            (by rw [hflen] at hfuel; omega)
          refine ⟨b', st', ?_, hinv'⟩
          simp only [loadChildren, hns, pym_bind_ok, hload, pym_pure]
          rfl
      | element n a c =>
        have hwfx := wfForest_head hwfF
        obtain ⟨hname, hattrs, hkids⟩ := wfTree_elem_parts hwfx
        obtain ⟨hwfn, hvoid, hnsc⟩ := wfNodeName_parts hname
        cases c with
        | nil =>
          have hS : flattenF (HTMLNode.element n a [] :: F2) ++
              (SegSpec.closeTag pn :: rest) =
              SegSpec.openTag n a true (decide (0 < a.length)) ::
                (flattenF F2 ++ (SegSpec.closeTag pn :: rest)) := rfl
          rw [hS] at hstr hinv
          cases fuel with
          | zero => simp at hfuel
          | succ fuel' =>
            obtain ⟨st1, hns, hinv1⟩ := nextSeg_emit hstr hinv
            have hseg : expSeg b
                (SegSpec.openTag n a true (decide (0 < a.length))) =
                Segment.elem ⟨renderSeg (SegSpec.openTag n a true
                    (decide (0 < a.length))), b,
                  b + (renderSeg (SegSpec.openTag n a true
                    (decide (0 < a.length)))).length, n, a, true, true⟩ := rfl
            rw [hseg] at hns
            have hflen : (flattenF (HTMLNode.element n a [] :: F2)).length =
                (flattenF F2).length + 1 := by
              rw [show flattenF (HTMLNode.element n a [] :: F2) =
                flattenN (HTMLNode.element n a []) ++ flattenF F2 from rfl]
              simp [flattenN]
            obtain ⟨b', st', hload, hinv'⟩ := ih F2
              (by simp only [listSize, nodeSize] at hsz ⊢; omega) pn rest _
              fuel' st1 (wfForest_tail hwfF) (wfStream_tail hstr) hinv1
              (by rw [hflen] at hfuel; omega)
            refine ⟨b', st', ?_, hinv'⟩
            simp only [loadChildren, hns, pym_bind_ok, Bool.not_true,
              Bool.false_and, Bool.false_eq_true, if_false, if_true,
              eq_self_iff_true, hload, pym_pure]
            rfl
        | cons y l =>
          have hS : flattenF (HTMLNode.element n a (y :: l) :: F2) ++
              (SegSpec.closeTag pn :: rest) =
              SegSpec.openTag n a false false ::
                (flattenF (y :: l) ++ (SegSpec.closeTag n ::
                  (flattenF F2 ++ (SegSpec.closeTag pn :: rest)))) := by
            rw [show flattenF (HTMLNode.element n a (y :: l) :: F2) =
              flattenN (HTMLNode.element n a (y :: l)) ++ flattenF F2 from
              rfl]
            simp [flattenN, List.append_assoc]
          rw [hS] at hstr hinv
          cases fuel with
          | zero => simp at hfuel
          | succ fuel' =>
            obtain ⟨st1, hns, hinv1⟩ := nextSeg_emit hstr hinv
            have hseg : expSeg b (SegSpec.openTag n a false false) =
                Segment.elem ⟨renderSeg (SegSpec.openTag n a false false), b,
                  b + (renderSeg (SegSpec.openTag n a false false)).length,
                  n, a, true, false⟩ := rfl
            rw [hseg] at hns
            have hflen :
                (flattenF (HTMLNode.element n a (y :: l) :: F2)).length =
                (flattenF (y :: l)).length + (flattenF F2).length + 2 := by
              rw [show flattenF (HTMLNode.element n a (y :: l) :: F2) =
                flattenN (HTMLNode.element n a (y :: l)) ++ flattenF F2 from
                rfl, show flattenN (HTMLNode.element n a (y :: l)) =
                SegSpec.openTag n a false false ::
                  (flattenF (y :: l) ++ [SegSpec.closeTag n]) from rfl]
              simp
              omega
            have hszc : listSize (y :: l) ≤ N := by
              simp only [listSize, nodeSize] at hsz ⊢
              omega
            obtain ⟨b2, st2, hchild, hinv2⟩ := ih (y :: l) hszc n
              (flattenF F2 ++ (SegSpec.closeTag pn :: rest)) _ fuel' st1
              hkids (wfStream_tail hstr) hinv1
              (by rw [hflen] at hfuel; omega)
            obtain ⟨b3, st3, hcont, hinv3⟩ := ih F2
              (by simp only [listSize, nodeSize] at hsz ⊢; omega) pn rest
              b2 fuel' st2 (wfForest_tail hwfF)
              (wfStream_drop false (flattenF (y :: l) ++ [SegSpec.closeTag n])
                (flattenF F2 ++ (SegSpec.closeTag pn :: rest))
                (by
                  have h4 := wfStream_tail hstr
                  rw [show (flattenF (y :: l) ++ [SegSpec.closeTag n]) ++
                    (flattenF F2 ++ (SegSpec.closeTag pn :: rest)) =
                    flattenF (y :: l) ++ (SegSpec.closeTag n ::
                      (flattenF F2 ++ (SegSpec.closeTag pn :: rest))) by
                    simp [List.append_assoc]]
                  exact h4))
              hinv2 (by rw [hflen] at hfuel; omega)
            refine ⟨b3, st3, ?_, hinv3⟩
            simp only [loadChildren, hns, pym_bind_ok, Bool.not_false, hvoid,
              Bool.true_and, eq_self_iff_true, if_true, hchild, hcont,
              pym_pure]
            rfl

theorem loadRoot_run (cs : Str) (comments : Bool) :
    ∀ (N : Nat) (F : List HTMLNode), listSize F ≤ N →
    ∀ (b fuel : Nat) (st : ParserState),
    wfForest F = true →
    wfStream false (flattenF F) = true →
    stInv cs false b (flattenF F) st →
    (flattenF F).length + 1 ≤ fuel →
    ∃ st', loadRoot false comments fuel st = .ok (stripTextsF F, st') := by
  intro N
  induction N with
  | zero =>
    intro F hsz
    cases F with
    | nil => simp [listSize] at hsz
    | cons y l => simp [listSize, nodeSize] at hsz
  | succ N ih =>
    intro F hsz b fuel st hwfF hstr hinv hfuel
    cases F with
    | nil =>
      cases fuel with
      | zero => simp [flattenF] at hfuel
      | succ fuel' =>
        obtain ⟨st1, hns⟩ := nextSeg_end hinv
        refine ⟨st1, ?_⟩
        simp only [loadRoot, hns, pym_bind_ok, pym_pure]
        rfl
    | cons x F2 =>
      cases x with
      | commentNode c =>
        have := wfForest_head hwfF
        simp [wfTree] at this
      | textNode t =>
        have hS : flattenF (HTMLNode.textNode t :: F2) =
            SegSpec.textSpec t :: flattenF F2 := rfl
        rw [hS] at hstr hinv
        cases fuel with
        | zero => simp at hfuel
        | succ fuel' =>
          obtain ⟨st1, hns, hinv1⟩ := nextSeg_emit hstr hinv
          have hseg : expSeg b (SegSpec.textSpec t) =
              Segment.textS (pyStrip t) (b + countWs t) (b + t.length) := rfl
          rw [hseg] at hns
          have hflen : (flattenF (HTMLNode.textNode t :: F2)).length =
              (flattenF F2).length + 1 := by
            rw [hS]
            simp
          obtain ⟨st', hload⟩ := ih F2
            (by simp only [listSize, nodeSize] at hsz ⊢; omega) _ fuel' st1
            (wfForest_tail hwfF) (wfStream_tail hstr) hinv1
            (by rw [hflen] at hfuel; omega)
          refine ⟨st', ?_⟩
          simp only [loadRoot, hns, pym_bind_ok, hload, pym_pure]
          rfl
      | element n a c =>
        have hwfx := wfForest_head hwfF
        obtain ⟨hname, hattrs, hkids⟩ := wfTree_elem_parts hwfx
        obtain ⟨hwfn, hvoid, hnsc⟩ := wfNodeName_parts hname
        cases c with
        | nil =>
          have hS : flattenF (HTMLNode.element n a [] :: F2) =
              SegSpec.openTag n a true (decide (0 < a.length)) ::
                flattenF F2 := rfl
          rw [hS] at hstr hinv
          cases fuel with
          | zero => simp at hfuel
          | succ fuel' =>
            obtain ⟨st1, hns, hinv1⟩ := nextSeg_emit hstr hinv
            have hseg : expSeg b
                (SegSpec.openTag n a true (decide (0 < a.length))) =
                Segment.elem ⟨renderSeg (SegSpec.openTag n a true
                    (decide (0 < a.length))), b,
                  b + (renderSeg (SegSpec.openTag n a true
                    (decide (0 < a.length)))).length, n, a, true, true⟩ := rfl
            rw [hseg] at hns
            have hflen : (flattenF (HTMLNode.element n a [] :: F2)).length =
                (flattenF F2).length + 1 := by
              rw [hS]
              simp
            obtain ⟨st', hload⟩ := ih F2
              (by simp only [listSize, nodeSize] at hsz ⊢; omega) _ fuel' st1
              (wfForest_tail hwfF) (wfStream_tail hstr) hinv1
              (by rw [hflen] at hfuel; omega)
            refine ⟨st', ?_⟩
            simp only [loadRoot, hns, pym_bind_ok, Bool.not_true,
              Bool.false_and, Bool.false_eq_true, if_false, if_true,
              eq_self_iff_true, hload, pym_pure]
            rfl
        | cons y l =>
          have hS : flattenF (HTMLNode.element n a (y :: l) :: F2) =
              SegSpec.openTag n a false false ::
                (flattenF (y :: l) ++ (SegSpec.closeTag n :: flattenF F2)) := by
            rw [show flattenF (HTMLNode.element n a (y :: l) :: F2) =
              flattenN (HTMLNode.element n a (y :: l)) ++ flattenF F2 from
              rfl, show flattenN (HTMLNode.element n a (y :: l)) =
              SegSpec.openTag n a false false ::
                (flattenF (y :: l) ++ [SegSpec.closeTag n]) from rfl]
            simp [List.append_assoc]
          rw [hS] at hstr hinv
          cases fuel with
          | zero => simp at hfuel
          | succ fuel' =>
            obtain ⟨st1, hns, hinv1⟩ := nextSeg_emit hstr hinv
            have hseg : expSeg b (SegSpec.openTag n a false false) =
                Segment.elem ⟨renderSeg (SegSpec.openTag n a false false), b,
                  b + (renderSeg (SegSpec.openTag n a false false)).length,
                  n, a, true, false⟩ := rfl
            rw [hseg] at hns
            have hflen :
                (flattenF (HTMLNode.element n a (y :: l) :: F2)).length =
                (flattenF (y :: l)).length + (flattenF F2).length + 2 := by
              rw [hS]
              simp
              omega
            obtain ⟨b2, st2, hchild, hinv2⟩ := loadChildren_run cs comments
              (listSize (y :: l)) (y :: l) (le_refl _) n (flattenF F2) _
              fuel' st1 hkids (wfStream_tail hstr) hinv1
              (by rw [hflen] at hfuel; omega)
            obtain ⟨st', hload⟩ := ih F2
              (by simp only [listSize, nodeSize] at hsz ⊢; omega) b2 fuel'
              st2 (wfForest_tail hwfF)
              (wfStream_drop false (flattenF (y :: l) ++ [SegSpec.closeTag n])
                (flattenF F2)
                (by
                  have h4 := wfStream_tail hstr
                  rw [show (flattenF (y :: l) ++ [SegSpec.closeTag n]) ++
                    flattenF F2 = flattenF (y :: l) ++
                      (SegSpec.closeTag n :: flattenF F2) by
                    simp [List.append_assoc]]
                  exact h4))
              hinv2 (by rw [hflen] at hfuel; omega)
            refine ⟨st', ?_⟩
            simp only [loadRoot, hns, pym_bind_ok, Bool.not_false, hvoid,
              Bool.true_and, eq_self_iff_true, if_true, hchild,
              Option.isSome_none, Bool.false_and, Bool.false_eq_true,
              if_false, hload, pym_pure]
            rfl

theorem shapeEq_strip : ∀ (N : Nat),
    (∀ (x : HTMLNode), nodeSize x ≤ N →
      shapeEqN (stripTextsN x) x = true) ∧
    (∀ (F : List HTMLNode), listSize F ≤ N →
      shapeEqF (stripTextsF F) F = true) := by
  intro N
  induction N with
  | zero =>
    constructor
    · intro x hsz
      cases x with
      | element n a c => simp [nodeSize] at hsz
      | textNode t => simp [nodeSize] at hsz
      | commentNode c => simp [nodeSize] at hsz
    · intro F hsz
      cases F with
      | nil => simp [listSize] at hsz
      | cons y l => simp [listSize, nodeSize] at hsz
  | succ N ih =>
    constructor
    · intro x hsz
      cases x with
      | element n a c =>
        show shapeEqN (.element n a (stripTextsF c)) (.element n a c) = true
        simp only [shapeEqN, Bool.and_eq_true, beq_self_eq_true,
          true_and]
        exact ih.2 c (by simp only [nodeSize] at hsz; omega)
      | textNode t => rfl
      | commentNode c => rfl
    · intro F hsz
      cases F with
      | nil => rfl
      | cons x l =>
        show shapeEqF (stripTextsN x :: stripTextsF l) (x :: l) = true
        simp only [shapeEqF, Bool.and_eq_true]
        exact ⟨ih.1 x (by simp only [listSize] at hsz; omega),
          ih.2 l (by simp only [listSize, nodeSize] at hsz ⊢; omega)⟩

/-! ### Claim C4 -/

/-- C4 counterexample: `write` does not escape quotes in attribute values,
so build∘write∘build does NOT preserve the tree shape and attribute set.
Building `<p a='x"y'>z</p>` succeeds with attribute `a = x"y`; its
serialisation `<p a="x"y">z</p>` re-parses with attributes
`a = x` and `y" = true`. -/
theorem serialize_reparse_quote_mangling :
    buildDoc "<p a='x\"y'>z</p>".toList false false =
      .ok [.element ['p'] [(['a'], ['x', '"', 'y'])] [.textNode ['z']]] ∧
    write [.element ['p'] [(['a'], ['x', '"', 'y'])] [.textNode ['z']]]
        false 2 false true false 20 = "<p a=\"x\"y\">z</p>".toList ∧
    buildDoc "<p a=\"x\"y\">z</p>".toList false false =
      .ok [.element ['p'] [(['a'], ['x']), (['y', '"'], "true".toList)]
        [.textNode ['z']]] ∧
    shapeEqF [.element ['p'] [(['a'], ['x']), (['y', '"'], "true".toList)]
        [.textNode ['z']]]
      [.element ['p'] [(['a'], ['x', '"', 'y'])] [.textNode ['z']]] = false :=
  ⟨rfl, rfl, rfl, rfl⟩

/-- C4 amended: for every serialisable forest (well-formed names, quote-free
alphanumeric attribute values, `<`-free text, no comments, no adjacent text
siblings), lenient re-parsing of the non-pretty, non-shrink serialisation
rebuilds exactly the same tree with every text node whitespace-stripped — in
particular the same shape and the same attribute set at every element. -/
theorem serialize_reparse_round_trip (F : List HTMLNode) (indent : Nat)
    (tabs : Bool) (lim : Nat) (comments : Bool) (hwf : wfForest F = true) :
    buildDoc (write F false indent tabs true false lim) false comments =
      .ok (stripTextsF F) ∧
    shapeEqF (stripTextsF F) F = true := by
  constructor
  · have hw : write F false indent tabs true false lim =
        renderSpecs (flattenF F) := by
      show writeList false indent tabs true false lim F 0 true = _
      exact (write_flatten_aux (listSize F)).2 F (le_refl _) hwf indent tabs
        lim 0 true
    have hstr : wfStream false (flattenF F) = true := by
      have h2 := (wfStream_flatten (listSize F)).2 F (le_refl _) hwf [] rfl
        trivial
      simpa using h2
    have hlen := renderSpecs_length_ge false hstr
    rw [hw]
    obtain ⟨st', hload⟩ := loadRoot_run (renderSpecs (flattenF F)) comments
      (listSize F) F (le_refl _) 0
      (2 * (renderSpecs (flattenF F)).length + 4)
      (initParser (renderSpecs (flattenF F)) false) hwf hstr
      ⟨rfl, rfl, rfl, rfl, by simp, by simp, Or.inl rfl⟩ (by omega)
    simp only [buildDoc, hload, pym_bind_ok, pym_pure]
  · exact (shapeEq_strip (listSize F)).2 F (le_refl _)

/-- C4 amended, witness on a concrete two-level forest. -/
theorem serialize_reparse_round_trip_witness :
    wfForest [HTMLNode.element ['d', 'i', 'v'] [(['a'], ['1'])]
      [HTMLNode.textNode [' ', 'z'], HTMLNode.element ['p'] [] []]] = true ∧
    (buildDoc (write [HTMLNode.element ['d', 'i', 'v'] [(['a'], ['1'])]
        [HTMLNode.textNode [' ', 'z'], HTMLNode.element ['p'] [] []]]
        false 2 false true false 20) false false =
      .ok (stripTextsF [HTMLNode.element ['d', 'i', 'v'] [(['a'], ['1'])]
        [HTMLNode.textNode [' ', 'z'], HTMLNode.element ['p'] [] []]]) ∧
     shapeEqF (stripTextsF [HTMLNode.element ['d', 'i', 'v'] [(['a'], ['1'])]
        [HTMLNode.textNode [' ', 'z'], HTMLNode.element ['p'] [] []]])
       [HTMLNode.element ['d', 'i', 'v'] [(['a'], ['1'])]
        [HTMLNode.textNode [' ', 'z'], HTMLNode.element ['p'] [] []]] =
       true) :=
  ⟨by decide,
   serialize_reparse_round_trip [HTMLNode.element ['d', 'i', 'v']
     [(['a'], ['1'])] [HTMLNode.textNode [' ', 'z'],
      HTMLNode.element ['p'] [] []]] 2 false 20 false (by decide)⟩

end Webr
